import Mathlib

/-!
# The sliding puzzle boards and their solver

A shallow embedding of `board.h`, `board.cpp`, `solver.h` and `solver.cpp`.

Conventions of the embedding.

* `unsigned` is 32 bits wide and `std::size_t` 64 bits wide. Every value of these
  types is a natural number, and each arithmetic operation of the source that can
  wrap is followed by an explicit `% U32` or `% U64`.
* A grid is a list of rows. Coordinates and sides are natural numbers. A grid of
  side `n` keeps `n * n` cells in memory, so a side is always below `2 ^ 32`;
  converting a side between `std::size_t` and `unsigned` is therefore the identity
  and is not written out. The same holds for the length of a move list.
* The product `size * size` is computed in `unsigned` and does wrap for sides from
  `65536` on; the theorems that depend on it carry the hypothesis `n * n < 2 ^ 32`.
* Reading a vector outside its bounds is undefined in the source. `BoardProps.get`
  is total here (it answers `0` outside the grid); the theorems only speak about
  cells inside the grid. Where the source can leave the defined behaviour in a
  loop (`count_inversions_parity`) the embedding returns `none`.
-/

namespace Puzzle

/-- The modulus of the type `unsigned`. -/
def U32 : Nat := 4294967296

/-- The modulus of the type `std::size_t`. -/
def U64 : Nat := 18446744073709551616

/-- The multiplier `BoardProps::HASH_P`. -/
def HASH_P : Nat := 31

/-- The type `std::vector<std::vector<unsigned>>`. -/
abbrev Grid := List (List Nat)

/-- The read `m_data[i][j]` of a cell of a grid. -/
def cell (m_data : Grid) (i j : Nat) : Nat := (m_data.getD i []).getD j 0

/-- The data members of the base class `BoardProps`. -/
structure Cache where
  m_blank_pos : Nat × Nat
  m_manhattan : Nat
  m_hamming : Nat
  m_is_solvable : Bool
  m_hash : Nat
deriving DecidableEq, Repr

/-- The two concrete classes derived from `BoardProps`: a `Board` owns its grid,
a `MovedBoard` holds its parent (shared pointer) and the side. -/
inductive BoardProps where
  | board (m_data : Grid) (base : Cache)
  | moved (m_parent : BoardProps) (m_size : Nat) (base : Cache)
deriving DecidableEq, Repr

namespace BoardProps

/-- The base-class part of a board. -/
def base : BoardProps → Cache
  | board _ c => c
  | moved _ _ c => c

def blank_pos (b : BoardProps) : Nat × Nat := b.base.m_blank_pos

def manhattan (b : BoardProps) : Nat := b.base.m_manhattan

def hamming (b : BoardProps) : Nat := b.base.m_hamming

def is_solvable (b : BoardProps) : Bool := b.base.m_is_solvable

def hash (b : BoardProps) : Nat := b.base.m_hash

/-- The virtual `size()`: `Board::size` and `MovedBoard::size`. -/
def size : BoardProps → Nat
  | board m_data _ => m_data.length
  | moved _ m_size _ => m_size

/-- The virtual `get(x, y)`: `Board::get` reads the grid, `MovedBoard::get`
answers for its own blank, for the blank of its parent, and otherwise asks the
parent. -/
def get : BoardProps → Nat → Nat → Nat
  | board m_data _, x, y => cell m_data x y
  | moved m_parent _ c, x, y =>
    if (x, y) = c.m_blank_pos then 0
    else if (x, y) = m_parent.blank_pos then
      m_parent.get c.m_blank_pos.1 c.m_blank_pos.2
    else m_parent.get x y

/-- The function `BoardProps::is_goal`. -/
def is_goal (b : BoardProps) : Bool := b.size = 0 || b.hamming = 0

end BoardProps

/-- The function `BoardProps::calculate_single_hamming`, on `unsigned` arguments. -/
def calculate_single_hamming (x y label size : Nat) : Nat :=
  if label ≠ ((x * size + y + 1) % U32) % ((size * size) % U32) then 1 else 0

/-- The conversion `static_cast<signed>` of an `unsigned` value. -/
def to_signed (u : Nat) : Int :=
  if u % U32 < 2147483648 then ((u % U32 : Nat) : Int) else ((u % U32 : Nat) : Int) - (U32 : Int)

/-- The conversion of an `int` to `unsigned`. -/
def of_signed (z : Int) : Nat := (z % (U32 : Int)).toNat

/-- The function `BoardProps::calculate_single_manhattan`, on `unsigned` arguments. -/
def calculate_single_manhattan (x y label size : Nat) : Nat :=
  if label = 0 then 0
  else
    let real_index := label - 1
    of_signed (|to_signed (real_index / size) - to_signed x|
      + |to_signed (real_index % size) - to_signed y|)

/-- The recursion of `BoardProps::bin_pow` in `std::size_t` arithmetic. The first
argument bounds the depth of the recursion; `bin_pow` starts it at `exp`, which is
always enough because every call lowers `exp`. -/
def bin_pow_rec : Nat → Nat → Nat → Nat
  | 0, _, _ => 1
  | fuel + 1, base, exp =>
    if exp = 0 then 1
    else if exp = 1 then base
    else if exp % 2 = 0 then
      let half := bin_pow_rec fuel base (exp / 2)
      (half * half) % U64
    else (bin_pow_rec fuel base (exp - 1) * base) % U64

/-- The function `BoardProps::bin_pow`. -/
def bin_pow (base exp : Nat) : Nat := bin_pow_rec exp base exp

/-- Subtraction of `unsigned` values. -/
def sub32 (a b : Nat) : Nat := (a + (U32 - b % U32)) % U32

/-- Addition of `unsigned` values. -/
def add32 (a b : Nat) : Nat := (a + b) % U32

/-- Subtraction of `std::size_t` values. -/
def sub64 (a b : Nat) : Nat := (a + (U64 - b % U64)) % U64

/-- Addition of `std::size_t` values. -/
def add64 (a b : Nat) : Nat := (a + b) % U64

/-- Multiplication of `std::size_t` values. -/
def mul64 (a b : Nat) : Nat := (a * b) % U64

/-- The constructor `MovedBoard::MovedBoard(parent, new_blank)`. -/
def MovedBoard (parent : BoardProps) (new_blank : Nat × Nat) : BoardProps :=
  let n := parent.size
  let old := parent.blank_pos
  let label := parent.get new_blank.1 new_blank.2
  let blank := parent.get old.1 old.2
  BoardProps.moved parent n
    { m_blank_pos := new_blank
      m_manhattan :=
        add32 (sub32 parent.manhattan
            (calculate_single_manhattan new_blank.1 new_blank.2 label n))
          (calculate_single_manhattan old.1 old.2 label n)
      m_hamming :=
        add32 (add32 (sub32 (sub32 parent.hamming
                (calculate_single_hamming new_blank.1 new_blank.2 label n))
              (calculate_single_hamming old.1 old.2 blank n))
            (calculate_single_hamming old.1 old.2 label n))
          (calculate_single_hamming new_blank.1 new_blank.2 blank n)
      m_is_solvable := parent.is_solvable
      m_hash :=
        add64 (sub64 parent.hash
            (mul64 label (bin_pow HASH_P (new_blank.1 * n + new_blank.2))))
          (mul64 label (bin_pow HASH_P (old.1 * n + old.2))) }

namespace Board

/-- The loop of `Board::count`: the sum of `func` over the cells in row-major order,
in `unsigned` arithmetic. -/
def count (func : Nat → Nat → Nat → Nat → Nat) (m_data : Grid) : Nat :=
  let n := m_data.length
  (List.range n).foldl
    (fun counter i =>
      (List.range n).foldl
        (fun counter j => (counter + func i j (cell m_data i j) n) % U32)
        counter)
    0

/-- The function `Board::calculate_hamming`. -/
def calculate_hamming (m_data : Grid) : Nat := count calculate_single_hamming m_data

/-- The function `Board::calculate_manhattan`. -/
def calculate_manhattan (m_data : Grid) : Nat := count calculate_single_manhattan m_data

/-- The function `Board::calculate_hash`: the state of the loops is the pair
`(p, result)`. -/
def calculate_hash (m_data : Grid) : Nat :=
  let n := m_data.length
  ((List.range n).foldl
    (fun st i =>
      (List.range n).foldl
        (fun st j =>
          ((st.1 * HASH_P) % U64, (st.2 + cell m_data i j * st.1) % U64))
        st)
    (1, 0)).2

end Board

/-- The errors of the embedding: the exception `std::logic_error` thrown by
`Board::calc_blank_pos`, and leaving the defined behaviour of the language (a read
outside a vector, or a loop that never ends). -/
inductive BoardError where
  | logic_error
  | undefined
deriving DecidableEq, Repr

namespace Board

/-- The function `Board::calc_blank_pos`: the first cell in row-major order that
holds `0`, or the exception. -/
def calc_blank_pos (m_data : Grid) : Except BoardError (Nat × Nat) :=
  let n := m_data.length
  if n = 0 then Except.ok (0, 0)
  else
    match (List.product (List.range n) (List.range n)).find?
        (fun p => cell m_data p.1 p.2 = 0) with
    | some p => Except.ok p
    | none => Except.error BoardError.logic_error

/-- The inner `while` loop of `Board::count_inversions_parity` for one value of
`i`, on the state `(copy, counter)`. The first argument bounds the number of
passes; `none` is a read outside `copy` or a loop that does not stop within the
bound. -/
def sort_cycle : Nat → Nat → List Nat → Nat → Option (List Nat × Nat)
  | 0, _, _, _ => none
  | fuel + 1, i, copy, counter =>
    match copy[i]? with
    | none => none
    | some ci =>
      let goal_pos := (ci + (U32 - 1)) % U32
      if goal_pos = i then some (copy, counter)
      else
        match copy[goal_pos]? with
        | none => none
        | some cg =>
          sort_cycle fuel i ((copy.set i cg).set goal_pos ci) ((counter + 1) % 2)

/-- The outer `for` loop of `Board::count_inversions_parity` over the given values
of `i`. -/
def sort_loop (fuel : Nat) : List Nat → List Nat × Nat → Option (List Nat × Nat)
  | [], st => some st
  | i :: rest, st => (sort_cycle fuel i st.1 st.2).bind (sort_loop fuel rest)

/-- The function `Board::count_inversions_parity`. Each `while` loop is given
`copy.size() + 1` passes. -/
def count_inversions_parity (m_data : Grid) : Option Nat :=
  let sz_squared := (m_data.length * m_data.length) % U32
  let copy := m_data.flatten.filter (fun j => j ≠ 0)
  (sort_loop (copy.length + 1) (List.range ((sz_squared + (U32 - 1)) % U32)) (copy, 0)).map
    Prod.snd

/-- The function `Board::calculate_solvability`, from the grid and the members
`m_blank_pos` and `m_hamming` that `calculate_props` has already set. -/
def calculate_solvability (m_data : Grid) (m_blank_pos : Nat × Nat) (m_hamming : Nat) :
    Option Bool :=
  if m_data.length = 0 ∨ m_hamming = 0 then some true
  else
    (count_inversions_parity m_data).map (fun inversions =>
      if m_data.length % 2 ≠ 0 then decide (inversions = 0)
      else if m_blank_pos.1 % 2 = 0 then decide (inversions ≠ 0)
      else decide (inversions = 0))

/-- The constructor `Board::Board(field)` followed by `Board::calculate_props`. -/
def of_field (field : Grid) : Except BoardError BoardProps :=
  match calc_blank_pos field with
  | Except.error e => Except.error e
  | Except.ok m_blank_pos =>
    let m_manhattan := calculate_manhattan field
    let m_hamming := calculate_hamming field
    match calculate_solvability field m_blank_pos m_hamming with
    | none => Except.error BoardError.undefined
    | some m_is_solvable =>
      Except.ok (BoardProps.board field
        { m_blank_pos := m_blank_pos
          m_manhattan := m_manhattan
          m_hamming := m_hamming
          m_is_solvable := m_is_solvable
          m_hash := calculate_hash field })

/-- The unchecked constructor of `Board` from a grid and a precalculated cache. -/
def of_cache (field : Grid) (manhattan hamming : Nat) (blank_pos : Nat × Nat)
    (is_solvable : Bool) (hash : Nat) : BoardProps :=
  BoardProps.board field
    { m_blank_pos := blank_pos
      m_manhattan := manhattan
      m_hamming := hamming
      m_is_solvable := is_solvable
      m_hash := hash }

/-- The function `Board::create_goal`. The grid starts as `size` rows of `size`
zeros; the loop over `i < size * size` writes the cells one by one. -/
def create_goal (size : Nat) : Except BoardError BoardProps :=
  let field : Grid := List.replicate size (List.replicate size 0)
  of_field
    ((List.range ((size * size) % U32)).foldl
      (fun field i =>
        field.set (i / size) ((field.getD (i / size) []).set (i % size)
          ((i + 1) % U32 % ((size * size) % U32))))
      field)

end Board

/-- The grid a board stands for, read cell by cell through `get` as
`Solver::Solution::Iterator::operator++` does when it fills `internal_data`. -/
def internal_data (b : BoardProps) : Grid :=
  (List.range b.size).map (fun i => (List.range b.size).map (fun j => b.get i j))

/-- The grid of a board: the member `m_data` of a `Board`, and for a `MovedBoard`
the grid that its `get` describes. -/
def BoardProps.grid : BoardProps → Grid
  | BoardProps.board m_data _ => m_data
  | b => internal_data b

/-- The double sum of a cell-wise contribution over a square of side `n`. -/
def cell_sum {R : Type} [AddCommMonoid R] (F : Nat → Nat → R) (n : Nat) : R :=
  ∑ i in Finset.range n, ∑ j in Finset.range n, F i j

/-- The blank of a board is recorded correctly: `blank_pos` lies inside the grid and
the cell there holds `0`. -/
def blank_ok (p : BoardProps) : Prop :=
  p.blank_pos.1 < p.size ∧ p.blank_pos.2 < p.size ∧ p.get p.blank_pos.1 p.blank_pos.2 = 0

instance (p : BoardProps) : Decidable (blank_ok p) := by
  unfold blank_ok; infer_instance

/-- The board that `Solver::Solution::Iterator::operator++` stores: the grid of the
delta copied into `internal_data`, with the cache of the delta taken over. -/
def snapshot (moved : BoardProps) : BoardProps :=
  Board.of_cache (internal_data moved) moved.manhattan moved.hamming moved.blank_pos
    moved.is_solvable moved.hash

/-- The cells of a square of side `n` read through `f` in row-major order. -/
def row_major (f : Nat → Nat → Nat) (n : Nat) : List Nat :=
  (List.range (n * n)).map (fun k => f (k / n) (k % n))

/-- The rows of the grid all have as many cells as the grid has rows. -/
def is_square (g : Grid) : Prop := ∀ row ∈ g, row.length = g.length

instance (g : Grid) : Decidable (is_square g) := by
  unfold is_square; infer_instance

/-- The grid is square of side `n` and holds each of `0 .. n * n - 1` once. -/
def is_permutation (g : Grid) : Prop :=
  is_square g ∧ List.Perm g.flatten (List.range (g.length * g.length))

instance (g : Grid) : Decidable (is_permutation g) := by
  unfold is_permutation; infer_instance

/-- The number of inversions of a sequence: the pairs of entries that are out of
their relative sorted order. -/
def inversions : List Nat → Nat
  | [] => 0
  | a :: l => l.countP (fun b => decide (b < a)) + inversions l

/-- The number of pairs, one entry from `X` and one from `Z`, where the entry of `Z`
is the smaller one. -/
def cross_inversions (X Z : List Nat) : Nat :=
  (X.map (fun a => Z.countP (fun b => decide (b < a)))).sum

/-- The number of positions of a list at which the entry is not the position plus
one, the positions counted from `s`. -/
def misplaced (s : Nat) : List Nat → Nat
  | [] => 0
  | a :: l => (if a = s + 1 then 0 else 1) + misplaced (s + 1) l

/-- The sequence that `count_inversions_parity` sorts: the non-blank cells in
row-major order. -/
def tiles (m_data : Grid) : List Nat := m_data.flatten.filter (fun j => decide (j ≠ 0))

/-- The rule of `calculate_solvability` on the parity of the inversions, the side and
the row of the blank. -/
def parity_rule (size inversions blank_row : Nat) : Bool :=
  if size % 2 ≠ 0 then decide (inversions = 0)
  else if blank_row % 2 = 0 then decide (inversions ≠ 0)
  else decide (inversions = 0)

/-- Two cells are neighbours in a row or in a column. -/
def adjacent (a b : Nat × Nat) : Prop :=
  (a.1 = b.1 ∧ (a.2 + 1 = b.2 ∨ b.2 + 1 = a.2)) ∨ (a.2 = b.2 ∧ (a.1 + 1 = b.1 ∨ b.1 + 1 = a.1))

instance (a b : Nat × Nat) : Decidable (adjacent a b) := by
  unfold adjacent; infer_instance

/-- The function `BoardProps::move_relative` on `unsigned` offsets: the target is
computed in `unsigned` arithmetic, stored as a pair of `int`, tested against the
side, and handed to the constructor of `MovedBoard` as a pair of `unsigned`. The
result `none` is the empty shared pointer. -/
def move_relative (par : BoardProps) (dx dy : Nat) : Option BoardProps :=
  let target : Int × Int :=
    (to_signed ((par.blank_pos.1 + dx) % U32), to_signed ((par.blank_pos.2 + dy) % U32))
  if 0 ≤ target.1 ∧ target.1 < to_signed par.size
      ∧ 0 ≤ target.2 ∧ target.2 < to_signed par.size then
    some (MovedBoard par (of_signed target.1, of_signed target.2))
  else none

/-- The comparison `operator==` of two boards: the hashes first, then the cells with
`i` below the side of the left board and `j` below the side of the right one. -/
def board_eq (lhs rhs : BoardProps) : Bool :=
  if lhs.hash ≠ rhs.hash then false
  else
    (List.range lhs.size).all (fun i =>
      (List.range rhs.size).all (fun j => decide (lhs.get i j = rhs.get i j)))

/-- The class `Solver::Solution`. -/
structure Solution where
  m_initial : BoardProps
  m_moves : List (Nat × Nat)
deriving DecidableEq, Repr

/-- The class `Solver::Solution::Iterator`; `m_blank_nodes` is the vector the
iterator refers to. -/
structure Iterator where
  m_board : BoardProps
  m_blank_nodes : List (Nat × Nat)
  m_cur_pos : Nat
deriving DecidableEq, Repr

namespace Iterator

/-- The comparison `operator==` of two iterators. -/
def eq (lhs rhs : Iterator) : Bool :=
  decide (lhs.m_cur_pos = rhs.m_cur_pos) && decide (lhs.m_blank_nodes = rhs.m_blank_nodes)

/-- The increment `operator++`. -/
def next (it : Iterator) : Iterator :=
  let m_cur_pos := it.m_cur_pos + 1
  match it.m_blank_nodes[m_cur_pos]? with
  | some new_blank =>
    { it with m_cur_pos := m_cur_pos, m_board := snapshot (MovedBoard it.m_board new_blank) }
  | none => { it with m_cur_pos := m_cur_pos }

/-- The boards met by the loop `for (it = first; it != last; ++it)`. The first
argument bounds the number of passes. -/
def collect : Nat → Iterator → Iterator → List BoardProps
  | 0, _, _ => []
  | fuel + 1, it, last => if it.eq last then [] else it.m_board :: collect fuel it.next last

end Iterator

namespace Solution

/-- The constructor `Solution(const Board &)`. -/
def of_board (brd : BoardProps) : Solution := { m_initial := brd, m_moves := [] }

/-- The constructor `Solution(const Board &, moves)`. -/
def of_moves (brd : BoardProps) (moves : List (Nat × Nat)) : Solution :=
  { m_initial := brd, m_moves := moves }

/-- The loop of the constructor `Solution(const MovedBoard &)`: the blank positions
pushed while walking to the parents, and the `Board` at the end of the walk. -/
def unwind : BoardProps → List (Nat × Nat) × BoardProps
  | BoardProps.board m_data c => ([], BoardProps.board m_data c)
  | BoardProps.moved m_parent _ c => (c.m_blank_pos :: (unwind m_parent).1, (unwind m_parent).2)

/-- The constructor `Solution(const MovedBoard &)`. -/
def of_result (result : BoardProps) : Solution :=
  { m_initial := (unwind result).2, m_moves := (unwind result).1.reverse }

/-- The function `Solution::moves`. -/
def moves (s : Solution) : Nat := if s.m_moves.isEmpty then 0 else s.m_moves.length - 1

/-- The function `Solution::begin`. -/
def begin_ (s : Solution) : Iterator :=
  { m_board := s.m_initial, m_blank_nodes := s.m_moves, m_cur_pos := 0 }

/-- The function `Solution::end`. -/
def end_ (s : Solution) : Iterator :=
  { m_board := s.m_initial, m_blank_nodes := s.m_moves, m_cur_pos := s.m_moves.length }

/-- The sequence of snapshots of a solution, from `begin()` up to `end()`. The loop
makes one pass per entry of `m_moves`. -/
def snapshots (s : Solution) : List BoardProps :=
  Iterator.collect s.m_moves.length s.begin_ s.end_

end Solution

namespace Solver

/-- The array `Solver::available_moves`. -/
def available_moves : List (Int × Int) := [(1, 0), (0, 1), (-1, 0), (0, -1)]

/-- The order of the keys of `current_moves`, pairs of `unsigned`. -/
def key_lt (a b : Nat × Nat) : Bool := decide (a.1 < b.1) || (decide (a.1 = b.1) && decide (a.2 < b.2))

/-- The call `current_moves.emplace(key, node)` on a `std::multimap`, kept as the list
of its entries in order: the new entry goes behind the entries whose key is not
greater. -/
def emplace (key : Nat × Nat) (node : BoardProps) :
    List ((Nat × Nat) × BoardProps) → List ((Nat × Nat) × BoardProps)
  | [] => [(key, node)]
  | e :: rest => if key_lt key e.1 then (key, node) :: e :: rest else e :: emplace key node rest

/-- One pass of the loop over `available_moves` in `Solver::a_star`. -/
def expand (k : Nat) (cur_key : Nat × Nat) (cur_node : BoardProps) (used_states : List Nat)
    (current_moves : List ((Nat × Nat) × BoardProps)) (move : Int × Int) :
    List ((Nat × Nat) × BoardProps) :=
  match move_relative cur_node (of_signed move.1) (of_signed move.2) with
  | some new_pos =>
    if new_pos.hash ∈ used_states then current_moves
    else
      emplace ((cur_key.2 + 1 + new_pos.manhattan * k) % U32, (cur_key.2 + 1) % U32) new_pos
        current_moves
  | none => current_moves

/-- The `while` loop of `Solver::a_star` on the state `(current_moves, used_states)`.
The first argument bounds the number of passes: the outer `none` says that the bound
was reached, `some none` is the empty pointer returned when the frontier is empty. -/
def a_star_loop (k : Nat) :
    Nat → List ((Nat × Nat) × BoardProps) → List Nat → Option (Option BoardProps)
  | 0, _, _ => none
  | _ + 1, [], _ => some none
  | fuel + 1, cur_node :: current_moves, used_states =>
    if cur_node.2.is_goal then some (some cur_node.2)
    else
      a_star_loop k fuel
        (available_moves.foldl (expand k cur_node.1 cur_node.2 used_states) current_moves)
        (cur_node.2.hash :: used_states)

/-- The function `Solver::a_star`. When `move_relative` gives no root delta the first
pass reads through an empty pointer, which is `none` here. -/
def a_star (fuel : Nat) (board : BoardProps) : Option (Option BoardProps) :=
  let k := if board.size > 4 then 39 else 3
  match move_relative board 0 0 with
  | none => none
  | some root => a_star_loop k fuel [(((board.manhattan * k) % U32, 0), root)] []

/-- The function `Solver::solve`. The result `none` says that `a_star` did not
return within the bound or that `assert(result)` failed. -/
def solve (fuel : Nat) (board : BoardProps) : Option Solution :=
  if !board.is_solvable then some (Solution.of_board board)
  else if board.is_goal then some (Solution.of_moves board [board.blank_pos])
  else
    match a_star fuel board with
    | some (some result) => some (Solution.of_result result)
    | _ => none

end Solver

/-- The state of a board that the search relies on: the grid is a permutation, the
blank is recorded correctly, and the cached values are the recomputed ones. -/
def valid (b : BoardProps) : Prop :=
  is_permutation b.grid ∧ blank_ok b
    ∧ b.hamming = Board.calculate_hamming b.grid
    ∧ b.manhattan = Board.calculate_manhattan b.grid
    ∧ b.hash = Board.calculate_hash b.grid

/-- Two boards of the same side with the same cache and the same cells. -/
def same_board (a b : BoardProps) : Prop :=
  a.size = b.size ∧ a.base = b.base ∧ ∀ i j, i < a.size → j < a.size → a.get i j = b.get i j

/-- The deltas that the search can build over the board `root`: the root delta of
`move_relative(root, 0, 0)`, and a delta over a built one whose blank moved to a
neighbouring cell inside the grid. -/
inductive Reach (root : BoardProps) : BoardProps → Prop where
  | start : Reach root (MovedBoard root root.blank_pos)
  | step (p : BoardProps) (t : Nat × Nat) : Reach root p → t.1 < root.size → t.2 < root.size →
      adjacent p.blank_pos t → Reach root (MovedBoard p t)

/-- The board that a replay ends with: the snapshots taken along the blank positions
`ts`, starting from `b`. -/
def final (b : BoardProps) (ts : List (Nat × Nat)) : BoardProps :=
  ts.foldl (fun s t => snapshot (MovedBoard s t)) b

/-- The boards of a replay from `b` along the blank positions `ts`. -/
def replay : BoardProps → List (Nat × Nat) → List BoardProps
  | b, [] => [b]
  | b, t :: ts => b :: replay (snapshot (MovedBoard b t)) ts

/-- The goal arrangement of side `n`: the row-major cell `i` holds `(i + 1) mod (n * n)`. -/
def goal_grid (n : Nat) : Grid :=
  (List.range n).map (fun x => (List.range n).map (fun y => (x * n + y + 1) % (n * n)))

/-- The board that the heavy constructor builds from the goal arrangement. -/
def goal_board (n : Nat) : BoardProps :=
  BoardProps.board (goal_grid n)
    { m_blank_pos := (n - 1, n - 1)
      m_manhattan := 0
      m_hamming := 0
      m_is_solvable := true
      m_hash := Board.calculate_hash (goal_grid n) }

/-- The board of the grid `[[1, 2, 3], [4, 5, 6], [8, 7, 0]]`, as the heavy constructor
builds it. -/
def swapped_pair_board : BoardProps :=
  BoardProps.board [[1, 2, 3], [4, 5, 6], [8, 7, 0]]
    { m_blank_pos := (2, 2)
      m_manhattan := 2
      m_hamming := 2
      m_is_solvable := false
      m_hash := 199864842846 }

/-- The board that the heavy constructor builds from the goal arrangement after one
move of the blank to the cell `t`. -/
def one_move_board (n : Nat) (t : Nat × Nat) : BoardProps :=
  BoardProps.board (MovedBoard (goal_board n) t).grid
    { m_blank_pos := t
      m_manhattan := Board.calculate_manhattan (MovedBoard (goal_board n) t).grid
      m_hamming := Board.calculate_hamming (MovedBoard (goal_board n) t).grid
      m_is_solvable :=
        parity_rule n (inversions (tiles (MovedBoard (goal_board n) t).grid) % 2) t.1
      m_hash := Board.calculate_hash (MovedBoard (goal_board n) t).grid }

/-- The state of the frontier while the root of the one-move board is expanded: every
entry is the entry of the goal delta or carries the key of a board two steps away, and
once the goal delta is in, it is the first entry. -/
def frontier_inv (goal_entry : (Nat × Nat) × BoardProps) (big : Nat × Nat) (seen : Prop)
    (fr : List ((Nat × Nat) × BoardProps)) : Prop :=
  (∀ e ∈ fr, e = goal_entry ∨ e.1 = big) ∧ (seen → fr.head? = some goal_entry)

/-- The board of the grid `[[1, 2, 3], [4, 5, 6], [7, 0, 8]]`, as the heavy constructor
builds it. -/
def sample_board : BoardProps :=
  BoardProps.board [[1, 2, 3], [4, 5, 6], [7, 0, 8]]
    { m_blank_pos := (2, 1)
      m_manhattan := 1
      m_hamming := 2
      m_is_solvable := true
      m_hash := 6829517339916 }

/-- The goal position of a tile, in the words of the specification:
`((label - 1) / size, (label - 1) % size)`. -/
def goal_position (label size : Nat) : Nat × Nat := ((label - 1) / size, (label - 1) % size)

/-- Specification side: the number of non-blank tiles of a grid that are not at their
goal position; the blank cell is not counted. -/
def misplaced_tiles (g : Grid) : Nat :=
  ((List.range g.length).map (fun i =>
    ((List.range g.length).map (fun j =>
      if cell g i j ≠ 0 ∧ goal_position (cell g i j) g.length ≠ (i, j) then 1 else 0)).sum)).sum

/-- The board that the default constructor `Board()` builds from the empty grid. -/
def empty_board : BoardProps :=
  BoardProps.board []
    { m_blank_pos := (0, 0), m_manhattan := 0, m_hamming := 0, m_is_solvable := true, m_hash := 0 }

/-- The board that the heavy constructor builds from the grid `[[0]]`. -/
def single_cell_board : BoardProps :=
  BoardProps.board [[0]]
    { m_blank_pos := (0, 0), m_manhattan := 0, m_hamming := 0, m_is_solvable := true, m_hash := 0 }

/-- The loop of `BoardProps::count_num_len` on the state `(num, counter)`. The first
argument bounds the number of iterations; a loop that has not ended within the bound
is answered by `none`. -/
def count_num_len_loop : Nat → Nat → Nat → Option Nat
  | 0, _, _ => none
  | fuel + 1, num, counter =>
    if num > 9 then count_num_len_loop fuel (num / 10) ((counter + 1) % U32)
    else some counter

/-- The function `BoardProps::count_num_len`. The loop divides `num` by ten in every
iteration, so the bound `num + 1` is never reached. -/
def BoardProps.count_num_len (num : Nat) : Option Nat := count_num_len_loop (num + 1) num 1

/-- The function `BoardProps::to_string`, the `std::string` taken as the list of its
characters. `std::to_string` of an `unsigned` is its decimal writing
`Nat.toDigits 10`; the padding loop appends `num_len - cur_num_len` spaces, none when
the writing is at least `num_len` long. -/
def BoardProps.to_string (b : BoardProps) : Option (List Char) :=
  (BoardProps.count_num_len (mul64 b.size b.size % U32)).map fun num_len =>
    let result :=
      (List.range b.size).foldl
        (fun result i =>
          (List.range b.size).foldl
            (fun result j =>
              let cur_num := Nat.toDigits 10 (b.get i j)
              let cur_num_len := cur_num.length
              result ++ List.replicate (num_len - cur_num_len) ' ' ++ cur_num ++ ['|'])
            (result ++ ['|'])
          ++ ['\n'])
        []
    if result.isEmpty then "<empty>".toList else result

/-- Specification side: a text padded with spaces on its right up to the width `w`. -/
def right_padded (w : Nat) (s : List Char) : List Char := s ++ List.replicate (w - s.length) ' '

/-- Specification side: a text padded with spaces on its left up to the width `w`. -/
def left_padded (w : Nat) (s : List Char) : List Char := List.replicate (w - s.length) ' ' ++ s

/-- Specification side: the rendering of a board as a text, for every row a `|`, then
every cell as its decimal label padded by `pad` to the width `w` and followed by
`|`, and a newline at the end of the row. -/
def rendering (pad : Nat → List Char → List Char) (w : Nat) (b : BoardProps) : List Char :=
  ((List.range b.size).map fun i =>
    '|' :: (((List.range b.size).map fun j =>
      pad w (Nat.toDigits 10 (b.get i j)) ++ ['|']).flatten ++ ['\n'])).flatten

/-- The board of the goal arrangement of side 4, whose labels have one or two
digits. -/
def wide_board : BoardProps := goal_board 4

/-- Specification side: the grid `g` with the labels of the cells `p` and `t`
exchanged. -/
def exchange (g : Grid) (p t : Nat × Nat) : Grid :=
  (List.range g.length).map fun i => (List.range g.length).map fun j =>
    if (i, j) = t then cell g p.1 p.2
    else if (i, j) = p then cell g t.1 t.2
    else cell g i j

/-- Specification side: the grids that one legal blank move makes from `g`, the blank
exchanged with a tile in a neighbouring cell of the grid. -/
def blank_moves (g : Grid) : List Grid :=
  ((List.product (List.range g.length) (List.range g.length)).filter
      (fun p => decide (cell g p.1 p.2 = 0))).flatMap fun p =>
    ((List.product (List.range g.length) (List.range g.length)).filter
      (fun t => decide (adjacent p t))).map (exchange g p)

/-- Specification side: one legal blank move leads from `g` to `h`. -/
def legal_move (g h : Grid) : Prop := h ∈ blank_moves g

/-- Specification side: the arrangement `h` can be reached from `g` by a finite
sequence of legal blank moves. -/
def Reachable (g h : Grid) : Prop := Relation.ReflTransGen legal_move g h

/-- Specification side: the brute-force search, `h` is found from `g` within `k`
legal blank moves. -/
def reach_within : Nat → Grid → Grid → Bool
  | 0, g, h => decide (g = h)
  | k + 1, g, h => decide (g = h) || (blank_moves g).any (fun g' => reach_within k g' h)

/-- The solvability flag of the board that the heavy constructor builds from a grid,
when it builds one. -/
def solvable_flag (g : Grid) : Option Bool :=
  match Board.of_field g with
  | Except.ok b => some b.is_solvable
  | Except.error _ => none

/-- The 24 arrangements of `0 .. 3` on a grid of side 2. -/
def arrangements_two : List Grid :=
  [[[0, 1], [2, 3]], [[0, 1], [3, 2]], [[0, 2], [1, 3]], [[0, 2], [3, 1]],
   [[0, 3], [1, 2]], [[0, 3], [2, 1]], [[1, 0], [2, 3]], [[1, 0], [3, 2]],
   [[1, 2], [0, 3]], [[1, 2], [3, 0]], [[1, 3], [0, 2]], [[1, 3], [2, 0]],
   [[2, 0], [1, 3]], [[2, 0], [3, 1]], [[2, 1], [0, 3]], [[2, 1], [3, 0]],
   [[2, 3], [0, 1]], [[2, 3], [1, 0]], [[3, 0], [1, 2]], [[3, 0], [2, 1]],
   [[3, 1], [0, 2]], [[3, 1], [2, 0]], [[3, 2], [0, 1]], [[3, 2], [1, 0]]]

/-- The number of entries of the frontier whose hash is already in `used_states`. -/
def stale (used : List Nat) (frontier : List ((Nat × Nat) × BoardProps)) : Nat :=
  frontier.countP (fun e => decide (e.2.hash ∈ used))

/-- The state of the loop of `a_star` over the board `root`: the nodes of the
frontier are deltas built over the root; the hashes of `used_states` belong to
deltas that are not the goal; every neighbour of a delta whose hash is in
`used_states` has its hash in `used_states` or in the frontier, and so has the root
delta. -/
def search_inv (root : BoardProps) (frontier : List ((Nat × Nat) × BoardProps))
    (used : List Nat) : Prop :=
  (∀ e ∈ frontier, Reach root e.2)
    ∧ (∀ h ∈ used, ∃ p, Reach root p ∧ p.hash = h ∧ p.is_goal = false)
    ∧ (∀ p, Reach root p → p.hash ∈ used →
        ∀ t : Nat × Nat, t.1 < root.size → t.2 < root.size → adjacent p.blank_pos t →
          (MovedBoard p t).hash ∈ used ∨ ∃ e ∈ frontier, e.2.hash = (MovedBoard p t).hash)
    ∧ ((MovedBoard root root.blank_pos).hash ∈ used
        ∨ ∃ e ∈ frontier, e.2.hash = (MovedBoard root root.blank_pos).hash)

/-! ## Arithmetic modulo the width of the machine types -/

theorem cast_mod_self (m a : Nat) : (((a % m : Nat)) : ZMod m) = (a : ZMod m) :=
  ZMod.natCast_mod a m

theorem cast_sub_mod (m a b : Nat) (hm : 0 < m) :
    (((a + (m - b % m)) % m : Nat) : ZMod m) = (a : ZMod m) - (b : ZMod m) := by
  rw [ZMod.natCast_mod, Nat.cast_add, Nat.cast_sub (Nat.le_of_lt (Nat.mod_lt b hm)),
    ZMod.natCast_mod, ZMod.natCast_self]
  ring

theorem eq_of_cast_eq (m a b : Nat) (ha : a < m) (hb : b < m)
    (h : (a : ZMod m) = (b : ZMod m)) : a = b := by
  have h2 := (ZMod.natCast_eq_natCast_iff' a b m).1 h
  rwa [Nat.mod_eq_of_lt ha, Nat.mod_eq_of_lt hb] at h2

theorem U32_pos : 0 < U32 := by decide

theorem U64_pos : 0 < U64 := by decide

theorem cast_sub32 (a b : Nat) : ((sub32 a b : Nat) : ZMod U32) = (a : ZMod U32) - b :=
  cast_sub_mod U32 a b U32_pos

theorem cast_add32 (a b : Nat) : ((add32 a b : Nat) : ZMod U32) = (a : ZMod U32) + b := by
  unfold add32; rw [ZMod.natCast_mod, Nat.cast_add]

theorem cast_sub64 (a b : Nat) : ((sub64 a b : Nat) : ZMod U64) = (a : ZMod U64) - b :=
  cast_sub_mod U64 a b U64_pos

theorem cast_add64 (a b : Nat) : ((add64 a b : Nat) : ZMod U64) = (a : ZMod U64) + b := by
  unfold add64; rw [ZMod.natCast_mod, Nat.cast_add]

theorem cast_mul64 (a b : Nat) : ((mul64 a b : Nat) : ZMod U64) = (a : ZMod U64) * b := by
  unfold mul64; rw [ZMod.natCast_mod, Nat.cast_mul]

theorem add32_lt (a b : Nat) : add32 a b < U32 := Nat.mod_lt _ U32_pos

theorem add64_lt (a b : Nat) : add64 a b < U64 := Nat.mod_lt _ U64_pos

/-- The recursion of `bin_pow` computes the power modulo `2 ^ 64` when the bound
on the depth is at least the exponent. -/
theorem cast_bin_pow_rec (base : Nat) :
    ∀ (fuel exp : Nat), exp ≤ fuel →
      ((bin_pow_rec fuel base exp : Nat) : ZMod U64) = (base : ZMod U64) ^ exp := by
  intro fuel
  induction fuel with
  | zero =>
    intro exp h
    have : exp = 0 := by omega
    subst this
    simp [bin_pow_rec]
  | succ f ih =>
    intro exp h
    unfold bin_pow_rec
    by_cases h0 : exp = 0
    · simp [h0]
    · by_cases h1 : exp = 1
      · simp [h1]
      · by_cases h2 : exp % 2 = 0
        · simp only [h0, h1, h2, if_true, if_false]
          rw [ZMod.natCast_mod, Nat.cast_mul, ih (exp / 2) (by omega), ← pow_add]
          congr 1
          omega
        · simp only [h0, h1, h2, if_false]
          rw [ZMod.natCast_mod, Nat.cast_mul, ih (exp - 1) (by omega), ← pow_succ]
          congr 1
          omega

theorem cast_bin_pow (base exp : Nat) :
    ((bin_pow base exp : Nat) : ZMod U64) = (base : ZMod U64) ^ exp :=
  cast_bin_pow_rec base exp exp (le_refl _)

/-- A loop that adds `f j` modulo `m` for `j < n`. -/
theorem cast_foldl_add_mod (m : Nat) (f : Nat → Nat) (n c : Nat) :
    (((List.range n).foldl (fun c j => (c + f j) % m) c : Nat) : ZMod m)
      = (c : ZMod m) + ∑ j in Finset.range n, (f j : ZMod m) := by
  induction n with
  | zero => simp
  | succ k ih =>
    rw [List.range_succ, List.foldl_append, Finset.sum_range_succ]
    simp only [List.foldl_cons, List.foldl_nil]
    rw [ZMod.natCast_mod, Nat.cast_add, ih]
    ring

theorem foldl_add_mod_lt (m : Nat) (hm : 0 < m) (f : Nat → Nat) (n c : Nat) (hc : c < m) :
    (List.range n).foldl (fun c j => (c + f j) % m) c < m := by
  induction n with
  | zero => simpa using hc
  | succ k _ =>
    rw [List.range_succ, List.foldl_append]
    simp only [List.foldl_cons, List.foldl_nil]
    exact Nat.mod_lt _ hm

/-- The nested loops of `Board::count` as a double sum modulo `2 ^ 32`. -/
theorem cast_foldl_foldl (m : Nat) (f : Nat → Nat → Nat) (w n c : Nat) :
    (((List.range n).foldl
        (fun c i => (List.range w).foldl (fun c j => (c + f i j) % m) c) c : Nat) : ZMod m)
      = (c : ZMod m) + ∑ i in Finset.range n, ∑ j in Finset.range w, (f i j : ZMod m) := by
  induction n with
  | zero => simp
  | succ k ih =>
    rw [List.range_succ, List.foldl_append, Finset.sum_range_succ]
    simp only [List.foldl_cons, List.foldl_nil]
    rw [cast_foldl_add_mod, ih]
    ring

theorem foldl_foldl_lt (m : Nat) (hm : 0 < m) (f : Nat → Nat → Nat) (w n c : Nat)
    (hc : c < m) :
    (List.range n).foldl
        (fun c i => (List.range w).foldl (fun c j => (c + f i j) % m) c) c < m := by
  induction n with
  | zero => simpa using hc
  | succ k ih =>
    rw [List.range_succ, List.foldl_append]
    simp only [List.foldl_cons, List.foldl_nil]
    exact foldl_add_mod_lt m hm _ _ _ ih

theorem cell_sum_congr {R : Type} [AddCommMonoid R] (F G : Nat → Nat → R) (n : Nat)
    (h : ∀ i j, i < n → j < n → F i j = G i j) : cell_sum F n = cell_sum G n := by
  unfold cell_sum
  refine Finset.sum_congr rfl (fun i hi => Finset.sum_congr rfl (fun j hj => ?_))
  exact h i j (Finset.mem_range.1 hi) (Finset.mem_range.1 hj)

/-- Two contributions that agree away from the cells `t` and `b` have sums that
differ by the contributions at these two cells. -/
theorem cell_sum_two {R : Type} [AddCommGroup R] (F G : Nat → Nat → R) (n : Nat)
    (t b : Nat × Nat) (htb : t ≠ b)
    (ht : t.1 < n ∧ t.2 < n) (hb : b.1 < n ∧ b.2 < n)
    (h : ∀ i j, (i, j) ≠ t → (i, j) ≠ b → G i j = F i j) :
    cell_sum G n = cell_sum F n - F t.1 t.2 - F b.1 b.2 + G t.1 t.2 + G b.1 b.2 := by
  unfold cell_sum
  have key : ∑ x in Finset.range n ×ˢ Finset.range n, (G x.1 x.2 - F x.1 x.2)
      = (G t.1 t.2 - F t.1 t.2) + (G b.1 b.2 - F b.1 b.2) := by
    refine Finset.sum_eq_add t b htb ?_ ?_ ?_
    · intro c _ hc
      rw [h c.1 c.2 hc.1 hc.2, sub_self]
    · intro hn
      exact absurd (Finset.mem_product.2 ⟨Finset.mem_range.2 ht.1, Finset.mem_range.2 ht.2⟩) hn
    · intro hn
      exact absurd (Finset.mem_product.2 ⟨Finset.mem_range.2 hb.1, Finset.mem_range.2 hb.2⟩) hn
  rw [Finset.sum_sub_distrib, Finset.sum_product, Finset.sum_product] at key
  have key2 := eq_add_of_sub_eq key
  rw [key2]
  abel

/-- Two contributions that agree away from the cell `t` have sums that differ by
the contribution at this cell. -/
theorem cell_sum_one {R : Type} [AddCommGroup R] (F G : Nat → Nat → R) (n : Nat)
    (t : Nat × Nat) (ht : t.1 < n ∧ t.2 < n)
    (h : ∀ i j, (i, j) ≠ t → G i j = F i j) :
    cell_sum G n = cell_sum F n - F t.1 t.2 + G t.1 t.2 := by
  unfold cell_sum
  have key : ∑ x in Finset.range n ×ˢ Finset.range n, (G x.1 x.2 - F x.1 x.2)
      = (G t.1 t.2 - F t.1 t.2) := by
    refine Finset.sum_eq_single t ?_ ?_
    · intro c _ hc
      rw [h c.1 c.2 hc, sub_self]
    · intro hn
      exact absurd (Finset.mem_product.2 ⟨Finset.mem_range.2 ht.1, Finset.mem_range.2 ht.2⟩) hn
  rw [Finset.sum_sub_distrib, Finset.sum_product, Finset.sum_product] at key
  have key2 := eq_add_of_sub_eq key
  rw [key2]
  abel

theorem length_internal_data (b : BoardProps) : (internal_data b).length = b.size := by
  simp [internal_data]

theorem cell_internal_data (b : BoardProps) (i j : Nat) (hi : i < b.size) (hj : j < b.size) :
    cell (internal_data b) i j = b.get i j := by
  simp [cell, internal_data, List.getD_eq_getElem?_getD, hi, hj]

theorem length_grid (b : BoardProps) : b.grid.length = b.size := by
  cases b with
  | board d c => rfl
  | moved p s c => exact length_internal_data _

theorem cell_grid (b : BoardProps) (i j : Nat) (hi : i < b.size) (hj : j < b.size) :
    cell b.grid i j = b.get i j := by
  cases b with
  | board d c => rfl
  | moved p s c => exact cell_internal_data _ i j hi hj

/-- The value of `Board::count` modulo `2 ^ 32` is the double sum over the cells. -/
theorem cast_count (func : Nat → Nat → Nat → Nat → Nat) (m_data : Grid) :
    ((Board.count func m_data : Nat) : ZMod U32)
      = cell_sum (fun i j => ((func i j (cell m_data i j) m_data.length : Nat) : ZMod U32))
          m_data.length := by
  have h := cast_foldl_foldl U32 (fun i j => func i j (cell m_data i j) m_data.length)
    m_data.length m_data.length 0
  simp only [Nat.cast_zero, zero_add] at h
  exact h

theorem count_lt (func : Nat → Nat → Nat → Nat → Nat) (m_data : Grid) :
    Board.count func m_data < U32 :=
  foldl_foldl_lt U32 U32_pos (fun i j => func i j (cell m_data i j) m_data.length) _ _ 0 U32_pos

/-- The value of `Board::count` on the grid of a board, through `get`. -/
theorem cast_count_grid (func : Nat → Nat → Nat → Nat → Nat) (b : BoardProps) :
    ((Board.count func b.grid : Nat) : ZMod U32)
      = cell_sum (fun i j => ((func i j (b.get i j) b.size : Nat) : ZMod U32)) b.size := by
  rw [cast_count, length_grid]
  exact cell_sum_congr _ _ _ (fun i j hi hj => by rw [cell_grid b i j hi hj])

/-- One row of the loops of `Board::calculate_hash`. -/
theorem cast_hash_row (c : Nat → Nat) (n : Nat) (st : Nat × Nat) :
    ((((List.range n).foldl
        (fun st j => ((st.1 * HASH_P) % U64, (st.2 + c j * st.1) % U64)) st).1 : Nat) : ZMod U64)
        = (st.1 : ZMod U64) * (HASH_P : ZMod U64) ^ n
    ∧ ((((List.range n).foldl
        (fun st j => ((st.1 * HASH_P) % U64, (st.2 + c j * st.1) % U64)) st).2 : Nat) : ZMod U64)
        = (st.2 : ZMod U64)
          + ∑ j in Finset.range n, (c j : ZMod U64) * ((st.1 : ZMod U64) * (HASH_P : ZMod U64) ^ j) := by
  induction n with
  | zero => simp
  | succ k ih =>
    rw [List.range_succ, List.foldl_append, Finset.sum_range_succ]
    simp only [List.foldl_cons, List.foldl_nil]
    constructor
    · rw [ZMod.natCast_mod, Nat.cast_mul, ih.1]
      ring
    · rw [ZMod.natCast_mod, Nat.cast_add, Nat.cast_mul, ih.1, ih.2]
      ring

theorem hash_row_lt (c : Nat → Nat) (n : Nat) (st : Nat × Nat) (h : st.2 < U64) :
    ((List.range n).foldl
        (fun st j => ((st.1 * HASH_P) % U64, (st.2 + c j * st.1) % U64)) st).2 < U64 := by
  induction n with
  | zero => simpa using h
  | succ k _ =>
    rw [List.range_succ, List.foldl_append]
    simp only [List.foldl_cons, List.foldl_nil]
    exact Nat.mod_lt _ U64_pos

/-- The rows of the loops of `Board::calculate_hash`. -/
theorem cast_hash_rows (c : Nat → Nat → Nat) (w n : Nat) :
    ((((List.range n).foldl
        (fun st i => (List.range w).foldl
          (fun st j => ((st.1 * HASH_P) % U64, (st.2 + c i j * st.1) % U64)) st) (1, 0)).1 : Nat)
          : ZMod U64) = (HASH_P : ZMod U64) ^ (n * w)
    ∧ ((((List.range n).foldl
        (fun st i => (List.range w).foldl
          (fun st j => ((st.1 * HASH_P) % U64, (st.2 + c i j * st.1) % U64)) st) (1, 0)).2 : Nat)
          : ZMod U64)
        = ∑ i in Finset.range n, ∑ j in Finset.range w,
            (c i j : ZMod U64) * (HASH_P : ZMod U64) ^ (i * w + j) := by
  induction n with
  | zero => simp
  | succ k ih =>
    rw [List.range_succ, List.foldl_append, Finset.sum_range_succ]
    simp only [List.foldl_cons, List.foldl_nil]
    constructor
    · rw [(cast_hash_row (c k) w _).1, ih.1]
      ring
    · rw [(cast_hash_row (c k) w _).2, ih.1, ih.2]
      congr 1
      refine Finset.sum_congr rfl (fun j _ => ?_)
      ring

theorem hash_rows_lt (c : Nat → Nat → Nat) (w n : Nat) :
    ((List.range n).foldl
        (fun st i => (List.range w).foldl
          (fun st j => ((st.1 * HASH_P) % U64, (st.2 + c i j * st.1) % U64)) st) (1, 0)).2
      < U64 := by
  induction n with
  | zero => simp [U64]
  | succ k ih =>
    rw [List.range_succ, List.foldl_append]
    simp only [List.foldl_cons, List.foldl_nil]
    exact hash_row_lt _ _ _ ih

/-- The value of `Board::calculate_hash` modulo `2 ^ 64`: cell `(i, j)` weighs
`31 ^ (i * n + j)`. -/
theorem cast_calculate_hash (m_data : Grid) :
    ((Board.calculate_hash m_data : Nat) : ZMod U64)
      = cell_sum (fun i j => ((cell m_data i j : Nat) : ZMod U64)
          * (HASH_P : ZMod U64) ^ (i * m_data.length + j)) m_data.length :=
  (cast_hash_rows (cell m_data) m_data.length m_data.length).2

theorem calculate_hash_lt (m_data : Grid) : Board.calculate_hash m_data < U64 :=
  hash_rows_lt (cell m_data) m_data.length m_data.length

theorem cast_calculate_hash_grid (b : BoardProps) :
    ((Board.calculate_hash b.grid : Nat) : ZMod U64)
      = cell_sum (fun i j => ((b.get i j : Nat) : ZMod U64)
          * (HASH_P : ZMod U64) ^ (i * b.size + j)) b.size := by
  rw [cast_calculate_hash, length_grid]
  exact cell_sum_congr _ _ _ (fun i j hi hj => by rw [cell_grid b i j hi hj])

theorem moved_size (p : BoardProps) (t : Nat × Nat) : (MovedBoard p t).size = p.size := rfl

theorem moved_blank_pos (p : BoardProps) (t : Nat × Nat) : (MovedBoard p t).blank_pos = t := rfl

theorem moved_get (p : BoardProps) (t : Nat × Nat) (x y : Nat) :
    (MovedBoard p t).get x y
      = if (x, y) = t then 0
        else if (x, y) = p.blank_pos then p.get t.1 t.2 else p.get x y := rfl

theorem moved_get_blank (p : BoardProps) (t : Nat × Nat) : (MovedBoard p t).get t.1 t.2 = 0 := by
  rw [moved_get]; simp

theorem moved_get_old (p : BoardProps) (t : Nat × Nat) (h : t ≠ p.blank_pos) :
    (MovedBoard p t).get p.blank_pos.1 p.blank_pos.2 = p.get t.1 t.2 := by
  rw [moved_get]
  have h1 : ((p.blank_pos.1, p.blank_pos.2) : Nat × Nat) = p.blank_pos := rfl
  rw [h1, if_neg (Ne.symm h), if_pos rfl]

theorem moved_get_other (p : BoardProps) (t : Nat × Nat) (x y : Nat)
    (h1 : (x, y) ≠ t) (h2 : (x, y) ≠ p.blank_pos) :
    (MovedBoard p t).get x y = p.get x y := by
  rw [moved_get, if_neg h1, if_neg h2]

/-- The members that `MovedBoard` stores, modulo the width of their types. -/
theorem cast_moved_hash (p : BoardProps) (t : Nat × Nat) :
    (((MovedBoard p t).hash : Nat) : ZMod U64)
      = (p.hash : ZMod U64)
        - (p.get t.1 t.2 : ZMod U64) * (HASH_P : ZMod U64) ^ (t.1 * p.size + t.2)
        + (p.get t.1 t.2 : ZMod U64)
          * (HASH_P : ZMod U64) ^ (p.blank_pos.1 * p.size + p.blank_pos.2) := by
  show ((add64 _ _ : Nat) : ZMod U64) = _
  rw [cast_add64, cast_sub64, cast_mul64, cast_mul64, cast_bin_pow, cast_bin_pow]

theorem cast_moved_manhattan (p : BoardProps) (t : Nat × Nat) :
    (((MovedBoard p t).manhattan : Nat) : ZMod U32)
      = (p.manhattan : ZMod U32)
        - (calculate_single_manhattan t.1 t.2 (p.get t.1 t.2) p.size : ZMod U32)
        + (calculate_single_manhattan p.blank_pos.1 p.blank_pos.2 (p.get t.1 t.2) p.size
            : ZMod U32) := by
  show ((add32 _ _ : Nat) : ZMod U32) = _
  rw [cast_add32, cast_sub32]

theorem cast_moved_hamming (p : BoardProps) (t : Nat × Nat) :
    (((MovedBoard p t).hamming : Nat) : ZMod U32)
      = (p.hamming : ZMod U32)
        - (calculate_single_hamming t.1 t.2 (p.get t.1 t.2) p.size : ZMod U32)
        - (calculate_single_hamming p.blank_pos.1 p.blank_pos.2
            (p.get p.blank_pos.1 p.blank_pos.2) p.size : ZMod U32)
        + (calculate_single_hamming p.blank_pos.1 p.blank_pos.2 (p.get t.1 t.2) p.size
            : ZMod U32)
        + (calculate_single_hamming t.1 t.2 (p.get p.blank_pos.1 p.blank_pos.2) p.size
            : ZMod U32) := by
  show ((add32 _ _ : Nat) : ZMod U32) = _
  rw [cast_add32, cast_add32, cast_sub32, cast_sub32]

/-- A cell-wise sum over the grid of a delta, from the sum over the grid of its
parent: only the contributions of the new and the old blank change. -/
theorem cell_sum_moved {R : Type} [AddCommGroup R] (F : Nat → Nat → Nat → R)
    (p : BoardProps) (t : Nat × Nat) (hb : blank_ok p)
    (ht : t.1 < p.size ∧ t.2 < p.size) :
    cell_sum (fun i j => F i j ((MovedBoard p t).get i j)) p.size
      = cell_sum (fun i j => F i j (p.get i j)) p.size
        - F t.1 t.2 (p.get t.1 t.2) + F p.blank_pos.1 p.blank_pos.2 (p.get t.1 t.2)
        - F p.blank_pos.1 p.blank_pos.2 0 + F t.1 t.2 0 := by
  obtain ⟨hb1, hb2, hb0⟩ := hb
  by_cases htb : t = p.blank_pos
  · have h := cell_sum_one (fun i j => F i j (p.get i j))
      (fun i j => F i j ((MovedBoard p t).get i j)) p.size t ht
      (fun i j hne => by
        show F i j _ = F i j _
        rw [moved_get_other p t i j hne (htb ▸ hne)])
    rw [h]
    simp only []
    rw [moved_get_blank]
    have e : p.get t.1 t.2 = 0 := by rw [htb]; exact hb0
    rw [e, ← htb]
    abel
  · have h := cell_sum_two (fun i j => F i j (p.get i j))
      (fun i j => F i j ((MovedBoard p t).get i j)) p.size t p.blank_pos htb ht ⟨hb1, hb2⟩
      (fun i j h1 h2 => by
        show F i j _ = F i j _
        rw [moved_get_other p t i j h1 h2])
    rw [h]
    simp only []
    rw [moved_get_blank, moved_get_old p t htb, hb0]
    abel

theorem of_field_ok (field : Grid) (b : BoardProps) (h : Board.of_field field = Except.ok b) :
    ∃ bp s, Board.calc_blank_pos field = Except.ok bp
      ∧ Board.calculate_solvability field bp (Board.calculate_hamming field) = some s
      ∧ b = BoardProps.board field
          { m_blank_pos := bp
            m_manhattan := Board.calculate_manhattan field
            m_hamming := Board.calculate_hamming field
            m_is_solvable := s
            m_hash := Board.calculate_hash field } := by
  unfold Board.of_field at h
  cases hbp : Board.calc_blank_pos field with
  | error e => rw [hbp] at h; cases h
  | ok bp =>
    rw [hbp] at h
    simp only [] at h
    cases hs : Board.calculate_solvability field bp (Board.calculate_hamming field) with
    | none => rw [hs] at h; cases h
    | some s =>
      rw [hs] at h
      simp only [Except.ok.injEq] at h
      exact ⟨bp, s, rfl, hs, h.symm⟩

theorem moved_hash_lt (p : BoardProps) (t : Nat × Nat) : (MovedBoard p t).hash < U64 :=
  add64_lt _ _

theorem moved_manhattan_lt (p : BoardProps) (t : Nat × Nat) : (MovedBoard p t).manhattan < U32 :=
  add32_lt _ _

theorem moved_hamming_lt (p : BoardProps) (t : Nat × Nat) : (MovedBoard p t).hamming < U32 :=
  add32_lt _ _

theorem moved_hash_cast_eq (p : BoardProps) (t : Nat × Nat)
    (hcache : p.hash = Board.calculate_hash p.grid) (hb : blank_ok p)
    (ht : t.1 < p.size ∧ t.2 < p.size) :
    (((MovedBoard p t).hash : Nat) : ZMod U64)
      = cell_sum (fun i j => (((MovedBoard p t).get i j : Nat) : ZMod U64)
          * (HASH_P : ZMod U64) ^ (i * p.size + j)) p.size := by
  rw [cast_moved_hash, hcache, cast_calculate_hash_grid,
    cell_sum_moved (fun i j v => ((v : Nat) : ZMod U64) * (HASH_P : ZMod U64) ^ (i * p.size + j))
      p t hb ht]
  simp only [Nat.cast_zero, zero_mul]
  abel

/-- C1. The hash that `MovedBoard(p, t)` stores is `calculate_hash` of the grid the
delta stands for, that is the sum of `cell * 31 ^ index` over the row-major grid
modulo `2 ^ 64`; so the snapshot re-materialized from the delta has the hash of a
`Board` built from scratch from the same grid. Here `p` is any board, materialized or
delta, whose cached hash is right and whose blank is recorded correctly, and `t` is
inside the grid. -/
theorem moved_hash_eq_calculate_hash (p : BoardProps) (t : Nat × Nat)
    (hcache : p.hash = Board.calculate_hash p.grid) (hb : blank_ok p)
    (ht : t.1 < p.size ∧ t.2 < p.size) :
    (MovedBoard p t).hash = Board.calculate_hash (MovedBoard p t).grid
    ∧ (MovedBoard p t).hash
        = (∑ i in Finset.range p.size, ∑ j in Finset.range p.size,
            (MovedBoard p t).get i j * HASH_P ^ (i * p.size + j)) % U64
    ∧ ∀ b, Board.of_field (MovedBoard p t).grid = Except.ok b →
        (snapshot (MovedBoard p t)).hash = b.hash := by
  have h1 : (MovedBoard p t).hash = Board.calculate_hash (MovedBoard p t).grid := by
    apply eq_of_cast_eq U64 _ _ (moved_hash_lt p t) (calculate_hash_lt _)
    rw [moved_hash_cast_eq p t hcache hb ht, cast_calculate_hash_grid, moved_size]
  refine ⟨h1, ?_, ?_⟩
  · apply eq_of_cast_eq U64 _ _ (moved_hash_lt p t) (Nat.mod_lt _ U64_pos)
    rw [moved_hash_cast_eq p t hcache hb ht, ZMod.natCast_mod]
    unfold cell_sum
    push_cast
    rfl
  · intro b hbuilt
    obtain ⟨bp, s, _, _, hbeq⟩ := of_field_ok _ b hbuilt
    rw [hbeq]
    exact h1

/-- C2. The Manhattan value that `MovedBoard(p, t)` stores is `calculate_manhattan` of
the grid the delta stands for, the sum of `calculate_single_manhattan` over all its
cells in `unsigned` arithmetic. -/
theorem moved_manhattan_eq_calculate_manhattan (p : BoardProps) (t : Nat × Nat)
    (hcache : p.manhattan = Board.calculate_manhattan p.grid) (hb : blank_ok p)
    (ht : t.1 < p.size ∧ t.2 < p.size) :
    (MovedBoard p t).manhattan = Board.calculate_manhattan (MovedBoard p t).grid
    ∧ (MovedBoard p t).manhattan
        = (∑ i in Finset.range p.size, ∑ j in Finset.range p.size,
            calculate_single_manhattan i j ((MovedBoard p t).get i j) p.size) % U32 := by
  have hc : (((MovedBoard p t).manhattan : Nat) : ZMod U32)
      = cell_sum (fun i j => ((calculate_single_manhattan i j ((MovedBoard p t).get i j)
          p.size : Nat) : ZMod U32)) p.size := by
    rw [cast_moved_manhattan, hcache]
    unfold Board.calculate_manhattan
    rw [cast_count_grid,
      cell_sum_moved (fun i j v => ((calculate_single_manhattan i j v p.size : Nat) : ZMod U32))
        p t hb ht]
    have z : ∀ x y, calculate_single_manhattan x y 0 p.size = 0 := fun x y => by
      simp [calculate_single_manhattan]
    simp only [z, Nat.cast_zero]
    abel
  constructor
  · apply eq_of_cast_eq U32 _ _ (moved_manhattan_lt p t) (count_lt _ _)
    rw [hc, cast_count_grid, moved_size]
  · apply eq_of_cast_eq U32 _ _ (moved_manhattan_lt p t) (Nat.mod_lt _ U32_pos)
    rw [hc, ZMod.natCast_mod]
    unfold cell_sum
    push_cast
    rfl

/-- The Hamming value that `MovedBoard` stores, modulo `2 ^ 32`, as the sum over the cells
of the delta. -/
theorem moved_hamming_cast_eq (p : BoardProps) (t : Nat × Nat)
    (hcache : p.hamming = Board.calculate_hamming p.grid) (hb : blank_ok p)
    (ht : t.1 < p.size ∧ t.2 < p.size) :
    (((MovedBoard p t).hamming : Nat) : ZMod U32)
      = cell_sum (fun i j => ((calculate_single_hamming i j ((MovedBoard p t).get i j)
          p.size : Nat) : ZMod U32)) p.size := by
  rw [cast_moved_hamming, hcache]
  unfold Board.calculate_hamming
  rw [cast_count_grid,
    cell_sum_moved (fun i j v => ((calculate_single_hamming i j v p.size : Nat) : ZMod U32))
      p t hb ht, hb.2.2]
  abel

theorem moved_hamming_eq_calculate_hamming (p : BoardProps) (t : Nat × Nat)
    (hcache : p.hamming = Board.calculate_hamming p.grid) (hb : blank_ok p)
    (ht : t.1 < p.size ∧ t.2 < p.size) :
    (MovedBoard p t).hamming = Board.calculate_hamming (MovedBoard p t).grid := by
  apply eq_of_cast_eq U32 _ _ (moved_hamming_lt p t) (count_lt _ _)
  rw [moved_hamming_cast_eq p t hcache hb ht, cast_count_grid, moved_size]

theorem single_hamming_le_one (x y label size : Nat) :
    calculate_single_hamming x y label size ≤ 1 := by
  unfold calculate_single_hamming
  split <;> simp

theorem hamming_sum_le (f : Nat → Nat → Nat) (n : Nat) :
    (∑ i in Finset.range n, ∑ j in Finset.range n, calculate_single_hamming i j (f i j) n)
      ≤ n * n := by
  calc (∑ i in Finset.range n, ∑ j in Finset.range n, calculate_single_hamming i j (f i j) n)
      ≤ ∑ i in Finset.range n, ∑ j in Finset.range n, 1 :=
        Finset.sum_le_sum (fun i _ => Finset.sum_le_sum (fun j _ => single_hamming_le_one _ _ _ _))
    _ = n * n := by simp

theorem map_getD_range (l : List Nat) :
    (List.range l.length).map (fun k => l.getD k 0) = l := by
  apply List.ext_getElem
  · simp
  · intro k h1 h2
    simp [List.getD_eq_getElem?_getD, List.getElem?_eq_getElem h2]

/-- The concatenation of the rows of a grid whose rows all have `w` cells. -/
theorem flatten_rows (w : Nat) :
    ∀ (g : Grid), (∀ row ∈ g, row.length = w) →
      g.flatten = (List.range (g.length * w)).map (fun k => cell g (k / w) (k % w)) := by
  intro g
  induction g with
  | nil => intro _; simp
  | cons row rest ih =>
    intro h
    have hrow : row.length = w := h row (List.mem_cons_self _ _)
    have hrest : ∀ r ∈ rest, r.length = w := fun r hr => h r (List.mem_cons_of_mem _ hr)
    rw [List.flatten_cons, ih hrest, List.length_cons, Nat.succ_mul, Nat.add_comm,
      List.range_add, List.map_append, List.map_map]
    congr 1
    · conv_lhs => rw [← map_getD_range row]
      rw [hrow]
      apply List.map_congr_left
      intro k hk
      have hk2 : k < w := List.mem_range.1 hk
      simp [cell, Nat.div_eq_of_lt hk2, Nat.mod_eq_of_lt hk2]
    · apply List.map_congr_left
      intro k hk
      have hw : 0 < w := by
        rcases Nat.eq_zero_or_pos w with h0 | h0
        · subst h0; simp at hk
        · exact h0
      simp only [Function.comp, cell]
      rw [Nat.add_div_left _ hw, Nat.add_mod_left]
      simp

theorem flatten_square (g : Grid) (h : is_square g) :
    g.flatten = row_major (cell g) g.length :=
  flatten_rows g.length g h

theorem row_major_congr (f f' : Nat → Nat → Nat) (n : Nat)
    (h : ∀ i j, i < n → j < n → f i j = f' i j) : row_major f n = row_major f' n := by
  unfold row_major
  apply List.map_congr_left
  intro k hk
  have hk2 : k < n * n := List.mem_range.1 hk
  have hn : 0 < n := by
    rcases Nat.eq_zero_or_pos n with h0 | h0
    · subst h0; simp at hk2
    · exact h0
  exact h _ _ ((Nat.div_lt_iff_lt_mul hn).2 hk2) (Nat.mod_lt _ hn)

theorem is_square_internal_data (b : BoardProps) : is_square (internal_data b) := by
  intro row hrow
  simp only [internal_data, List.mem_map, List.mem_range] at hrow
  obtain ⟨i, _, rfl⟩ := hrow
  simp [internal_data]

theorem flatten_internal_data (b : BoardProps) :
    (internal_data b).flatten = row_major b.get b.size := by
  rw [flatten_square _ (is_square_internal_data b), length_internal_data]
  exact row_major_congr _ _ _ (fun i j hi hj => cell_internal_data b i j hi hj)

/-- The row-major reading of the grid of a board, through `get`. -/
theorem flatten_grid (b : BoardProps) (h : is_square b.grid) :
    b.grid.flatten = row_major b.get b.size := by
  rw [flatten_square _ h, length_grid]
  exact row_major_congr _ _ _ (fun i j hi hj => cell_grid b i j hi hj)

theorem range'_split (s a b : Nat) :
    List.range' s (a + b) = List.range' s a ++ List.range' (s + a) b := by
  rw [Nat.add_comm a b]; exact (List.range'_append_1 s a b).symm

/-- Two readings of `0 .. N - 1` that exchange the values at `i < j` and agree
elsewhere split into the same three segments around the two values. -/
theorem map_range_exchange (f f' : Nat → Nat) (N i j : Nat) (hij : i < j) (hj : j < N)
    (hf : ∀ k, k ≠ i → k ≠ j → f' k = f k) (hi' : f' i = f j) (hj' : f' j = f i) :
    ∃ A M B, (List.range N).map f = A ++ f i :: (M ++ f j :: B)
      ∧ (List.range N).map f' = A ++ f j :: (M ++ f i :: B)
      ∧ A.length = i ∧ M.length = j - i - 1 := by
  obtain ⟨m, rfl⟩ : ∃ m, j = i + 1 + m := ⟨j - i - 1, by omega⟩
  obtain ⟨c, rfl⟩ : ∃ c, N = i + (1 + (m + (1 + c))) := ⟨N - (i + 1 + m) - 1, by omega⟩
  have hm : i + 1 + m - i - 1 = m := by omega
  rw [hm]
  have hr : List.range (i + (1 + (m + (1 + c))))
      = List.range' 0 i ++ i :: (List.range' (i + 1) m ++ (i + 1 + m) :: List.range' (i + 1 + m + 1) c) := by
    rw [List.range_eq_range', range'_split, range'_split, range'_split, range'_split]
    simp [List.range']
  refine ⟨(List.range' 0 i).map f, (List.range' (i + 1) m).map f,
    (List.range' (i + 1 + m + 1) c).map f, ?_, ?_, by simp, by simp⟩
  · rw [hr]; simp
  · rw [hr]
    simp only [List.map_append, List.map_cons, hi', hj']
    have a1 : (List.range' 0 i).map f' = (List.range' 0 i).map f :=
      List.map_congr_left (fun k hk => by
        have := List.mem_range'_1.1 hk
        exact hf k (by omega) (by omega))
    have a2 : (List.range' (i + 1) m).map f' = (List.range' (i + 1) m).map f :=
      List.map_congr_left (fun k hk => by
        have := List.mem_range'_1.1 hk
        exact hf k (by omega) (by omega))
    have a3 : (List.range' (i + 1 + m + 1) c).map f' = (List.range' (i + 1 + m + 1) c).map f :=
      List.map_congr_left (fun k hk => by
        have := List.mem_range'_1.1 hk
        exact hf k (by omega) (by omega))
    rw [a1, a2, a3]

theorem perm_exchange (A M B : List Nat) (a b : Nat) :
    List.Perm (A ++ b :: (M ++ a :: B)) (A ++ a :: (M ++ b :: B)) := by
  apply List.Perm.append_left
  have h1 : List.Perm (b :: (M ++ a :: B)) (b :: a :: (M ++ B)) :=
    List.Perm.cons _ List.perm_middle
  have h2 : List.Perm (a :: (M ++ b :: B)) (a :: b :: (M ++ B)) :=
    List.Perm.cons _ List.perm_middle
  exact h1.trans ((List.Perm.swap a b _).trans h2.symm)

/-- The index of the cell `(x, y)` in the row-major order. -/
theorem index_div_mod (n x y : Nat) (hy : y < n) : (x * n + y) / n = x ∧ (x * n + y) % n = y := by
  have hn : 0 < n := by omega
  constructor
  · rw [Nat.add_comm, Nat.add_mul_div_right _ _ hn, Nat.div_eq_of_lt hy, Nat.zero_add]
  · rw [Nat.add_comm, Nat.add_mul_mod_self_right, Nat.mod_eq_of_lt hy]

theorem index_lt (n x y : Nat) (hx : x < n) (hy : y < n) : x * n + y < n * n := by
  have : (x + 1) * n ≤ n * n := Nat.mul_le_mul_right n hx
  rw [Nat.succ_mul] at this
  omega

theorem index_eq_iff (n k x y : Nat) (hy : y < n) :
    (k / n, k % n) = (x, y) ↔ k = x * n + y := by
  constructor
  · intro h
    have h1 : k / n = x := congrArg Prod.fst h
    have h2 : k % n = y := congrArg Prod.snd h
    rw [← h1, ← h2]
    exact (Nat.div_add_mod' k n).symm
  · intro h
    rw [h, (index_div_mod n x y hy).1, (index_div_mod n x y hy).2]

/-- The row-major reading of a delta is the reading of its parent with the values at
the old and the new blank exchanged; the segment between them has one cell less than
the distance of the two indices. -/
theorem row_major_moved (p : BoardProps) (t : Nat × Nat) (hb : blank_ok p)
    (ht : t.1 < p.size ∧ t.2 < p.size) (hne : t ≠ p.blank_pos) :
    ∃ A M B,
      ((row_major p.get p.size = A ++ 0 :: (M ++ p.get t.1 t.2 :: B)
          ∧ row_major (MovedBoard p t).get p.size = A ++ p.get t.1 t.2 :: (M ++ 0 :: B)
          ∧ p.blank_pos.1 * p.size + p.blank_pos.2 < t.1 * p.size + t.2
          ∧ M.length = (t.1 * p.size + t.2) - (p.blank_pos.1 * p.size + p.blank_pos.2) - 1)
      ∨ (row_major p.get p.size = A ++ p.get t.1 t.2 :: (M ++ 0 :: B)
          ∧ row_major (MovedBoard p t).get p.size = A ++ 0 :: (M ++ p.get t.1 t.2 :: B)
          ∧ t.1 * p.size + t.2 < p.blank_pos.1 * p.size + p.blank_pos.2
          ∧ M.length = (p.blank_pos.1 * p.size + p.blank_pos.2) - (t.1 * p.size + t.2) - 1)) := by
  obtain ⟨hb1, hb2, hb0⟩ := hb
  set n := p.size with hn
  set ib := p.blank_pos.1 * n + p.blank_pos.2 with hib
  set it := t.1 * n + t.2 with hit
  have hibN : ib < n * n := index_lt n _ _ hb1 hb2
  have hitN : it < n * n := index_lt n _ _ ht.1 ht.2
  have fb : p.get (ib / n) (ib % n) = 0 := by
    rw [(index_div_mod n _ _ hb2).1, (index_div_mod n _ _ hb2).2]; exact hb0
  have ft : p.get (it / n) (it % n) = p.get t.1 t.2 := by
    rw [(index_div_mod n _ _ ht.2).1, (index_div_mod n _ _ ht.2).2]
  have gt : (MovedBoard p t).get (it / n) (it % n) = 0 := by
    rw [(index_div_mod n _ _ ht.2).1, (index_div_mod n _ _ ht.2).2]; exact moved_get_blank p t
  have gb : (MovedBoard p t).get (ib / n) (ib % n) = p.get t.1 t.2 := by
    rw [(index_div_mod n _ _ hb2).1, (index_div_mod n _ _ hb2).2]; exact moved_get_old p t hne
  have go : ∀ k, k ≠ ib → k ≠ it →
      (MovedBoard p t).get (k / n) (k % n) = p.get (k / n) (k % n) := by
    intro k h1 h2
    apply moved_get_other
    · intro h
      have h' : (k / n, k % n) = (t.1, t.2) := h
      exact h2 ((index_eq_iff n k _ _ ht.2).1 h')
    · intro h
      have h' : (k / n, k % n) = (p.blank_pos.1, p.blank_pos.2) := h
      exact h1 ((index_eq_iff n k _ _ hb2).1 h')
  have hne2 : ib ≠ it := by
    intro h
    apply hne
    have e1 := index_div_mod n t.1 t.2 ht.2
    have e2 := index_div_mod n p.blank_pos.1 p.blank_pos.2 hb2
    rw [← hit, ← h] at e1
    rw [← hib] at e2
    exact Prod.ext (e1.1.symm.trans e2.1) (e1.2.symm.trans e2.2)
  rcases Nat.lt_or_gt_of_ne hne2 with hlt | hgt
  · obtain ⟨A, M, B, e1, e2, _, e4⟩ := map_range_exchange
      (fun k => p.get (k / n) (k % n)) (fun k => (MovedBoard p t).get (k / n) (k % n))
      (n * n) ib it hlt hitN (fun k h1 h2 => go k h1 h2) (by simp only []; rw [gb, ft])
      (by simp only []; rw [gt, fb])
    rw [fb, ft] at e1 e2
    exact ⟨A, M, B, Or.inl ⟨e1, e2, hlt, e4⟩⟩
  · obtain ⟨A, M, B, e1, e2, _, e4⟩ := map_range_exchange
      (fun k => p.get (k / n) (k % n)) (fun k => (MovedBoard p t).get (k / n) (k % n))
      (n * n) it ib hgt hibN (fun k h1 h2 => go k h2 h1) (by simp only []; rw [gt, fb])
      (by simp only []; rw [gb, ft])
    rw [fb, ft] at e1 e2
    exact ⟨A, M, B, Or.inr ⟨e1, e2, hgt, e4⟩⟩

theorem getElem_row_major (f : Nat → Nat → Nat) (n x y : Nat) (_ : x < n) (hy : y < n)
    (h : x * n + y < (row_major f n).length) : (row_major f n)[x * n + y] = f x y := by
  simp [row_major, (index_div_mod n x y hy).1, (index_div_mod n x y hy).2]

theorem length_row_major (f : Nat → Nat → Nat) (n : Nat) : (row_major f n).length = n * n := by
  simp [row_major]

/-- In a reading without repetition two cells with the same label coincide. -/
theorem row_major_inj (f : Nat → Nat → Nat) (n : Nat) (hnd : (row_major f n).Nodup)
    (x y x' y' : Nat) (hx : x < n) (hy : y < n) (hx' : x' < n) (hy' : y' < n)
    (h : f x y = f x' y') : (x, y) = (x', y') := by
  have l1 : x * n + y < (row_major f n).length := by
    rw [length_row_major]; exact index_lt n x y hx hy
  have l2 : x' * n + y' < (row_major f n).length := by
    rw [length_row_major]; exact index_lt n x' y' hx' hy'
  have e : (row_major f n)[x * n + y] = (row_major f n)[x' * n + y'] := by
    rw [getElem_row_major f n x y hx hy, getElem_row_major f n x' y' hx' hy', h]
  have e2 : x * n + y = x' * n + y' := (List.Nodup.getElem_inj_iff hnd).1 e
  have d1 := index_div_mod n x y hy
  have d2 := index_div_mod n x' y' hy'
  rw [e2] at d1
  exact Prod.ext (d1.1.symm.trans d2.1) (d1.2.symm.trans d2.2)

theorem moved_grid (p : BoardProps) (t : Nat × Nat) :
    (MovedBoard p t).grid = internal_data (MovedBoard p t) := rfl

theorem row_major_moved_same (p : BoardProps) (t : Nat × Nat) (hb : blank_ok p)
    (h : t = p.blank_pos) :
    row_major (MovedBoard p t).get p.size = row_major p.get p.size := by
  apply row_major_congr
  intro i j _ _
  by_cases e : (i, j) = t
  · have e1 : i = t.1 := congrArg Prod.fst e
    have e2 : j = t.2 := congrArg Prod.snd e
    rw [e1, e2, moved_get_blank, h, hb.2.2]
  · exact moved_get_other p t i j e (h ▸ e)

theorem row_major_moved_perm (p : BoardProps) (t : Nat × Nat) (hb : blank_ok p)
    (ht : t.1 < p.size ∧ t.2 < p.size) :
    List.Perm (row_major (MovedBoard p t).get p.size) (row_major p.get p.size) := by
  by_cases h : t = p.blank_pos
  · rw [row_major_moved_same p t hb h]
  · obtain ⟨A, M, B, hc | hc⟩ := row_major_moved p t hb ht h
    · rw [hc.1, hc.2.1]; exact perm_exchange A M B 0 _
    · rw [hc.1, hc.2.1]; exact perm_exchange A M B _ 0

/-- The grid of a delta over a permutation board is again a permutation. -/
theorem is_permutation_moved (p : BoardProps) (t : Nat × Nat) (hb : blank_ok p)
    (ht : t.1 < p.size ∧ t.2 < p.size) (hperm : is_permutation p.grid) :
    is_permutation (MovedBoard p t).grid := by
  refine ⟨is_square_internal_data _, ?_⟩
  rw [moved_grid, flatten_internal_data, length_internal_data, moved_size]
  have h := hperm.2
  rw [flatten_grid p hperm.1, length_grid] at h
  exact (row_major_moved_perm p t hb ht).trans h

theorem nodup_row_major (b : BoardProps) (hperm : is_permutation b.grid) :
    (row_major b.get b.size).Nodup := by
  have h := hperm.2
  rw [flatten_grid b hperm.1, length_grid] at h
  exact (List.Perm.nodup_iff h).2 (List.nodup_range _)

/-- In a permutation board only one cell holds a given label. -/
theorem get_inj (b : BoardProps) (hperm : is_permutation b.grid)
    (x y x' y' : Nat) (hx : x < b.size) (hy : y < b.size) (hx' : x' < b.size) (hy' : y' < b.size)
    (h : b.get x y = b.get x' y') : (x, y) = (x', y') :=
  row_major_inj b.get b.size (nodup_row_major b hperm) x y x' y' hx hy hx' hy' h

theorem blank_ok_moved (p : BoardProps) (t : Nat × Nat) (ht : t.1 < p.size ∧ t.2 < p.size) :
    blank_ok (MovedBoard p t) :=
  ⟨ht.1, ht.2, moved_get_blank p t⟩

/-- C4. The lookup of a delta is the lookup of its parent with the blank and the tile
at `t` exchanged: the delta answers `0` at `t`, the moved tile at the old blank, and
what the parent answers everywhere else; over a permutation board the grid of the
delta is again a permutation of `0 .. n * n - 1`, and its only `0` is at its own
`blank_pos`. -/
theorem moved_get_exchanges_blank (p : BoardProps) (t : Nat × Nat) (hb : blank_ok p)
    (ht : t.1 < p.size ∧ t.2 < p.size) :
    (MovedBoard p t).get t.1 t.2 = 0
    ∧ (t ≠ p.blank_pos →
        (MovedBoard p t).get p.blank_pos.1 p.blank_pos.2 = p.get t.1 t.2)
    ∧ (∀ x y, (x, y) ≠ t → (x, y) ≠ p.blank_pos → (MovedBoard p t).get x y = p.get x y)
    ∧ (is_permutation p.grid →
        is_permutation (MovedBoard p t).grid
        ∧ ∀ x y, x < p.size → y < p.size →
            ((MovedBoard p t).get x y = 0 ↔ (x, y) = (MovedBoard p t).blank_pos)) := by
  refine ⟨moved_get_blank p t, moved_get_old p t, moved_get_other p t, ?_⟩
  intro hperm
  have hd := is_permutation_moved p t hb ht hperm
  refine ⟨hd, ?_⟩
  intro x y hx hy
  rw [moved_blank_pos]
  constructor
  · intro h0
    exact get_inj (MovedBoard p t) hd x y t.1 t.2 hx hy ht.1 ht.2
      (h0.trans (moved_get_blank p t).symm)
  · intro h
    have e1 : x = t.1 := congrArg Prod.fst h
    have e2 : y = t.2 := congrArg Prod.snd h
    rw [e1, e2]
    exact moved_get_blank p t

/-! ## Inversions of a sequence -/

theorem inversions_cons (a : Nat) (l : List Nat) :
    inversions (a :: l) = l.countP (fun b => decide (b < a)) + inversions l := rfl

theorem cross_inversions_cons_left (a : Nat) (X Z : List Nat) :
    cross_inversions (a :: X) Z
      = Z.countP (fun b => decide (b < a)) + cross_inversions X Z := rfl

theorem misplaced_cons (s a : Nat) (l : List Nat) :
    misplaced s (a :: l) = (if a = s + 1 then 0 else 1) + misplaced (s + 1) l := rfl

theorem inversions_append (X Z : List Nat) :
    inversions (X ++ Z) = inversions X + inversions Z + cross_inversions X Z := by
  induction X with
  | nil => simp [inversions, cross_inversions]
  | cons a X ih =>
    rw [List.cons_append, inversions_cons, inversions_cons, ih, cross_inversions_cons_left,
      List.countP_append]
    omega

theorem cross_inversions_perm (X : List Nat) {Z Z' : List Nat} (h : List.Perm Z Z') :
    cross_inversions X Z = cross_inversions X Z' := by
  unfold cross_inversions
  congr 1
  apply List.map_congr_left
  intro a _
  exact h.countP_eq _

theorem cross_inversions_cons (M : List Nat) (L : Nat) (Y : List Nat) :
    cross_inversions M (L :: Y)
      = M.countP (fun m => decide (L < m)) + cross_inversions M Y := by
  induction M with
  | nil => simp [cross_inversions]
  | cons a M ih =>
    rw [cross_inversions_cons_left, cross_inversions_cons_left, ih, List.countP_cons,
      List.countP_cons]
    simp only [decide_eq_true_eq]
    split <;> omega

theorem countP_lt_add_countP_gt (M : List Nat) (L : Nat) (hL : L ∉ M) :
    M.countP (fun m => decide (m < L)) + M.countP (fun m => decide (L < m)) = M.length := by
  induction M with
  | nil => simp
  | cons a M ih =>
    have h1 : L ≠ a := fun h => hL (h ▸ List.mem_cons_self _ _)
    have h2 : L ∉ M := fun h => hL (List.mem_cons_of_mem _ h)
    have := ih h2
    simp only [List.countP_cons, List.length_cons]
    rcases Nat.lt_or_gt_of_ne h1 with h | h
    · have h' : ¬ a < L := by omega
      simp [h, h']; omega
    · have h' : ¬ L < a := by omega
      simp [h, h']; omega

/-- Moving one entry across a segment changes the number of inversions by the
entries of the segment above it minus those below it. -/
theorem inversions_move (X M Y : List Nat) (L : Nat) :
    inversions (X ++ L :: (M ++ Y)) + M.countP (fun m => decide (L < m))
      = inversions (X ++ (M ++ L :: Y)) + M.countP (fun m => decide (m < L)) := by
  rw [inversions_append X, inversions_append X,
    cross_inversions_perm X (List.perm_middle : List.Perm (M ++ L :: Y) (L :: (M ++ Y))),
    inversions_append M, inversions_cons, inversions_cons, inversions_append M,
    List.countP_append, cross_inversions_cons M L Y]
  omega

theorem inversions_move_parity (X M Y : List Nat) (L : Nat) (hL : L ∉ M) :
    (inversions (X ++ L :: (M ++ Y)) + inversions (X ++ (M ++ L :: Y))) % 2 = M.length % 2 := by
  have h1 := inversions_move X M Y L
  have h2 := countP_lt_add_countP_gt M L hL
  omega

/-- Exchanging two different entries of a sequence without repetition between them
changes the parity of the number of inversions. -/
theorem inversions_exchange_parity (A M B : List Nat) (a b : Nat) (hab : a ≠ b)
    (ha : a ∉ M) (hb : b ∉ M) :
    (inversions (A ++ a :: (M ++ b :: B)) + inversions (A ++ b :: (M ++ a :: B))) % 2 = 1 := by
  have h1 := inversions_move_parity A (M ++ [b]) B a (by
    simp only [List.mem_append, List.mem_singleton, not_or]
    exact ⟨ha, hab⟩)
  have h2 := inversions_move_parity A M (a :: B) b hb
  simp only [List.append_assoc, List.singleton_append, List.length_append,
    List.length_singleton] at h1
  omega

theorem inversions_range' (m : Nat) : ∀ s, inversions (List.range' s m) = 0 := by
  induction m with
  | zero => intro s; simp [inversions]
  | succ k ih =>
    intro s
    rw [List.range'_succ, inversions_cons, ih, Nat.add_zero, List.countP_eq_zero]
    intro x hx
    have := List.mem_range'_1.1 hx
    simp; omega

theorem misplaced_append (X Y : List Nat) :
    ∀ s, misplaced s (X ++ Y) = misplaced s X + misplaced (s + X.length) Y := by
  induction X with
  | nil => intro s; simp [misplaced]
  | cons a X ih =>
    intro s
    have e : s + 1 + X.length = s + (X.length + 1) := by omega
    rw [List.cons_append, misplaced_cons, misplaced_cons, ih, List.length_cons, e]
    omega

theorem misplaced_le (l : List Nat) : ∀ s, misplaced s l ≤ l.length := by
  induction l with
  | nil => intro s; simp [misplaced]
  | cons a l ih =>
    intro s
    have := ih (s + 1)
    rw [misplaced_cons, List.length_cons]
    split <;> omega

/-! ## The loops of count_inversions_parity -/

/-- Exchanging the entries at `i < j` of a list, as `std::swap(copy[i], copy[j])`
does, in terms of the three segments around them. -/
theorem set_set_exchange (l : List Nat) (i j a b : Nat) (hij : i < j)
    (ha : l[i]? = some a) (hb : l[j]? = some b) :
    ∃ A M B, l = A ++ a :: (M ++ b :: B)
      ∧ (l.set i b).set j a = A ++ b :: (M ++ a :: B)
      ∧ A.length = i ∧ M.length = j - i - 1 := by
  have hj : j < l.length := by
    by_contra h
    rw [List.getElem?_eq_none (by omega)] at hb
    cases hb
  have hi : i < l.length := by omega
  have hlen : ((l.set i b).set j a).length = l.length := by simp
  have f1 : l.getD i 0 = a := by simp [List.getD_eq_getElem?_getD, ha]
  have f2 : l.getD j 0 = b := by simp [List.getD_eq_getElem?_getD, hb]
  obtain ⟨A, M, B, e1, e2, e3, e4⟩ := map_range_exchange
    (fun k => l.getD k 0) (fun k => ((l.set i b).set j a).getD k 0) l.length i j hij hj
    (fun k h1 h2 => by
      simp only [List.getD_eq_getElem?_getD, List.getElem?_set]
      simp [Ne.symm h1, Ne.symm h2])
    (by
      simp only [f2]
      simp only [List.getD_eq_getElem?_getD, List.getElem?_set]
      have : ¬ j = i := by omega
      simp [this, hi, hj])
    (by
      simp only [f1]
      simp only [List.getD_eq_getElem?_getD, List.getElem?_set]
      simp [hi, hj])
  rw [map_getD_range, f1, f2] at e1
  rw [← hlen, map_getD_range, f1, f2] at e2
  exact ⟨A, M, B, e1, e2, e3, e4⟩

theorem sub_one_mod (c : Nat) (h1 : 1 ≤ c) (h2 : c < U32) : (c + (U32 - 1)) % U32 = c - 1 := by
  unfold U32 at *
  omega

/-- One `while` loop of `count_inversions_parity` on a permutation of `1 .. m` whose
first `i` entries are in place: it stops, puts entry `i` in place, keeps the
permutation, and the counter follows the parity of the inversions. -/
theorem sort_cycle_spec (m : Nat) (hm : m < U32) (i : Nat) (hi : i < m) :
    ∀ (fuel : Nat) (copy : List Nat) (counter : Nat),
      List.Perm copy (List.range' 1 m) → copy.take i = List.range' 1 i →
      misplaced 0 copy < fuel → counter < 2 →
      ∃ copy' counter', Board.sort_cycle fuel i copy counter = some (copy', counter')
        ∧ List.Perm copy' (List.range' 1 m) ∧ copy'.take (i + 1) = List.range' 1 (i + 1)
        ∧ counter' < 2
        ∧ (counter' + inversions copy') % 2 = (counter + inversions copy) % 2 := by
  intro fuel
  induction fuel with
  | zero => intro copy counter _ _ h; omega
  | succ f ih =>
    intro copy counter hperm hpre hfuel hcounter
    have hlen : copy.length = m := by rw [hperm.length_eq, List.length_range']
    have hic : i < copy.length := by omega
    have hnd : copy.Nodup := (List.Perm.nodup_iff hperm).2 (List.nodup_range' 1 m)
    obtain ⟨ci, hcidef⟩ : ∃ ci, copy[i]? = some ci := ⟨copy[i], List.getElem?_eq_getElem hic⟩
    have hmem : ci ∈ List.range' 1 m := hperm.mem_iff.1 (List.getElem?_mem hcidef)
    have hci := List.mem_range'_1.1 hmem
    have hcieq : copy[i] = ci := by
      rw [List.getElem?_eq_getElem hic] at hcidef
      exact Option.some.inj hcidef
    have hnot : ci ∉ List.range' 1 i := by
      rw [← hpre]
      intro hin
      have hsplit : copy = copy.take i ++ ci :: copy.drop (i + 1) := by
        rw [← hcieq, ← List.drop_eq_getElem_cons hic, List.take_append_drop]
      rw [hsplit] at hnd
      have := (List.nodup_append.1 hnd).2.2
      exact this hin (List.mem_cons_self _ _)
    have hge : i + 1 ≤ ci := by
      by_contra hlt
      exact hnot (List.mem_range'_1.2 ⟨hci.1, by omega⟩)
    have hgp : (ci + (U32 - 1)) % U32 = ci - 1 :=
      sub_one_mod _ hci.1 (by omega)
    unfold Board.sort_cycle
    rw [hcidef]
    simp only [hgp]
    by_cases hstop : ci - 1 = i
    · rw [if_pos hstop]
      refine ⟨copy, counter, rfl, hperm, ?_, hcounter, rfl⟩
      rw [List.take_succ, hpre, hcidef, List.range'_1_concat]
      have : ci = 1 + i := by omega
      simp [this]
    · rw [if_neg hstop]
      have hg : ci - 1 < copy.length := by omega
      have hig : i < ci - 1 := by omega
      obtain ⟨cg, hcg⟩ : ∃ cg, copy[ci - 1]? = some cg :=
        ⟨copy[ci - 1], List.getElem?_eq_getElem hg⟩
      rw [hcg]
      simp only []
      obtain ⟨A, M, B, e1, e2, e3, e4⟩ := set_set_exchange copy i (ci - 1) ci cg hig hcidef hcg
      rw [e2]
      have hnd2 := hnd
      rw [e1] at hnd2
      have hnd3 := (List.nodup_append.1 hnd2).2.1
      have hci_not : ci ∉ M ++ cg :: B := (List.nodup_cons.1 hnd3).1
      have hnd4 := (List.nodup_cons.1 hnd3).2
      have hcg_not : cg ∉ M := by
        intro hin
        exact (List.nodup_append.1 hnd4).2.2 hin (List.mem_cons_self _ _)
      have hne : ci ≠ cg := fun h => hci_not (by rw [h]; simp)
      have hciM : ci ∉ M := fun h => hci_not (by simp [h])
      have hperm2 : List.Perm (A ++ cg :: (M ++ ci :: B)) (List.range' 1 m) := by
        have := perm_exchange A M B ci cg
        rw [← e1] at this
        exact this.trans hperm
      have hpre2 : (A ++ cg :: (M ++ ci :: B)).take i = List.range' 1 i := by
        rw [List.take_left' e3, ← hpre, e1, List.take_left' e3]
      have hmis : misplaced 0 (A ++ cg :: (M ++ ci :: B)) < f := by
        have hold : misplaced 0 copy < f + 1 := hfuel
        rw [e1] at hold
        rw [misplaced_append, misplaced_cons, misplaced_append, misplaced_cons] at hold ⊢
        rw [e3, e4] at hold ⊢
        have p1 : ci ≠ 0 + i + 1 := by omega
        have p2 : cg ≠ 0 + i + 1 + (ci - 1 - i - 1) + 1 := by omega
        have p3 : ci = 0 + i + 1 + (ci - 1 - i - 1) + 1 := by omega
        rw [if_neg p1, if_neg p2] at hold
        rw [if_pos p3]
        split <;> omega
      obtain ⟨copy', counter', r1, r2, r3, r4, r5⟩ :=
        ih (A ++ cg :: (M ++ ci :: B)) ((counter + 1) % 2) hperm2 hpre2 hmis (by omega)
      refine ⟨copy', counter', r1, r2, r3, r4, ?_⟩
      have hpar := inversions_exchange_parity A M B ci cg hne hciM hcg_not
      rw [← e1] at hpar
      omega

/-- The `for` loop of `count_inversions_parity` from `i` on, over a permutation of
`1 .. m` whose first `i` entries are in place: it ends with the sorted sequence and
the counter is the parity of the inversions it started from. -/
theorem sort_loop_spec (m : Nat) (hm : m < U32) :
    ∀ (r i : Nat) (copy : List Nat) (counter : Nat), i + r = m →
      List.Perm copy (List.range' 1 m) → copy.take i = List.range' 1 i → counter < 2 →
      ∃ counter', Board.sort_loop (m + 1) (List.range' i r) (copy, counter)
          = some (List.range' 1 m, counter')
        ∧ counter' < 2 ∧ counter' % 2 = (counter + inversions copy) % 2 := by
  intro r
  induction r with
  | zero =>
    intro i copy counter hir hperm hpre hcounter
    have hlen : copy.length = m := by rw [hperm.length_eq, List.length_range']
    have hcopy : copy = List.range' 1 m := by
      have : i = m := by omega
      rw [this, List.take_of_length_le (by omega)] at hpre
      exact hpre
    refine ⟨counter, ?_, hcounter, ?_⟩
    · simp [Board.sort_loop, hcopy]
    · rw [hcopy, inversions_range', Nat.add_zero]
  | succ r ih =>
    intro i copy counter hir hperm hpre hcounter
    have hlen : copy.length = m := by rw [hperm.length_eq, List.length_range']
    have hmis : misplaced 0 copy < m + 1 := by
      have := misplaced_le copy 0
      omega
    obtain ⟨copy', counter', r1, r2, r3, r4, r5⟩ :=
      sort_cycle_spec m hm i (by omega) (m + 1) copy counter hperm hpre hmis hcounter
    obtain ⟨c2, s1, s2, s3⟩ := ih (i + 1) copy' counter' (by omega) r2 r3 r4
    refine ⟨c2, ?_, s2, ?_⟩
    · rw [List.range'_succ, Board.sort_loop]
      simp only []
      rw [r1]
      exact s1
    · omega

theorem filter_range_succ (k : Nat) :
    (List.range (k + 1)).filter (fun j => decide (j ≠ 0)) = List.range' 1 k := by
  rw [List.range_eq_range', List.range'_succ, List.filter_cons_of_neg (by simp)]
  apply List.filter_eq_self.2
  intro a ha
  have := List.mem_range'_1.1 ha
  simp; omega

theorem tiles_perm (g : Grid) (hperm : is_permutation g) (hn : 1 ≤ g.length) :
    List.Perm (tiles g) (List.range' 1 (g.length * g.length - 1)) := by
  have h := List.Perm.filter (fun j => decide (j ≠ 0)) hperm.2
  have e : g.length * g.length = (g.length * g.length - 1) + 1 := by
    have : 1 ≤ g.length * g.length := Nat.mul_le_mul hn hn
    omega
  rw [e, filter_range_succ] at h
  exact h

/-- On a permutation grid `count_inversions_parity` stops without leaving its
sequence and returns the number of inversions of the non-blank cells modulo 2. -/
theorem count_inversions_parity_spec (g : Grid) (hperm : is_permutation g)
    (hn : 1 ≤ g.length) (hfit : g.length * g.length < U32) :
    Board.count_inversions_parity g = some (inversions (tiles g) % 2) := by
  have hp := tiles_perm g hperm hn
  have hlen : (tiles g).length = g.length * g.length - 1 := by
    rw [hp.length_eq, List.length_range']
  have hpos : 1 ≤ g.length * g.length := Nat.mul_le_mul hn hn
  have hbound : ((g.length * g.length) % U32 + (U32 - 1)) % U32 = g.length * g.length - 1 := by
    rw [Nat.mod_eq_of_lt hfit]
    exact sub_one_mod _ hpos hfit
  obtain ⟨c, h1, h2, h3⟩ := sort_loop_spec (g.length * g.length - 1) (by omega)
    (g.length * g.length - 1) 0 (tiles g) 0 (by omega) hp (by simp) (by omega)
  unfold Board.count_inversions_parity
  simp only []
  rw [hbound, List.range_eq_range']
  have e : (List.filter (fun j => decide (j ≠ 0)) g.flatten) = tiles g := rfl
  rw [e, hlen, h1]
  simp only [Option.map_some', Option.some.injEq]
  omega

/-! ## The solvability rule -/

theorem count_eq_sum (func : Nat → Nat → Nat → Nat → Nat) (m_data : Grid) :
    Board.count func m_data
      = (∑ i in Finset.range m_data.length, ∑ j in Finset.range m_data.length,
          func i j (cell m_data i j) m_data.length) % U32 := by
  apply eq_of_cast_eq U32 _ _ (count_lt _ _) (Nat.mod_lt _ U32_pos)
  rw [cast_count, ZMod.natCast_mod]
  unfold cell_sum
  push_cast
  rfl

/-- When the side fits, `calculate_hamming` is the plain number of cells that differ
from the goal arrangement. -/
theorem calculate_hamming_eq_sum (m_data : Grid) (hfit : m_data.length * m_data.length < U32) :
    Board.calculate_hamming m_data
      = ∑ i in Finset.range m_data.length, ∑ j in Finset.range m_data.length,
          calculate_single_hamming i j (cell m_data i j) m_data.length := by
  unfold Board.calculate_hamming
  rw [count_eq_sum]
  exact Nat.mod_eq_of_lt (lt_of_le_of_lt (hamming_sum_le _ _) hfit)

theorem single_hamming_eq_zero (x y label n : Nat) (hx : x < n) (hy : y < n)
    (hfit : n * n < U32) (h : calculate_single_hamming x y label n = 0) :
    label = (x * n + y + 1) % (n * n) := by
  unfold calculate_single_hamming at h
  have h1 : x * n + y + 1 < U32 := by
    have := index_lt n x y hx hy
    omega
  rw [Nat.mod_eq_of_lt h1, Nat.mod_eq_of_lt hfit] at h
  by_contra hne
  rw [if_pos hne] at h
  cases h

/-- A grid whose Hamming value is `0` is the goal arrangement. -/
theorem cell_of_hamming_zero (m_data : Grid) (hfit : m_data.length * m_data.length < U32)
    (h : Board.calculate_hamming m_data = 0) (i j : Nat) (hi : i < m_data.length)
    (hj : j < m_data.length) :
    cell m_data i j = (i * m_data.length + j + 1) % (m_data.length * m_data.length) := by
  rw [calculate_hamming_eq_sum m_data hfit] at h
  have h1 := (Finset.sum_eq_zero_iff.1 h) i (Finset.mem_range.2 hi)
  have h2 := (Finset.sum_eq_zero_iff.1 h1) j (Finset.mem_range.2 hj)
  exact single_hamming_eq_zero i j _ _ hi hj hfit h2

theorem goal_reading (n : Nat) (hn : 1 ≤ n) :
    (List.range (n * n)).map (fun k => (k + 1) % (n * n))
      = List.range' 1 (n * n - 1) ++ [0] := by
  have hpos : 1 ≤ n * n := Nat.mul_le_mul hn hn
  obtain ⟨m, hm⟩ : ∃ m, n * n = m + 1 := ⟨n * n - 1, by omega⟩
  rw [hm, Nat.add_sub_cancel, List.range_succ, List.map_append]
  congr 1
  · rw [List.range'_eq_map_range 1]
    apply List.map_congr_left
    intro k hk
    have := List.mem_range.1 hk
    rw [Nat.mod_eq_of_lt (by omega)]
    omega
  · simp

theorem tiles_of_hamming_zero (g : Grid) (hsq : is_square g) (hn : 1 ≤ g.length)
    (hfit : g.length * g.length < U32) (h : Board.calculate_hamming g = 0) :
    tiles g = List.range' 1 (g.length * g.length - 1) := by
  unfold tiles
  rw [flatten_square g hsq]
  have e : row_major (cell g) g.length
      = (List.range (g.length * g.length)).map (fun k => (k + 1) % (g.length * g.length)) := by
    unfold row_major
    apply List.map_congr_left
    intro k hk
    have hk2 : k < g.length * g.length := List.mem_range.1 hk
    have hpos : 0 < g.length := by omega
    rw [cell_of_hamming_zero g hfit h _ _ ((Nat.div_lt_iff_lt_mul hpos).2 hk2)
      (Nat.mod_lt _ hpos), Nat.div_add_mod']
  rw [e, goal_reading _ hn, List.filter_append]
  have f1 : (List.range' 1 (g.length * g.length - 1)).filter (fun j => decide (j ≠ 0))
      = List.range' 1 (g.length * g.length - 1) := by
    apply List.filter_eq_self.2
    intro a ha
    have := List.mem_range'_1.1 ha
    simp; omega
  rw [f1]
  simp

theorem calc_blank_pos_eq (g : Grid) (hn : 1 ≤ g.length) (x y : Nat)
    (hx : x < g.length) (hy : y < g.length) (h0 : cell g x y = 0)
    (huniq : ∀ x' y', x' < g.length → y' < g.length → cell g x' y' = 0 → (x', y') = (x, y)) :
    Board.calc_blank_pos g = Except.ok (x, y) := by
  unfold Board.calc_blank_pos
  simp only []
  rw [if_neg (by omega)]
  cases hfind : (List.product (List.range g.length) (List.range g.length)).find?
      (fun p => decide (cell g p.1 p.2 = 0)) with
  | none =>
    exfalso
    have h := List.find?_eq_none.1 hfind (x, y)
      (List.pair_mem_product.2 ⟨List.mem_range.2 hx, List.mem_range.2 hy⟩)
    simp [h0] at h
  | some q =>
    have hq := List.find?_some hfind
    have hmem := List.mem_of_find?_eq_some hfind
    obtain ⟨q1, q2⟩ := q
    have hm := List.pair_mem_product.1 hmem
    have := huniq q1 q2 (List.mem_range.1 hm.1) (List.mem_range.1 hm.2) (by simpa using hq)
    simp only []
    rw [this]

theorem nodup_row_major_cell (g : Grid) (hperm : is_permutation g) :
    (row_major (cell g) g.length).Nodup := by
  have h := hperm.2
  rw [flatten_square g hperm.1] at h
  exact (List.Perm.nodup_iff h).2 (List.nodup_range _)

theorem cell_inj (g : Grid) (hperm : is_permutation g)
    (x y x' y' : Nat) (hx : x < g.length) (hy : y < g.length) (hx' : x' < g.length)
    (hy' : y' < g.length) (h : cell g x y = cell g x' y') : (x, y) = (x', y') :=
  row_major_inj (cell g) g.length (nodup_row_major_cell g hperm) x y x' y' hx hy hx' hy' h

/-- On a permutation grid `calculate_solvability` returns the value of the parity
rule, also when it answers early for the goal. -/
theorem calculate_solvability_spec (g : Grid) (hperm : is_permutation g)
    (hn : 1 ≤ g.length) (hfit : g.length * g.length < U32) (bp : Nat × Nat)
    (hbx : bp.1 < g.length) (hby : bp.2 < g.length) (hb0 : cell g bp.1 bp.2 = 0) :
    Board.calculate_solvability g bp (Board.calculate_hamming g)
      = some (parity_rule g.length (inversions (tiles g) % 2) bp.1) := by
  unfold Board.calculate_solvability
  by_cases hham : Board.calculate_hamming g = 0
  · rw [if_pos (Or.inr hham)]
    rw [tiles_of_hamming_zero g hperm.1 hn hfit hham, inversions_range']
    have hlast : cell g (g.length - 1) (g.length - 1) = 0 := by
      rw [cell_of_hamming_zero g hfit hham _ _ (by omega) (by omega)]
      have e : (g.length - 1) * g.length + (g.length - 1) + 1 = g.length * g.length := by
        obtain ⟨k, hk⟩ : ∃ k, g.length = k + 1 := ⟨g.length - 1, by omega⟩
        rw [hk]
        simp only [Nat.add_sub_cancel]
        ring
      rw [e, Nat.mod_self]
    have hbp := cell_inj g hperm bp.1 bp.2 (g.length - 1) (g.length - 1) hbx hby (by omega)
      (by omega) (hb0.trans hlast.symm)
    have hrow : bp.1 = g.length - 1 := congrArg Prod.fst hbp
    unfold parity_rule
    congr 1
    by_cases hodd : g.length % 2 ≠ 0
    · rw [if_pos hodd]; simp
    · rw [if_neg hodd, if_neg (by rw [hrow]; omega)]; simp
  · rw [if_neg (by
      intro h
      rcases h with h | h
      · omega
      · exact hham h)]
    rw [count_inversions_parity_spec g hperm hn hfit]
    rfl

/-- The heavy constructor succeeds on a permutation grid and stores the recomputed
values. -/
theorem of_field_spec (g : Grid) (hperm : is_permutation g)
    (hn : 1 ≤ g.length) (hfit : g.length * g.length < U32) (bp : Nat × Nat)
    (hbx : bp.1 < g.length) (hby : bp.2 < g.length) (hb0 : cell g bp.1 bp.2 = 0) :
    Board.of_field g = Except.ok (BoardProps.board g
      { m_blank_pos := bp
        m_manhattan := Board.calculate_manhattan g
        m_hamming := Board.calculate_hamming g
        m_is_solvable := parity_rule g.length (inversions (tiles g) % 2) bp.1
        m_hash := Board.calculate_hash g }) := by
  have h1 : Board.calc_blank_pos g = Except.ok bp :=
    calc_blank_pos_eq g hn bp.1 bp.2 hbx hby hb0 (fun x' y' hx' hy' h0 =>
      cell_inj g hperm x' y' bp.1 bp.2 hx' hy' hbx hby (h0.trans hb0.symm))
  unfold Board.of_field
  rw [h1]
  simp only []
  rw [calculate_solvability_spec g hperm hn hfit bp hbx hby hb0]

theorem tiles_grid (b : BoardProps) (hsq : is_square b.grid) :
    tiles b.grid = (row_major b.get b.size).filter (fun j => decide (j ≠ 0)) := by
  unfold tiles
  rw [flatten_grid b hsq]

theorem filter_tiles_blank_first (A M B : List Nat) (L : Nat)
    (hnd : (A ++ 0 :: (M ++ L :: B)).Nodup) :
    (A ++ 0 :: (M ++ L :: B)).filter (fun j => decide (j ≠ 0))
        = A.filter (fun j => decide (j ≠ 0)) ++ (M ++ L :: B.filter (fun j => decide (j ≠ 0)))
    ∧ (A ++ L :: (M ++ 0 :: B)).filter (fun j => decide (j ≠ 0))
        = A.filter (fun j => decide (j ≠ 0)) ++ L :: (M ++ B.filter (fun j => decide (j ≠ 0)))
    ∧ L ∉ M := by
  have h1 := (List.nodup_append.1 hnd).2.1
  have h0 : (0 : Nat) ∉ M ++ L :: B := (List.nodup_cons.1 h1).1
  have h2 := (List.nodup_cons.1 h1).2
  have hLM : L ∉ M := fun hin => (List.nodup_append.1 h2).2.2 hin (List.mem_cons_self _ _)
  have hL0 : L ≠ 0 := fun h => h0 (by rw [h]; simp)
  have hM : M.filter (fun j => decide (j ≠ 0)) = M := by
    apply List.filter_eq_self.2
    intro a ha
    have : a ≠ 0 := fun h => h0 (by rw [← h]; simp [ha])
    simpa using this
  refine ⟨?_, ?_, hLM⟩
  · rw [List.filter_append, List.filter_cons_of_neg (by simp), List.filter_append, hM,
      List.filter_cons_of_pos (by simpa using hL0)]
  · rw [List.filter_append, List.filter_cons_of_pos (by simpa using hL0), List.filter_append,
      hM, List.filter_cons_of_neg (by simp)]

/-- A move changes the parity of the inversions of the tiles exactly when the two
row-major indices of the old and the new blank have an even sum. -/
theorem inversions_moved (p : BoardProps) (t : Nat × Nat) (hperm : is_permutation p.grid)
    (hb : blank_ok p) (ht : t.1 < p.size ∧ t.2 < p.size) (hne : t ≠ p.blank_pos) :
    (inversions (tiles p.grid) + inversions (tiles (MovedBoard p t).grid)
      + (t.1 * p.size + t.2) + (p.blank_pos.1 * p.size + p.blank_pos.2)) % 2 = 1 := by
  have hd := is_permutation_moved p t hb ht hperm
  rw [tiles_grid p hperm.1, tiles_grid _ hd.1, moved_size]
  have hndp := nodup_row_major p hperm
  have hndd := nodup_row_major _ hd
  rw [moved_size] at hndd
  obtain ⟨A, M, B, hc | hc⟩ := row_major_moved p t hb ht hne
  · obtain ⟨e1, e2, e3, e4⟩ := hc
    rw [e1] at hndp
    obtain ⟨f1, f2, f3⟩ := filter_tiles_blank_first A M B _ hndp
    rw [e1, e2, f1, f2]
    have := inversions_move_parity (A.filter (fun j => decide (j ≠ 0))) M
      (B.filter (fun j => decide (j ≠ 0))) _ f3
    omega
  · obtain ⟨e1, e2, e3, e4⟩ := hc
    rw [e2] at hndd
    obtain ⟨f1, f2, f3⟩ := filter_tiles_blank_first A M B _ hndd
    rw [e1, e2, f1, f2]
    have := inversions_move_parity (A.filter (fun j => decide (j ≠ 0))) M
      (B.filter (fun j => decide (j ≠ 0))) _ f3
    omega

/-- The parity rule gives the same answer before and after a move of the blank to a
neighbouring cell. -/
theorem parity_rule_moved (p : BoardProps) (t : Nat × Nat) (hperm : is_permutation p.grid)
    (hb : blank_ok p) (ht : t.1 < p.size ∧ t.2 < p.size) (hadj : adjacent p.blank_pos t) :
    parity_rule p.size (inversions (tiles (MovedBoard p t).grid) % 2) t.1
      = parity_rule p.size (inversions (tiles p.grid) % 2) p.blank_pos.1 := by
  have hne : t ≠ p.blank_pos := by
    intro h
    rw [h] at hadj
    unfold adjacent at hadj
    omega
  have hinv := inversions_moved p t hperm hb ht hne
  unfold adjacent at hadj
  unfold parity_rule
  generalize inversions (tiles (MovedBoard p t).grid) = id at hinv ⊢
  generalize inversions (tiles p.grid) = ip at hinv ⊢
  generalize p.blank_pos = b at hinv hadj ⊢
  generalize p.size = n at hinv ⊢
  rcases hadj with ⟨hrow, hcol⟩ | ⟨hcol, hrow⟩
  · rw [← hrow] at hinv ⊢
    have hpar : id % 2 = ip % 2 := by
      generalize b.1 * n = u at hinv
      omega
    rw [hpar]
  · have hpar : (id + ip + n) % 2 = 1 := by
      rcases hrow with h | h
      · rw [← h, Nat.add_mul] at hinv
        generalize b.1 * n = u at hinv
        omega
      · rw [← h, Nat.add_mul] at hinv
        generalize t.1 * n = u at hinv
        omega
    have hrows : (t.1 + b.1) % 2 = 1 := by omega
    by_cases hodd : n % 2 ≠ 0
    · rw [if_pos hodd, if_pos hodd]
      have : id % 2 = ip % 2 := by omega
      rw [this]
    · rw [if_neg hodd, if_neg hodd]
      by_cases hr : t.1 % 2 = 0
      · rw [if_pos hr, if_neg (by omega)]
        rw [decide_eq_decide]
        omega
      · rw [if_neg hr, if_pos (by omega)]
        rw [decide_eq_decide]
        omega

theorem of_field_grid (b : BoardProps) (hperm : is_permutation b.grid)
    (hn : 1 ≤ b.size) (hfit : b.size * b.size < U32) (hb : blank_ok b) :
    Board.of_field b.grid = Except.ok (BoardProps.board b.grid
      { m_blank_pos := b.blank_pos
        m_manhattan := Board.calculate_manhattan b.grid
        m_hamming := Board.calculate_hamming b.grid
        m_is_solvable := parity_rule b.size (inversions (tiles b.grid) % 2) b.blank_pos.1
        m_hash := Board.calculate_hash b.grid }) := by
  have h := of_field_spec b.grid hperm (by rw [length_grid]; exact hn)
    (by rw [length_grid]; exact hfit) b.blank_pos (by rw [length_grid]; exact hb.1)
    (by rw [length_grid]; exact hb.2.1) (by rw [cell_grid b _ _ hb.1 hb.2.1]; exact hb.2.2)
  rw [length_grid] at h
  exact h

/-- C5. A move of the blank to a neighbouring cell keeps the solvability class: for a
board `p` of side at least 2 over a permutation grid, the heavy constructor builds a
board from the grid of `p` and one from the grid of the delta `MovedBoard(p, t)`, and
`calculate_solvability` stores the same flag in both; so the flag that the delta copies
from a parent whose flag is the recomputed one is the recomputed flag of its own
grid. -/
theorem moved_keeps_solvability (p : BoardProps) (t : Nat × Nat) (hn : 2 ≤ p.size)
    (hfit : p.size * p.size < U32) (hperm : is_permutation p.grid) (hb : blank_ok p)
    (ht : t.1 < p.size ∧ t.2 < p.size) (hadj : adjacent p.blank_pos t) :
    ∃ B B', Board.of_field p.grid = Except.ok B
      ∧ Board.of_field (MovedBoard p t).grid = Except.ok B'
      ∧ B'.is_solvable = B.is_solvable
      ∧ (p.is_solvable = B.is_solvable → (MovedBoard p t).is_solvable = B'.is_solvable) := by
  have h1 := of_field_grid p hperm (by omega) hfit hb
  have h2 := of_field_grid (MovedBoard p t) (is_permutation_moved p t hb ht hperm)
    (by rw [moved_size]; omega) (by rw [moved_size]; exact hfit) (blank_ok_moved p t ht)
  have hrule := parity_rule_moved p t hperm hb ht hadj
  refine ⟨_, _, h1, h2, ?_, ?_⟩
  · exact hrule
  · intro h
    show p.is_solvable = _
    rw [h]
    exact hrule.symm

/-! ## The deltas built by the search -/

theorem moved_manhattan_eq (p : BoardProps) (t : Nat × Nat)
    (hcache : p.manhattan = Board.calculate_manhattan p.grid) (hb : blank_ok p)
    (ht : t.1 < p.size ∧ t.2 < p.size) :
    (MovedBoard p t).manhattan = Board.calculate_manhattan (MovedBoard p t).grid := by
  apply eq_of_cast_eq U32 _ _ (moved_manhattan_lt p t) (count_lt _ _)
  rw [cast_moved_manhattan, hcache]
  unfold Board.calculate_manhattan
  rw [cast_count_grid, cast_count_grid, moved_size,
    cell_sum_moved (fun i j v => ((calculate_single_manhattan i j v p.size : Nat) : ZMod U32))
      p t hb ht]
  have z : ∀ x y, calculate_single_manhattan x y 0 p.size = 0 := fun x y => by
    simp [calculate_single_manhattan]
  simp only [z, Nat.cast_zero]
  abel

theorem moved_hash_eq (p : BoardProps) (t : Nat × Nat)
    (hcache : p.hash = Board.calculate_hash p.grid) (hb : blank_ok p)
    (ht : t.1 < p.size ∧ t.2 < p.size) :
    (MovedBoard p t).hash = Board.calculate_hash (MovedBoard p t).grid := by
  apply eq_of_cast_eq U64 _ _ (moved_hash_lt p t) (calculate_hash_lt _)
  rw [moved_hash_cast_eq p t hcache hb ht, cast_calculate_hash_grid, moved_size]

theorem valid_moved (p : BoardProps) (t : Nat × Nat) (hv : valid p)
    (ht : t.1 < p.size ∧ t.2 < p.size) : valid (MovedBoard p t) :=
  ⟨is_permutation_moved p t hv.2.1 ht hv.1, blank_ok_moved p t ht,
    moved_hamming_eq_calculate_hamming p t hv.2.2.1 hv.2.1 ht,
    moved_manhattan_eq p t hv.2.2.2.1 hv.2.1 ht,
    moved_hash_eq p t hv.2.2.2.2 hv.2.1 ht⟩

/-- A board built by the heavy constructor from a permutation grid is valid. -/
theorem valid_of_field (g : Grid) (b : BoardProps) (hperm : is_permutation g)
    (hn : 1 ≤ g.length) (hbuilt : Board.of_field g = Except.ok b) : valid b := by
  obtain ⟨bp, s, h1, _, rfl⟩ := of_field_ok g b hbuilt
  refine ⟨hperm, ?_, rfl, rfl, rfl⟩
  unfold Board.calc_blank_pos at h1
  simp only [] at h1
  rw [if_neg (by omega)] at h1
  cases hfind : (List.product (List.range g.length) (List.range g.length)).find?
      (fun p => decide (cell g p.1 p.2 = 0)) with
  | none => rw [hfind] at h1; cases h1
  | some q =>
    rw [hfind] at h1
    simp only [Except.ok.injEq] at h1
    subst h1
    have hq := List.find?_some hfind
    have hmem := List.mem_of_find?_eq_some hfind
    obtain ⟨q1, q2⟩ := q
    have hm := List.pair_mem_product.1 hmem
    exact ⟨List.mem_range.1 hm.1, List.mem_range.1 hm.2, by simpa using hq⟩

theorem reach_size (root node : BoardProps) (h : Reach root node) : node.size = root.size := by
  induction h with
  | start => rfl
  | step p t _ _ _ _ ih => rw [moved_size, ih]

theorem reach_valid (root node : BoardProps) (hv : valid root) (h : Reach root node) :
    valid node := by
  induction h with
  | start => exact valid_moved root _ hv ⟨hv.2.1.1, hv.2.1.2.1⟩
  | step p t hp h1 h2 _ ih =>
    have hs := reach_size root p hp
    exact valid_moved p t ih ⟨by rw [hs]; exact h1, by rw [hs]; exact h2⟩

theorem to_signed_small (u : Nat) (h : u < 2147483648) : to_signed u = (u : Int) := by
  unfold to_signed U32
  have : u % 4294967296 = u := Nat.mod_eq_of_lt (by omega)
  rw [this, if_pos h]

theorem of_signed_natCast (u : Nat) (h : u < U32) : of_signed (u : Int) = u := by
  unfold of_signed
  unfold U32 at *
  omega

/-- One coordinate of the target of `move_relative`, for the offsets `1`, `0` and
`-1`, when the test against the side succeeds. -/
theorem target_coordinate (b d n : Nat) (hb : b < n) (hn : n < 2147483648)
    (hd : d = 1 ∨ d = 0 ∨ d = U32 - 1)
    (h : 0 ≤ to_signed ((b + d) % U32) ∧ to_signed ((b + d) % U32) < to_signed n) :
    of_signed (to_signed ((b + d) % U32)) < n
      ∧ (d = 1 → of_signed (to_signed ((b + d) % U32)) = b + 1)
      ∧ (d = 0 → of_signed (to_signed ((b + d) % U32)) = b)
      ∧ (d = U32 - 1 → of_signed (to_signed ((b + d) % U32)) + 1 = b) := by
  rw [to_signed_small n hn] at h
  unfold to_signed of_signed at *
  unfold U32 at *
  rcases hd with rfl | rfl | rfl
  · have e : (b + 1) % 4294967296 = b + 1 := Nat.mod_eq_of_lt (by omega)
    simp only [e, Nat.mod_mod] at h ⊢
    split at h <;> rename_i hc
    · rw [if_pos hc]; omega
    · omega
  · have e : (b + 0) % 4294967296 = b := Nat.mod_eq_of_lt (by omega)
    simp only [e, Nat.mod_mod] at h ⊢
    split at h <;> rename_i hc
    · rw [if_pos hc]; omega
    · omega
  · by_cases hb0 : b = 0
    · subst hb0
      simp at h
    · have e : (b + (4294967296 - 1)) % 4294967296 = b - 1 := by omega
      simp only [e, Nat.mod_mod] at h ⊢
      have e2 : (b - 1) % 4294967296 = b - 1 := Nat.mod_eq_of_lt (by omega)
      simp only [e2] at h ⊢
      split at h <;> rename_i hc
      · rw [if_pos hc]; omega
      · omega

theorem side_lt_of_fit (n : Nat) (hfit : n * n < U32) : n < 2147483648 := by
  by_contra h
  have h1 : 2147483648 ≤ n := by omega
  have h2 : 2147483648 * 2147483648 ≤ n * n := Nat.mul_le_mul h1 h1
  unfold U32 at hfit
  omega

/-- The root delta that `a_star` starts from. -/
theorem move_relative_zero (b : BoardProps) (hb : blank_ok b) (hn : b.size < 2147483648) :
    move_relative b 0 0 = some (MovedBoard b b.blank_pos) := by
  unfold move_relative
  simp only [Nat.add_zero]
  have e1 : b.blank_pos.1 % U32 = b.blank_pos.1 := Nat.mod_eq_of_lt (by
    have := hb.1; unfold U32; omega)
  have e2 : b.blank_pos.2 % U32 = b.blank_pos.2 := Nat.mod_eq_of_lt (by
    have := hb.2.1; unfold U32; omega)
  rw [e1, e2, to_signed_small b.blank_pos.1 (by have := hb.1; omega),
    to_signed_small b.blank_pos.2 (by have := hb.2.1; omega), to_signed_small b.size hn]
  rw [if_pos ⟨by omega, by exact_mod_cast hb.1, by omega, by exact_mod_cast hb.2.1⟩]
  rw [of_signed_natCast b.blank_pos.1 (by have := hb.1; unfold U32; omega),
    of_signed_natCast b.blank_pos.2 (by have := hb.2.1; unfold U32; omega)]

/-- A delta returned by `move_relative` for one of the four offsets of
`available_moves` has its blank inside the grid, next to the blank of the parent. -/
theorem move_relative_available (par : BoardProps) (hbx : par.blank_pos.1 < par.size)
    (hby : par.blank_pos.2 < par.size) (hn : par.size < 2147483648)
    (move : Int × Int) (hmove : move ∈ Solver.available_moves) (q : BoardProps)
    (h : move_relative par (of_signed move.1) (of_signed move.2) = some q) :
    ∃ t : Nat × Nat, q = MovedBoard par t ∧ t.1 < par.size ∧ t.2 < par.size
      ∧ adjacent par.blank_pos t := by
  have o1 : of_signed (1 : Int) = 1 := by decide
  have o0 : of_signed (0 : Int) = 0 := by decide
  have om : of_signed (-1 : Int) = U32 - 1 := by decide
  unfold move_relative at h
  simp only [] at h
  split at h
  · rename_i hc
    simp only [Option.some.injEq] at h
    refine ⟨_, h.symm, ?_⟩
    simp only [Solver.available_moves, List.mem_cons, List.mem_singleton, List.not_mem_nil,
      or_false] at hmove
    unfold adjacent
    rcases hmove with rfl | rfl | rfl | rfl
    · simp only [o1, o0] at hc ⊢
      have a := target_coordinate par.blank_pos.1 1 par.size hbx hn (Or.inl rfl) ⟨hc.1, hc.2.1⟩
      have b := target_coordinate par.blank_pos.2 0 par.size hby hn (Or.inr (Or.inl rfl))
        ⟨hc.2.2.1, hc.2.2.2⟩
      have a2 := a.2.1 rfl
      have b2 := b.2.2.1 rfl
      exact ⟨a.1, b.1, Or.inr ⟨b2.symm, Or.inl a2.symm⟩⟩
    · simp only [o1, o0] at hc ⊢
      have a := target_coordinate par.blank_pos.1 0 par.size hbx hn (Or.inr (Or.inl rfl))
        ⟨hc.1, hc.2.1⟩
      have b := target_coordinate par.blank_pos.2 1 par.size hby hn (Or.inl rfl)
        ⟨hc.2.2.1, hc.2.2.2⟩
      have a2 := a.2.2.1 rfl
      have b2 := b.2.1 rfl
      exact ⟨a.1, b.1, Or.inl ⟨a2.symm, Or.inl b2.symm⟩⟩
    · simp only [om, o0] at hc ⊢
      have a := target_coordinate par.blank_pos.1 (U32 - 1) par.size hbx hn
        (Or.inr (Or.inr rfl)) ⟨hc.1, hc.2.1⟩
      have b := target_coordinate par.blank_pos.2 0 par.size hby hn (Or.inr (Or.inl rfl))
        ⟨hc.2.2.1, hc.2.2.2⟩
      have a2 := a.2.2.2 rfl
      have b2 := b.2.2.1 rfl
      exact ⟨a.1, b.1, Or.inr ⟨b2.symm, Or.inr a2⟩⟩
    · simp only [om, o0] at hc ⊢
      have a := target_coordinate par.blank_pos.1 0 par.size hbx hn (Or.inr (Or.inl rfl))
        ⟨hc.1, hc.2.1⟩
      have b := target_coordinate par.blank_pos.2 (U32 - 1) par.size hby hn
        (Or.inr (Or.inr rfl)) ⟨hc.2.2.1, hc.2.2.2⟩
      have a2 := a.2.2.1 rfl
      have b2 := b.2.2.2 rfl
      exact ⟨a.1, b.1, Or.inl ⟨a2.symm, Or.inr b2⟩⟩
  · cases h

theorem mem_emplace (key : Nat × Nat) (node : BoardProps)
    (l : List ((Nat × Nat) × BoardProps)) (x : (Nat × Nat) × BoardProps) :
    x ∈ Solver.emplace key node l ↔ x = (key, node) ∨ x ∈ l := by
  induction l with
  | nil => simp [Solver.emplace]
  | cons e rest ih =>
    unfold Solver.emplace
    split
    · simp
    · simp only [List.mem_cons, ih]
      tauto

theorem expand_reach (root : BoardProps) (hv : valid root) (hn : root.size < 2147483648)
    (k : Nat) (key : Nat × Nat) (node : BoardProps) (used : List Nat)
    (frontier : List ((Nat × Nat) × BoardProps)) (move : Int × Int)
    (hmove : move ∈ Solver.available_moves) (hnode : Reach root node)
    (hfr : ∀ e ∈ frontier, Reach root e.2) :
    ∀ e ∈ Solver.expand k key node used frontier move, Reach root e.2 := by
  have hs := reach_size root node hnode
  have hvn := reach_valid root node hv hnode
  unfold Solver.expand
  cases hmr : move_relative node (of_signed move.1) (of_signed move.2) with
  | none => exact hfr
  | some q =>
    simp only []
    split
    · exact hfr
    · intro e he
      rcases (mem_emplace _ _ _ _).1 he with h | h
      · obtain ⟨t, hq, h1, h2, h3⟩ := move_relative_available node hvn.2.1.1 hvn.2.1.2.1
          (by rw [hs]; exact hn) move hmove q hmr
        rw [h, hq]
        exact Reach.step node t hnode (by rw [← hs]; exact h1) (by rw [← hs]; exact h2) h3
      · exact hfr e h

theorem foldl_expand_reach (root : BoardProps) (hv : valid root) (hn : root.size < 2147483648)
    (k : Nat) (key : Nat × Nat) (node : BoardProps) (used : List Nat) (hnode : Reach root node) :
    ∀ (moves : List (Int × Int)), (∀ m ∈ moves, m ∈ Solver.available_moves) →
      ∀ (frontier : List ((Nat × Nat) × BoardProps)), (∀ e ∈ frontier, Reach root e.2) →
      ∀ e ∈ moves.foldl (Solver.expand k key node used) frontier, Reach root e.2 := by
  intro moves
  induction moves with
  | nil => intro _ frontier hfr; simpa using hfr
  | cons m rest ih =>
    intro hm frontier hfr
    rw [List.foldl_cons]
    exact ih (fun x hx => hm x (List.mem_cons_of_mem _ hx)) _
      (expand_reach root hv hn k key node used frontier m (hm m (List.mem_cons_self _ _))
        hnode hfr)

/-- The invariant of the loop of `a_star`: every node of the frontier is a delta built
over the root, so the node that the loop returns is one, and it is the goal. -/
theorem a_star_loop_reach (root : BoardProps) (hv : valid root) (hn : root.size < 2147483648)
    (k : Nat) (node : BoardProps) :
    ∀ (fuel : Nat) (frontier : List ((Nat × Nat) × BoardProps)) (used : List Nat),
      (∀ e ∈ frontier, Reach root e.2) →
      Solver.a_star_loop k fuel frontier used = some (some node) →
      Reach root node ∧ node.is_goal = true := by
  intro fuel
  induction fuel with
  | zero => intro frontier used _ h; simp [Solver.a_star_loop] at h
  | succ f ih =>
    intro frontier used hfr h
    cases frontier with
    | nil => simp [Solver.a_star_loop] at h
    | cons cur rest =>
      unfold Solver.a_star_loop at h
      have hcur : Reach root cur.2 := hfr cur (List.mem_cons_self _ _)
      split at h
      · rename_i hg
        simp only [Option.some.injEq] at h
        rw [← h]
        exact ⟨hcur, hg⟩
      · exact ih _ _ (foldl_expand_reach root hv hn k cur.1 cur.2 used hcur _ (fun m hm => hm)
          rest (fun e he => hfr e (List.mem_cons_of_mem _ he))) h

theorem a_star_reach (board : BoardProps) (hv : valid board) (hn : board.size < 2147483648)
    (fuel : Nat) (node : BoardProps) (h : Solver.a_star fuel board = some (some node)) :
    Reach board node ∧ node.is_goal = true := by
  unfold Solver.a_star at h
  simp only [] at h
  rw [move_relative_zero board hv.2.1 hn] at h
  simp only [] at h
  refine a_star_loop_reach board hv hn _ node fuel _ [] ?_ h
  intro e he
  simp only [List.mem_singleton] at he
  rw [he]
  exact Reach.start

/-! ## The replay of a solution -/

theorem cache_ext (a b : Cache) (h1 : a.m_blank_pos = b.m_blank_pos)
    (h2 : a.m_manhattan = b.m_manhattan) (h3 : a.m_hamming = b.m_hamming)
    (h4 : a.m_is_solvable = b.m_is_solvable) (h5 : a.m_hash = b.m_hash) : a = b := by
  cases a; cases b; simp_all

theorem same_board_refl (a : BoardProps) : same_board a a := ⟨rfl, rfl, fun _ _ _ _ => rfl⟩

theorem same_board_trans (a b c : BoardProps) (h1 : same_board a b) (h2 : same_board b c) :
    same_board a c :=
  ⟨h1.1.trans h2.1, h1.2.1.trans h2.2.1, fun i j hi hj =>
    (h1.2.2 i j hi hj).trans (h2.2.2 i j (h1.1 ▸ hi) (h1.1 ▸ hj))⟩

theorem same_board_snapshot (d : BoardProps) : same_board (snapshot d) d :=
  ⟨length_internal_data d, rfl, fun i j hi hj =>
    cell_internal_data d i j (by rw [← length_internal_data d]; exact hi)
      (by rw [← length_internal_data d]; exact hj)⟩

theorem same_board_moved (s p : BoardProps) (t : Nat × Nat) (h : same_board s p)
    (hb : p.blank_pos.1 < p.size ∧ p.blank_pos.2 < p.size)
    (ht : t.1 < p.size ∧ t.2 < p.size) : same_board (MovedBoard s t) (MovedBoard p t) := by
  obtain ⟨hsize, hbase, hget⟩ := h
  have hblank : s.blank_pos = p.blank_pos := by unfold BoardProps.blank_pos; rw [hbase]
  have hman : s.manhattan = p.manhattan := by unfold BoardProps.manhattan; rw [hbase]
  have hham : s.hamming = p.hamming := by unfold BoardProps.hamming; rw [hbase]
  have hsol : s.is_solvable = p.is_solvable := by unfold BoardProps.is_solvable; rw [hbase]
  have hhash : s.hash = p.hash := by unfold BoardProps.hash; rw [hbase]
  have gt : s.get t.1 t.2 = p.get t.1 t.2 :=
    hget _ _ (by rw [hsize]; exact ht.1) (by rw [hsize]; exact ht.2)
  have gb : s.get s.blank_pos.1 s.blank_pos.2 = p.get p.blank_pos.1 p.blank_pos.2 := by
    rw [hblank]
    exact hget _ _ (by rw [hsize]; exact hb.1) (by rw [hsize]; exact hb.2)
  refine ⟨hsize, ?_, ?_⟩
  · show (MovedBoard s t).base = (MovedBoard p t).base
    unfold MovedBoard
    simp only [BoardProps.base]
    rw [gt, gb, hblank, hman, hham, hsol, hhash, hsize]
  · intro i j hi hj
    rw [moved_get, moved_get, hblank, gt]
    rw [moved_size] at hi hj
    rw [hget i j hi hj]

/-- The root delta of the search has the cache and the cells of the board itself. -/
theorem same_board_start (root : BoardProps) (hv : valid root) :
    same_board root (MovedBoard root root.blank_pos) := by
  obtain ⟨_, hb, hham, hman, hhash⟩ := hv
  have hL : root.get root.blank_pos.1 root.blank_pos.2 = 0 := hb.2.2
  refine ⟨rfl, ?_, ?_⟩
  · apply cache_ext
    · rfl
    · show root.manhattan = (MovedBoard root root.blank_pos).manhattan
      apply eq_of_cast_eq U32 _ _ (by rw [hman]; exact count_lt _ _) (moved_manhattan_lt _ _)
      rw [cast_moved_manhattan]
      abel
    · show root.hamming = (MovedBoard root root.blank_pos).hamming
      apply eq_of_cast_eq U32 _ _ (by rw [hham]; exact count_lt _ _) (moved_hamming_lt _ _)
      rw [cast_moved_hamming]
      abel
    · rfl
    · show root.hash = (MovedBoard root root.blank_pos).hash
      apply eq_of_cast_eq U64 _ _ (by rw [hhash]; exact calculate_hash_lt _) (moved_hash_lt _ _)
      rw [cast_moved_hash]
      abel
  · intro i j _ _
    rw [moved_get]
    by_cases h : (i, j) = root.blank_pos
    · rw [if_pos h]
      have e1 : i = root.blank_pos.1 := congrArg Prod.fst h
      have e2 : j = root.blank_pos.2 := congrArg Prod.snd h
      rw [e1, e2, hL]
    · rw [if_neg h, if_neg h]

theorem final_append (b : BoardProps) (ts : List (Nat × Nat)) (t : Nat × Nat) :
    final b (ts ++ [t]) = snapshot (MovedBoard (final b ts) t) := by
  unfold final
  rw [List.foldl_append]
  rfl

theorem getLast_replay (ts : List (Nat × Nat)) :
    ∀ b : BoardProps, (replay b ts).getLast? = some (final b ts) := by
  induction ts with
  | nil => intro b; rfl
  | cons t ts ih =>
    intro b
    have h := ih (snapshot (MovedBoard b t))
    unfold replay
    cases hr : replay (snapshot (MovedBoard b t)) ts with
    | nil => rw [hr] at h; cases h
    | cons x xs =>
      rw [List.getLast?_cons_cons, ← hr, h]
      rfl

theorem length_replay (ts : List (Nat × Nat)) :
    ∀ b : BoardProps, (replay b ts).length = ts.length + 1 := by
  induction ts with
  | nil => intro b; rfl
  | cons t ts ih => intro b; unfold replay; rw [List.length_cons, ih, List.length_cons]

/-- The loop over the iterators from a position inside the move list visits the
boards of the replay along the remaining moves. -/
theorem collect_replay (init : BoardProps) (moves : List (Nat × Nat)) :
    ∀ (rest pre : List (Nat × Nat)) (b : BoardProps), moves = pre ++ rest → pre ≠ [] →
      Iterator.collect (rest.length + 1)
          { m_board := b, m_blank_nodes := moves, m_cur_pos := pre.length - 1 }
          { m_board := init, m_blank_nodes := moves, m_cur_pos := moves.length }
        = replay b rest := by
  intro rest
  induction rest with
  | nil =>
    intro pre b hm hpre
    have hlen : 0 < pre.length := List.length_pos.2 hpre
    have hne : ¬ (pre.length - 1 = moves.length) := by
      rw [hm, List.append_nil]; omega
    simp [Iterator.collect, Iterator.eq, hne, replay]
  | cons t rs ih =>
    intro pre b hm hpre
    have hlen : 0 < pre.length := List.length_pos.2 hpre
    have hne : ¬ (pre.length - 1 = moves.length) := by
      rw [hm, List.length_append, List.length_cons]; omega
    have hget : moves[pre.length - 1 + 1]? = some t := by
      have e : pre.length - 1 + 1 = pre.length := by omega
      rw [e, hm, List.getElem?_append_right (le_refl _)]
      simp
    have hnext : Iterator.next
        { m_board := b, m_blank_nodes := moves, m_cur_pos := pre.length - 1 }
        = { m_board := snapshot (MovedBoard b t), m_blank_nodes := moves,
            m_cur_pos := (pre ++ [t]).length - 1 } := by
      unfold Iterator.next
      simp only [hget]
      simp
      omega
    rw [List.length_cons]
    unfold Iterator.collect
    have heq : Iterator.eq
        { m_board := b, m_blank_nodes := moves, m_cur_pos := pre.length - 1 }
        { m_board := init, m_blank_nodes := moves, m_cur_pos := moves.length } = false := by
      simp [Iterator.eq, hne]
    rw [heq, hnext]
    simp only [Bool.false_eq_true, if_false]
    rw [ih (pre ++ [t]) _ (by rw [hm]; simp) (by simp)]
    rfl

/-- The snapshots of a solution with a non-empty move list: the first entry is the
position of the initial board and is not replayed. -/
theorem snapshots_cons (init : BoardProps) (b0 : Nat × Nat) (ts : List (Nat × Nat)) :
    Solution.snapshots { m_initial := init, m_moves := b0 :: ts } = replay init ts := by
  unfold Solution.snapshots Solution.begin_ Solution.end_
  exact collect_replay init (b0 :: ts) ts [b0] init rfl (by simp)

theorem snapshots_nil (init : BoardProps) :
    Solution.snapshots { m_initial := init, m_moves := [] } = [] := rfl

/-! ## The solution built from the node of the search -/

theorem unwind_moved (p : BoardProps) (t : Nat × Nat) :
    Solution.unwind (MovedBoard p t) = (t :: (Solution.unwind p).1, (Solution.unwind p).2) := rfl

/-- The walk of `Solution(const MovedBoard &)` over a delta built by the search: the
move list starts with the blank of the root, the replay along the rest ends in a
board with the cache and the cells of the delta, and the list is a path of
neighbouring cells inside the grid that ends at the blank of the delta. -/
theorem reach_unwind (d : Grid) (c : Cache) (node : BoardProps)
    (hv : valid (BoardProps.board d c)) (h : Reach (BoardProps.board d c) node) :
    ∃ ts, (Solution.unwind node).1.reverse = c.m_blank_pos :: ts
      ∧ (Solution.unwind node).2 = BoardProps.board d c
      ∧ same_board (final (BoardProps.board d c) ts) node
      ∧ (∀ e ∈ c.m_blank_pos :: ts, e.1 < d.length ∧ e.2 < d.length)
      ∧ List.Chain' adjacent (c.m_blank_pos :: ts)
      ∧ (c.m_blank_pos :: ts).getLast? = some node.blank_pos := by
  induction h with
  | start =>
    refine ⟨[], rfl, rfl, same_board_start _ hv, ?_, List.chain'_singleton _, rfl⟩
    intro e he
    simp only [List.mem_singleton] at he
    rw [he]
    exact ⟨hv.2.1.1, hv.2.1.2.1⟩
  | step p t hp h1 h2 h3 ih =>
    obtain ⟨ts, i1, i2, i3, i4, i5, i6⟩ := ih
    have hs := reach_size _ p hp
    have hvp := reach_valid _ p hv hp
    have ht : t.1 < p.size ∧ t.2 < p.size := ⟨by rw [hs]; exact h1, by rw [hs]; exact h2⟩
    refine ⟨ts ++ [t], ?_, ?_, ?_, ?_, ?_, ?_⟩
    · rw [unwind_moved, List.reverse_cons, i1]
      rfl
    · rw [unwind_moved]; exact i2
    · rw [final_append]
      exact same_board_trans _ _ _ (same_board_snapshot _)
        (same_board_moved _ p t i3 ⟨hvp.2.1.1, hvp.2.1.2.1⟩ ht)
    · intro e he
      have he' : e ∈ (c.m_blank_pos :: ts) ++ [t] := he
      rcases List.mem_append.1 he' with h | h
      · exact i4 e h
      · simp only [List.mem_singleton] at h
        rw [h]
        exact ⟨h1, h2⟩
    · have e : c.m_blank_pos :: (ts ++ [t]) = (c.m_blank_pos :: ts) ++ [t] := rfl
      rw [e, List.chain'_append]
      refine ⟨i5, List.chain'_singleton _, ?_⟩
      intro x hx y hy
      rw [i6] at hx
      simp only [Option.mem_def, Option.some.injEq] at hx
      simp only [List.head?_cons, Option.mem_def, Option.some.injEq] at hy
      rw [← hx, ← hy]
      exact h3
    · have e : c.m_blank_pos :: (ts ++ [t]) = (c.m_blank_pos :: ts) ++ [t] := rfl
      rw [e, List.getLast?_append]
      rfl

theorem is_square_final (b : BoardProps) (hsq : is_square b.grid) (ts : List (Nat × Nat)) :
    is_square (final b ts).grid := by
  rcases List.eq_nil_or_concat ts with h | ⟨l, t, h⟩
  · rw [h]; exact hsq
  · rw [h, List.concat_eq_append, final_append]
    exact is_square_internal_data _

/-- A valid board whose Hamming value is `0` holds the goal arrangement. -/
theorem get_of_goal (b : BoardProps) (hv : valid b) (hfit : b.size * b.size < U32)
    (hham : b.hamming = 0) (i j : Nat) (hi : i < b.size) (hj : j < b.size) :
    b.get i j = (i * b.size + j + 1) % (b.size * b.size) := by
  have h0 : Board.calculate_hamming b.grid = 0 := by rw [← hv.2.2.1]; exact hham
  have h := cell_of_hamming_zero b.grid (by rw [length_grid]; exact hfit) h0 i j
    (by rw [length_grid]; exact hi) (by rw [length_grid]; exact hj)
  rw [length_grid, cell_grid b i j hi hj] at h
  exact h

theorem a_star_size_pos (board : BoardProps) (fuel : Nat) (node : BoardProps)
    (h : Solver.a_star fuel board = some (some node)) : 1 ≤ board.size := by
  by_contra hn
  have h0 : board.size = 0 := by omega
  unfold Solver.a_star at h
  have hm : move_relative board 0 0 = none := by
    unfold move_relative
    simp only []
    rw [if_neg]
    rw [h0]
    have : to_signed 0 = 0 := by decide
    rw [this]
    omega
  simp only [hm] at h
  cases h

theorem of_field_shape (g : Grid) (b : BoardProps) (h : Board.of_field g = Except.ok b) :
    ∃ c, b = BoardProps.board g c := by
  obtain ⟨bp, s, _, _, hb⟩ := of_field_ok g b h
  exact ⟨_, hb⟩

/-- The facts about the node returned by `a_star` on a board built from a permutation
grid: the solution built from it starts at the input, its move list is a path, and
its replay ends in a board with the cache and the cells of the node. -/
theorem a_star_solution (g : Grid) (board : BoardProps) (hperm : is_permutation g)
    (hfit : g.length * g.length < U32) (hbuilt : Board.of_field g = Except.ok board)
    (fuel : Nat) (node : BoardProps) (hnode : Solver.a_star fuel board = some (some node)) :
    ∃ ts, Solution.of_result node = { m_initial := board, m_moves := board.blank_pos :: ts }
      ∧ same_board (final board ts) node
      ∧ (∀ e ∈ board.blank_pos :: ts, e.1 < g.length ∧ e.2 < g.length)
      ∧ List.Chain' adjacent (board.blank_pos :: ts)
      ∧ valid node ∧ node.is_goal = true ∧ node.size = g.length ∧ valid board := by
  obtain ⟨c, hc⟩ := of_field_shape g board hbuilt
  have hsz : board.size = g.length := by rw [hc]; rfl
  have hn : 1 ≤ g.length := by rw [← hsz]; exact a_star_size_pos board fuel node hnode
  have hv : valid board := valid_of_field g board hperm hn hbuilt
  have hlt : board.size < 2147483648 := by rw [hsz]; exact side_lt_of_fit _ hfit
  obtain ⟨hreach, hgoal⟩ := a_star_reach board hv hlt fuel node hnode
  have hvn := reach_valid board node hv hreach
  have hsn := reach_size board node hreach
  subst hc
  obtain ⟨ts, i1, i2, i3, i4, i5, _⟩ := reach_unwind g c node hv hreach
  refine ⟨ts, ?_, i3, i4, i5, hvn, hgoal, hsn.trans hsz, hv⟩
  unfold Solution.of_result
  rw [i1, i2]
  rfl

/-- C6. Replaying a successful path ends at the goal: when `a_star` returns a node for
a board built from a permutation grid, the snapshots of the solution built from that
node, from `begin()` up to `end()`, have a last element, this last snapshot has
`is_goal()` true, and its grid is the goal arrangement where the row-major cell `i`
holds `(i + 1) mod (n * n)`. -/
theorem replay_ends_at_goal (g : Grid) (board : BoardProps) (hperm : is_permutation g)
    (hfit : g.length * g.length < U32) (hbuilt : Board.of_field g = Except.ok board)
    (fuel : Nat) (node : BoardProps) (hnode : Solver.a_star fuel board = some (some node)) :
    ∃ last, (Solution.of_result node).snapshots.getLast? = some last
      ∧ last.is_goal = true
      ∧ last.grid.flatten
          = (List.range (g.length * g.length)).map (fun i => (i + 1) % (g.length * g.length)) := by
  obtain ⟨ts, hsol, hsame, _, _, hvn, hgoal, hsn, hv⟩ :=
    a_star_solution g board hperm hfit hbuilt fuel node hnode
  have hn : 1 ≤ g.length := by
    have := a_star_size_pos board fuel node hnode
    obtain ⟨c, hc⟩ := of_field_shape g board hbuilt
    rw [hc] at this
    exact this
  refine ⟨final board ts, ?_, ?_, ?_⟩
  · rw [hsol, snapshots_cons, getLast_replay]
  · unfold BoardProps.is_goal BoardProps.hamming at hgoal ⊢
    rw [hsame.1, hsame.2.1]
    exact hgoal
  · have hham : node.hamming = 0 := by
      unfold BoardProps.is_goal at hgoal
      simp only [Bool.or_eq_true, decide_eq_true_eq] at hgoal
      rcases hgoal with h | h
      · omega
      · exact h
    have hsl : (final board ts).size = g.length := hsame.1.trans hsn
    rw [flatten_grid _ (is_square_final board hv.1.1 ts), hsl]
    unfold row_major
    apply List.map_congr_left
    intro k hk
    have hk2 : k < g.length * g.length := List.mem_range.1 hk
    have hpos : 0 < g.length := by omega
    have hi : k / g.length < g.length := (Nat.div_lt_iff_lt_mul hpos).2 hk2
    have hj : k % g.length < g.length := Nat.mod_lt _ hpos
    rw [hsame.2.2 _ _ (by rw [hsl]; exact hi) (by rw [hsl]; exact hj),
      get_of_goal node hvn (by rw [hsn]; exact hfit) hham _ _ (by rw [hsn]; exact hi)
        (by rw [hsn]; exact hj), hsn, Nat.div_add_mod']

/-- C7. The returned path is a sequence of legal moves from the input: when `a_star`
returns a node for a board built from a permutation grid, the solution built from it
keeps the input board, its list of blank positions starts with the blank of the input,
every entry lies inside the grid, every entry after the first is a neighbour of its
predecessor in a row or a column, and `moves()` is the number of these steps. -/
theorem path_is_legal (g : Grid) (board : BoardProps) (hperm : is_permutation g)
    (hfit : g.length * g.length < U32) (hbuilt : Board.of_field g = Except.ok board)
    (fuel : Nat) (node : BoardProps) (hnode : Solver.a_star fuel board = some (some node)) :
    (Solution.of_result node).m_initial = board
      ∧ (Solution.of_result node).m_moves.head? = some board.blank_pos
      ∧ (∀ e ∈ (Solution.of_result node).m_moves, e.1 < g.length ∧ e.2 < g.length)
      ∧ List.Chain' adjacent (Solution.of_result node).m_moves
      ∧ (Solution.of_result node).moves + 1 = (Solution.of_result node).m_moves.length := by
  obtain ⟨ts, hsol, _, hin, hchain, _⟩ :=
    a_star_solution g board hperm hfit hbuilt fuel node hnode
  rw [hsol]
  refine ⟨rfl, rfl, hin, hchain, ?_⟩
  simp [Solution.moves]

/-! ## The goal board, and solve on boards that need no search -/

theorem set_map_range {α : Type} (f : Nat → α) (n i : Nat) (v : α) :
    ((List.range n).map f).set i v = (List.range n).map (fun x => if x = i then v else f x) := by
  apply List.ext_getElem?
  intro k
  rw [List.getElem?_set, List.getElem?_map, List.getElem?_map, List.length_map,
    List.length_range]
  by_cases hk : k < n
  · rw [List.getElem?_range hk]
    by_cases hik : i = k
    · subst hik
      simp [hk]
    · have : ¬ k = i := fun h => hik h.symm
      simp [hik, this]
  · have hnone : (List.range n)[k]? = none := List.getElem?_eq_none (by simp; omega)
    rw [hnone]
    by_cases hik : i = k
    · subst hik
      simp [hk]
    · simp [hik]

theorem getD_map_range {α : Type} (f : Nat → α) (n i : Nat) (d : α) (h : i < n) :
    ((List.range n).map f).getD i d = f i := by
  simp [List.getD_eq_getElem?_getD, h]

/-- The grid of `create_goal` after the first `k` passes of its loop. -/
theorem create_goal_loop (n : Nat) (hfit : n * n < U32) :
    ∀ k, k ≤ n * n →
      (List.range k).foldl
        (fun (field : Grid) i =>
          field.set (i / n) ((field.getD (i / n) []).set (i % n)
            ((i + 1) % U32 % (n * n))))
        (List.replicate n (List.replicate n 0))
      = (List.range n).map (fun x => (List.range n).map
          (fun y => if x * n + y < k then (x * n + y + 1) % (n * n) else 0)) := by
  intro k
  induction k with
  | zero =>
    intro _
    simp only [List.range_zero, List.foldl_nil, Nat.not_lt_zero, if_false]
    apply List.ext_getElem
    · simp
    · intro i h1 h2
      simp only [List.getElem_replicate, List.getElem_map]
      apply List.ext_getElem
      · simp
      · intro j h3 h4
        simp
  | succ k ih =>
    intro hk
    rw [List.range_succ, List.foldl_append, ih (by omega)]
    simp only [List.foldl_cons, List.foldl_nil]
    have hn : 0 < n := by
      rcases Nat.eq_zero_or_pos n with h0 | h0
      · subst h0; omega
      · exact h0
    have hkn : k / n < n := (Nat.div_lt_iff_lt_mul hn).2 (by omega)
    have hv : (k + 1) % U32 % (n * n) = (k + 1) % (n * n) := by
      rw [Nat.mod_eq_of_lt (show k + 1 < U32 by omega)]
    rw [hv, getD_map_range _ _ _ _ hkn, set_map_range, set_map_range]
    apply List.map_congr_left
    intro x hx
    by_cases hxk : x = k / n
    · rw [if_pos hxk]
      apply List.map_congr_left
      intro y hy
      have hy2 : y < n := List.mem_range.1 hy
      have hdm := Nat.div_add_mod' k n
      by_cases hyk : y = k % n
      · rw [if_pos hyk]
        have e : x * n + y = k := by rw [hxk, hyk]; exact hdm
        rw [e, if_pos (by omega)]
      · rw [if_neg hyk]
        have hne : x * n + y ≠ k := by
          intro h
          apply hyk
          have := (index_div_mod n x y hy2).2
          rw [h] at this
          exact this.symm
        rw [← hxk]
        by_cases hlt : x * n + y < k
        · rw [if_pos hlt, if_pos (by omega)]
        · rw [if_neg hlt, if_neg (by omega)]
    · rw [if_neg hxk]
      apply List.map_congr_left
      intro y hy
      have hy2 : y < n := List.mem_range.1 hy
      have hne : x * n + y ≠ k := by
        intro h
        apply hxk
        have := (index_div_mod n x y hy2).1
        rw [h] at this
        exact this.symm
      by_cases hlt : x * n + y < k
      · rw [if_pos hlt, if_pos (by omega)]
      · rw [if_neg hlt, if_neg (by omega)]

/-- The grid that `create_goal` hands to the constructor is the goal arrangement. -/
theorem create_goal_eq (n : Nat) (hfit : n * n < U32) :
    Board.create_goal n = Board.of_field (goal_grid n) := by
  unfold Board.create_goal
  simp only []
  rw [Nat.mod_eq_of_lt hfit, create_goal_loop n hfit (n * n) (le_refl _)]
  congr 1
  unfold goal_grid
  apply List.map_congr_left
  intro x hx
  apply List.map_congr_left
  intro y hy
  rw [if_pos (index_lt n x y (List.mem_range.1 hx) (List.mem_range.1 hy))]

theorem length_goal_grid (n : Nat) : (goal_grid n).length = n := by simp [goal_grid]

theorem is_square_goal_grid (n : Nat) : is_square (goal_grid n) := by
  intro row hrow
  rw [length_goal_grid]
  simp only [goal_grid, List.mem_map, List.mem_range] at hrow
  obtain ⟨i, _, rfl⟩ := hrow
  simp

theorem cell_goal_grid (n i j : Nat) (hi : i < n) (hj : j < n) :
    cell (goal_grid n) i j = (i * n + j + 1) % (n * n) := by
  simp [cell, goal_grid, List.getD_eq_getElem?_getD, hi, hj]

theorem flatten_goal_grid (n : Nat) :
    (goal_grid n).flatten = (List.range (n * n)).map (fun k => (k + 1) % (n * n)) := by
  rw [flatten_square _ (is_square_goal_grid n), length_goal_grid]
  unfold row_major
  apply List.map_congr_left
  intro k hk
  have hk2 : k < n * n := List.mem_range.1 hk
  have hn : 0 < n := by
    rcases Nat.eq_zero_or_pos n with h0 | h0
    · subst h0; simp at hk2
    · exact h0
  rw [cell_goal_grid n _ _ ((Nat.div_lt_iff_lt_mul hn).2 hk2) (Nat.mod_lt _ hn),
    Nat.div_add_mod']

theorem is_permutation_goal_grid (n : Nat) : is_permutation (goal_grid n) := by
  refine ⟨is_square_goal_grid n, ?_⟩
  rw [flatten_goal_grid, length_goal_grid]
  rcases Nat.eq_zero_or_pos n with h0 | h0
  · subst h0; simp
  · rw [goal_reading n h0]
    obtain ⟨m, hm⟩ : ∃ m, n * n = m + 1 := ⟨n * n - 1, by
      have : 1 ≤ n * n := Nat.mul_le_mul h0 h0
      omega⟩
    rw [hm, Nat.add_sub_cancel, List.range_eq_range', List.range'_succ]
    exact (List.perm_append_comm : List.Perm (List.range' 1 m ++ [0]) ([0] ++ List.range' 1 m))

theorem single_hamming_goal (n i j : Nat) (hi : i < n) (hj : j < n) (hfit : n * n < U32) :
    calculate_single_hamming i j ((i * n + j + 1) % (n * n)) n = 0 := by
  unfold calculate_single_hamming
  have h1 : i * n + j + 1 < U32 := by
    have := index_lt n i j hi hj
    omega
  rw [Nat.mod_eq_of_lt h1, Nat.mod_eq_of_lt hfit]
  simp

theorem single_manhattan_home (n i j : Nat) (hi : i < n) (hj : j < n) :
    calculate_single_manhattan i j ((i * n + j + 1) % (n * n)) n = 0 := by
  unfold calculate_single_manhattan
  by_cases h0 : (i * n + j + 1) % (n * n) = 0
  · rw [if_pos h0]
  · rw [if_neg h0]
    have hlt := index_lt n i j hi hj
    have hlabel : (i * n + j + 1) % (n * n) = i * n + j + 1 := by
      rcases Nat.lt_or_ge (i * n + j + 1) (n * n) with h | h
      · exact Nat.mod_eq_of_lt h
      · exfalso
        have e : i * n + j + 1 = n * n := by omega
        rw [e, Nat.mod_self] at h0
        exact h0 rfl
    simp only [hlabel, Nat.add_sub_cancel]
    rw [(index_div_mod n i j hj).1, (index_div_mod n i j hj).2]
    simp [of_signed]

theorem calculate_hamming_goal_grid (n : Nat) (hfit : n * n < U32) :
    Board.calculate_hamming (goal_grid n) = 0 := by
  rw [calculate_hamming_eq_sum _ (by rw [length_goal_grid]; exact hfit), length_goal_grid]
  apply Finset.sum_eq_zero
  intro i hi
  apply Finset.sum_eq_zero
  intro j hj
  rw [cell_goal_grid n i j (Finset.mem_range.1 hi) (Finset.mem_range.1 hj)]
  exact single_hamming_goal n i j (Finset.mem_range.1 hi) (Finset.mem_range.1 hj) hfit

theorem calculate_manhattan_goal_grid (n : Nat) :
    Board.calculate_manhattan (goal_grid n) = 0 := by
  unfold Board.calculate_manhattan
  rw [count_eq_sum, length_goal_grid]
  have : (∑ i in Finset.range n, ∑ j in Finset.range n,
      calculate_single_manhattan i j (cell (goal_grid n) i j) n) = 0 := by
    apply Finset.sum_eq_zero
    intro i hi
    apply Finset.sum_eq_zero
    intro j hj
    rw [cell_goal_grid n i j (Finset.mem_range.1 hi) (Finset.mem_range.1 hj)]
    exact single_manhattan_home n i j (Finset.mem_range.1 hi) (Finset.mem_range.1 hj)
  rw [this]
  rfl

theorem cell_goal_grid_last (n : Nat) (hn : 1 ≤ n) : cell (goal_grid n) (n - 1) (n - 1) = 0 := by
  rw [cell_goal_grid n _ _ (by omega) (by omega)]
  have e : (n - 1) * n + (n - 1) + 1 = n * n := by
    obtain ⟨k, hk⟩ : ∃ k, n = k + 1 := ⟨n - 1, by omega⟩
    rw [hk]
    simp only [Nat.add_sub_cancel]
    ring
  rw [e, Nat.mod_self]

/-- The function `create_goal` builds the goal board, for every side that fits. -/
theorem create_goal_spec (n : Nat) (hfit : n * n < U32) :
    Board.create_goal n = Except.ok (goal_board n) := by
  rw [create_goal_eq n hfit]
  rcases Nat.eq_zero_or_pos n with h0 | h0
  · subst h0; rfl
  · have hperm := is_permutation_goal_grid n
    have hlast := cell_goal_grid_last n h0
    have hbp : Board.calc_blank_pos (goal_grid n) = Except.ok (n - 1, n - 1) :=
      calc_blank_pos_eq _ (by rw [length_goal_grid]; exact h0) (n - 1) (n - 1)
        (by rw [length_goal_grid]; omega) (by rw [length_goal_grid]; omega) hlast
        (fun x' y' hx' hy' h => cell_inj _ hperm x' y' (n - 1) (n - 1) hx' hy'
          (by rw [length_goal_grid]; omega) (by rw [length_goal_grid]; omega)
          (h.trans hlast.symm))
    unfold Board.of_field
    rw [hbp]
    simp only []
    rw [calculate_hamming_goal_grid n hfit, calculate_manhattan_goal_grid n]
    have hs : Board.calculate_solvability (goal_grid n) (n - 1, n - 1) 0 = some true := by
      unfold Board.calculate_solvability
      rw [if_pos (Or.inr rfl)]
    rw [hs]
    rfl

/-- C10. For every side `n` that fits, `create_goal(n)` builds a board on which `solve`
returns, whatever the bound on the search and so also with no pass of `a_star` at
all, the solution whose move list is the single entry `blank_pos()` of the board,
whose `moves()` is `0`, and whose snapshots are exactly the input board. -/
theorem solve_goal (n : Nat) (hfit : n * n < U32) :
    ∃ board, Board.create_goal n = Except.ok board
      ∧ ∀ fuel, ∃ s, Solver.solve fuel board = some s
          ∧ s.m_moves = [board.blank_pos] ∧ s.moves = 0 ∧ s.snapshots = [board] := by
  refine ⟨goal_board n, create_goal_spec n hfit, ?_⟩
  intro fuel
  refine ⟨Solution.of_moves (goal_board n) [(goal_board n).blank_pos], ?_, rfl, rfl, ?_⟩
  · unfold Solver.solve
    have h1 : (goal_board n).is_solvable = true := rfl
    have h2 : (goal_board n).is_goal = true := by
      unfold BoardProps.is_goal
      have : (goal_board n).hamming = 0 := rfl
      simp [this]
    rw [h1, h2]
    rfl
  · exact snapshots_cons _ _ []

/-- C8 (as the code behaves). For a board whose `is_solvable()` is false, `solve`
returns, whatever the bound on the search, the solution that holds the input board and
an empty move list: `moves()` is `0` and the snapshot sequence from `begin()` to
`end()` is empty. -/
theorem solve_unsolvable (board : BoardProps) (h : board.is_solvable = false) (fuel : Nat) :
    ∃ s, Solver.solve fuel board = some s
      ∧ s.m_initial = board ∧ s.m_moves = [] ∧ s.moves = 0 ∧ s.snapshots = [] := by
  refine ⟨Solution.of_board board, ?_, rfl, rfl, rfl, rfl⟩
  unfold Solver.solve
  rw [h]
  rfl

/-- C8 fails as stated: the board of `[[1, 2, 3], [4, 5, 6], [8, 7, 0]]` is built by
the constructor and is not solvable, and the solution that `solve` returns for it has
no snapshot at all between `begin()` and `end()`, so its snapshots are not the single
input board. -/
theorem solve_unsolvable_has_no_snapshot :
    Board.of_field [[1, 2, 3], [4, 5, 6], [8, 7, 0]] = Except.ok swapped_pair_board
      ∧ swapped_pair_board.is_solvable = false
      ∧ (Solver.solve 100 swapped_pair_board).map Solution.snapshots = some []
      ∧ ¬ ∃ s, Solver.solve 100 swapped_pair_board = some s
            ∧ s.moves = 0 ∧ s.snapshots = [swapped_pair_board] := by
  refine ⟨rfl, by decide, by decide, ?_⟩
  rintro ⟨s, h1, _, h3⟩
  have h : (Solver.solve 100 swapped_pair_board).map Solution.snapshots = some [] := by decide
  rw [h1] at h
  simp only [Option.map_some', Option.some.injEq] at h
  rw [h3] at h
  cases h

/-- The amended statement C8 at the board of `[[1, 2, 3], [4, 5, 6], [8, 7, 0]]`. -/
theorem solve_unsolvable_witness :
    swapped_pair_board.is_solvable = false
      ∧ ∃ s, Solver.solve 100 swapped_pair_board = some s
          ∧ s.m_initial = swapped_pair_board ∧ s.m_moves = [] ∧ s.moves = 0
          ∧ s.snapshots = [] :=
  ⟨by decide, solve_unsolvable swapped_pair_board (by decide) 100⟩

/-- The statement C10 for side 3. -/
theorem solve_goal_witness :
    3 * 3 < U32
      ∧ ∃ board, Board.create_goal 3 = Except.ok board
          ∧ ∀ fuel, ∃ s, Solver.solve fuel board = some s
              ∧ s.m_moves = [board.blank_pos] ∧ s.moves = 0 ∧ s.snapshots = [board] :=
  ⟨by decide, solve_goal 3 (by decide)⟩

/-! ## The board one move away from the goal -/

theorem valid_goal_board (n : Nat) (hn : 1 ≤ n) (hfit : n * n < U32) : valid (goal_board n) := by
  refine ⟨is_permutation_goal_grid n, ⟨?_, ?_, ?_⟩, ?_, ?_, rfl⟩
  · show n - 1 < (goal_grid n).length
    rw [length_goal_grid]; omega
  · show n - 1 < (goal_grid n).length
    rw [length_goal_grid]; omega
  · exact cell_goal_grid_last n hn
  · exact (calculate_hamming_goal_grid n hfit).symm
  · exact (calculate_manhattan_goal_grid n).symm

theorem goal_board_size (n : Nat) : (goal_board n).size = n := length_goal_grid n

theorem goal_board_get (n i j : Nat) (hi : i < n) (hj : j < n) :
    (goal_board n).get i j = (i * n + j + 1) % (n * n) := cell_goal_grid n i j hi hj

/-- A cell other than the last one holds its index plus one in the goal arrangement. -/
theorem goal_label (n i j : Nat) (hi : i < n) (hj : j < n) (hne : (i, j) ≠ (n - 1, n - 1)) :
    (i * n + j + 1) % (n * n) = i * n + j + 1 := by
  apply Nat.mod_eq_of_lt
  have hlt := index_lt n i j hi hj
  rcases Nat.lt_or_ge (i * n + j + 1) (n * n) with h | h
  · exact h
  · exfalso
    apply hne
    have e : i * n + j = (n - 1) * n + (n - 1) := by
      have e2 : (n - 1) * n + (n - 1) + 1 = n * n := by
        obtain ⟨k, hk⟩ : ∃ k, n = k + 1 := ⟨n - 1, by omega⟩
        rw [hk]
        simp only [Nat.add_sub_cancel]
        ring
      omega
    have d1 := index_div_mod n i j hj
    have d2 := index_div_mod n (n - 1) (n - 1) (by omega)
    rw [e] at d1
    exact Prod.ext (d1.1.symm.trans d2.1) (d1.2.symm.trans d2.2)

/-- The tile whose goal cell is `(i, j)` is one step away from a neighbouring cell. -/
theorem single_manhattan_adjacent (n i j x y : Nat) (hi : i < n) (hj : j < n)
    (hx : x < n) (hy : y < n) (hn : n < 2147483648) (hadj : adjacent (i, j) (x, y)) :
    calculate_single_manhattan x y (i * n + j + 1) n = 1 := by
  unfold calculate_single_manhattan
  rw [if_neg (by omega)]
  simp only [Nat.add_sub_cancel]
  rw [(index_div_mod n i j hj).1, (index_div_mod n i j hj).2,
    to_signed_small i (by omega), to_signed_small j (by omega),
    to_signed_small x (by omega), to_signed_small y (by omega)]
  unfold adjacent at hadj
  simp only [] at hadj
  have h1 : |(i : Int) - (x : Int)| + |(j : Int) - (y : Int)| = 1 := by
    rcases hadj with ⟨h, h' | h'⟩ | ⟨h, h' | h'⟩
    · rw [h, ← h']; simp
    · rw [h, ← h']; simp
    · rw [h, ← h']; simp
    · rw [h, ← h']; simp
  rw [h1]
  decide

theorem adjacent_symm (a b : Nat × Nat) (h : adjacent a b) : adjacent b a := by
  unfold adjacent at *
  omega

theorem adjacent_ne (a b : Nat × Nat) (h : adjacent a b) : a ≠ b := by
  intro e
  rw [e] at h
  unfold adjacent at h
  omega

theorem moved_manhattan_def (p : BoardProps) (t : Nat × Nat) :
    (MovedBoard p t).manhattan
      = add32 (sub32 p.manhattan (calculate_single_manhattan t.1 t.2 (p.get t.1 t.2) p.size))
          (calculate_single_manhattan p.blank_pos.1 p.blank_pos.2 (p.get t.1 t.2) p.size) := rfl

theorem of_field_one_move (n : Nat) (t : Nat × Nat) (hn : 1 ≤ n) (hfit : n * n < U32)
    (ht : t.1 < n ∧ t.2 < n) :
    Board.of_field (MovedBoard (goal_board n) t).grid = Except.ok (one_move_board n t) := by
  have hG := valid_goal_board n hn hfit
  have hsz := goal_board_size n
  have h := of_field_grid (MovedBoard (goal_board n) t)
    (is_permutation_moved _ t hG.2.1 (by rw [hsz]; exact ht) hG.1)
    (by rw [moved_size, hsz]; exact hn) (by rw [moved_size, hsz]; exact hfit)
    (blank_ok_moved _ t (by rw [hsz]; exact ht))
  rw [moved_size, hsz, moved_blank_pos] at h
  exact h

theorem one_move_size (n : Nat) (t : Nat × Nat) : (one_move_board n t).size = n := by
  show (internal_data (MovedBoard (goal_board n) t)).length = n
  rw [length_internal_data, moved_size, goal_board_size]

theorem valid_one_move (n : Nat) (t : Nat × Nat) (hn : 1 ≤ n) (hfit : n * n < U32)
    (ht : t.1 < n ∧ t.2 < n) : valid (one_move_board n t) := by
  have hG := valid_goal_board n hn hfit
  have hsz := goal_board_size n
  exact valid_of_field _ _ (is_permutation_moved _ t hG.2.1 (by rw [hsz]; exact ht) hG.1)
    (by rw [length_grid, moved_size, hsz]; exact hn) (of_field_one_move n t hn hfit ht)

/-- The cells of the board after one move: the blank at `t`, the tile of `t` in the
last cell, every other tile in its goal cell. -/
theorem one_move_get (n : Nat) (t : Nat × Nat) (ht : t.1 < n ∧ t.2 < n)
    (hne : t ≠ (n - 1, n - 1)) (i j : Nat) (hi : i < n) (hj : j < n) :
    (one_move_board n t).get i j
      = if (i, j) = t then 0
        else if (i, j) = (n - 1, n - 1) then t.1 * n + t.2 + 1
        else i * n + j + 1 := by
  have hsz := goal_board_size n
  have h1 : (one_move_board n t).get i j = (MovedBoard (goal_board n) t).get i j :=
    cell_internal_data (MovedBoard (goal_board n) t) i j (by rw [moved_size, hsz]; exact hi)
      (by rw [moved_size, hsz]; exact hj)
  rw [h1, moved_get]
  have hb : (goal_board n).blank_pos = (n - 1, n - 1) := rfl
  rw [hb]
  by_cases c1 : (i, j) = t
  · rw [if_pos c1, if_pos c1]
  · rw [if_neg c1, if_neg c1]
    by_cases c2 : (i, j) = (n - 1, n - 1)
    · rw [if_pos c2, if_pos c2, goal_board_get n _ _ ht.1 ht.2, goal_label n _ _ ht.1 ht.2 hne]
    · rw [if_neg c2, if_neg c2, goal_board_get n _ _ hi hj, goal_label n _ _ hi hj c2]

theorem parity_rule_goal (n : Nat) (hn : 1 ≤ n) (hfit : n * n < U32) :
    parity_rule n (inversions (tiles (goal_grid n)) % 2) (n - 1) = true := by
  have h := calculate_solvability_spec (goal_grid n) (is_permutation_goal_grid n)
    (by rw [length_goal_grid]; exact hn) (by rw [length_goal_grid]; exact hfit) (n - 1, n - 1)
    (by rw [length_goal_grid]; omega) (by rw [length_goal_grid]; omega)
    (cell_goal_grid_last n hn)
  rw [calculate_hamming_goal_grid n hfit, length_goal_grid] at h
  have hs : Board.calculate_solvability (goal_grid n) (n - 1, n - 1) 0 = some true := by
    unfold Board.calculate_solvability
    rw [if_pos (Or.inr rfl)]
  rw [hs] at h
  exact (Option.some.inj h).symm

theorem one_move_solvable (n : Nat) (t : Nat × Nat) (hn : 1 ≤ n) (hfit : n * n < U32)
    (ht : t.1 < n ∧ t.2 < n) (hadj : adjacent (n - 1, n - 1) t) :
    (one_move_board n t).is_solvable = true := by
  have hG := valid_goal_board n hn hfit
  have hsz := goal_board_size n
  have h := parity_rule_moved (goal_board n) t hG.1 hG.2.1 (by rw [hsz]; exact ht) hadj
  rw [hsz] at h
  show parity_rule n (inversions (tiles (MovedBoard (goal_board n) t).grid) % 2) t.1 = true
  rw [h]
  exact parity_rule_goal n hn hfit

theorem one_move_hamming_ne (n : Nat) (t : Nat × Nat) (hn : 1 ≤ n) (hfit : n * n < U32)
    (ht : t.1 < n ∧ t.2 < n) (hne : t ≠ (n - 1, n - 1)) :
    (one_move_board n t).hamming ≠ 0 := by
  intro h0
  have hv := valid_one_move n t hn hfit ht
  have hsz := one_move_size n t
  have h := get_of_goal (one_move_board n t) hv (by rw [hsz]; exact hfit) h0 t.1 t.2
    (by rw [hsz]; exact ht.1) (by rw [hsz]; exact ht.2)
  rw [hsz, one_move_get n t ht hne _ _ ht.1 ht.2, if_pos rfl, goal_label n _ _ ht.1 ht.2 hne] at h
  omega

theorem one_move_manhattan (n : Nat) (t : Nat × Nat) (hn : 1 ≤ n) (hfit : n * n < U32)
    (ht : t.1 < n ∧ t.2 < n) (hadj : adjacent (n - 1, n - 1) t) :
    (one_move_board n t).manhattan = 1 := by
  have hG := valid_goal_board n hn hfit
  have hsz := goal_board_size n
  have hne : t ≠ (n - 1, n - 1) := (adjacent_ne _ _ hadj).symm
  have h := moved_manhattan_eq (goal_board n) t hG.2.2.2.1 hG.2.1 (by rw [hsz]; exact ht)
  show Board.calculate_manhattan (MovedBoard (goal_board n) t).grid = 1
  rw [← h, moved_manhattan_def, hsz, goal_board_get n _ _ ht.1 ht.2]
  have hb : (goal_board n).blank_pos = (n - 1, n - 1) := rfl
  have hm : (goal_board n).manhattan = 0 := rfl
  rw [hb, hm, single_manhattan_home n _ _ ht.1 ht.2, goal_label n _ _ ht.1 ht.2 hne,
    single_manhattan_adjacent n t.1 t.2 (n - 1) (n - 1) ht.1 ht.2 (by omega) (by omega)
      (side_lt_of_fit n hfit) (adjacent_symm _ _ hadj)]
  decide

/-- Moving the blank of the board after one move to a neighbour other than the last
cell takes a tile out of its goal cell: the Manhattan value becomes 2. -/
theorem one_move_away_manhattan (n : Nat) (t t' : Nat × Nat) (hn : 1 ≤ n) (hfit : n * n < U32)
    (ht : t.1 < n ∧ t.2 < n) (hadj : adjacent (n - 1, n - 1) t)
    (ht' : t'.1 < n ∧ t'.2 < n) (hadj' : adjacent t t') (hne' : t' ≠ (n - 1, n - 1)) :
    (MovedBoard (one_move_board n t) t').manhattan = 2 := by
  have hne : t ≠ (n - 1, n - 1) := (adjacent_ne _ _ hadj).symm
  have hneq : (t'.1, t'.2) ≠ t := (adjacent_ne _ _ hadj').symm
  rw [moved_manhattan_def, one_move_size, one_move_manhattan n t hn hfit ht hadj,
    one_move_get n t ht hne _ _ ht'.1 ht'.2, if_neg hneq, if_neg hne']
  have hb : (one_move_board n t).blank_pos = t := rfl
  have hhome := single_manhattan_home n _ _ ht'.1 ht'.2
  rw [goal_label n _ _ ht'.1 ht'.2 hne'] at hhome
  rw [hb, hhome,
    single_manhattan_adjacent n t'.1 t'.2 t.1 t.2 ht'.1 ht'.2 ht.1 ht.2
      (side_lt_of_fit n hfit) (adjacent_symm _ _ hadj')]
  decide

/-- Moving the blank of the board after one move to the last cell gives back the goal
arrangement. -/
theorem one_move_back_get (n : Nat) (t : Nat × Nat) (hn : 1 ≤ n) (ht : t.1 < n ∧ t.2 < n)
    (hne : t ≠ (n - 1, n - 1)) (i j : Nat) (hi : i < n) (hj : j < n) :
    (MovedBoard (one_move_board n t) (n - 1, n - 1)).get i j = (goal_board n).get i j := by
  rw [moved_get, goal_board_get n i j hi hj]
  have hb : (one_move_board n t).blank_pos = t := rfl
  rw [hb]
  by_cases c1 : (i, j) = (n - 1, n - 1)
  · rw [if_pos c1]
    have e1 : i = n - 1 := congrArg Prod.fst c1
    have e2 : j = n - 1 := congrArg Prod.snd c1
    rw [e1, e2]
    have := cell_goal_grid_last n hn
    rw [cell_goal_grid n _ _ (by omega) (by omega)] at this
    exact this.symm
  · rw [if_neg c1]
    by_cases c2 : (i, j) = t
    · rw [if_pos c2, one_move_get n t ht hne _ _ (by omega) (by omega), if_neg (Ne.symm hne),
        if_pos rfl]
      have e1 : i = t.1 := congrArg Prod.fst c2
      have e2 : j = t.2 := congrArg Prod.snd c2
      rw [e1, e2, goal_label n _ _ ht.1 ht.2 hne]
    · rw [if_neg c2, one_move_get n t ht hne _ _ hi hj, if_neg c2, if_neg c1,
        goal_label n _ _ hi hj c1]

theorem count_grid_congr (func : Nat → Nat → Nat → Nat → Nat) (a b : BoardProps)
    (hs : a.size = b.size) (hget : ∀ i j, i < a.size → j < a.size → a.get i j = b.get i j) :
    Board.count func a.grid = Board.count func b.grid := by
  apply eq_of_cast_eq U32 _ _ (count_lt _ _) (count_lt _ _)
  rw [cast_count_grid, cast_count_grid, ← hs]
  exact cell_sum_congr _ _ _ (fun i j hi hj => by rw [hget i j hi hj])

theorem calculate_hash_grid_congr (a b : BoardProps)
    (hs : a.size = b.size) (hget : ∀ i j, i < a.size → j < a.size → a.get i j = b.get i j) :
    Board.calculate_hash a.grid = Board.calculate_hash b.grid := by
  apply eq_of_cast_eq U64 _ _ (calculate_hash_lt _) (calculate_hash_lt _)
  rw [cast_calculate_hash_grid, cast_calculate_hash_grid, ← hs]
  exact cell_sum_congr _ _ _ (fun i j hi hj => by rw [hget i j hi hj])

/-- The delta that moves the blank back to the last cell has the cached values of the
goal board. -/
theorem one_move_back_cache (n : Nat) (t : Nat × Nat) (hn : 1 ≤ n) (hfit : n * n < U32)
    (ht : t.1 < n ∧ t.2 < n) (hne : t ≠ (n - 1, n - 1)) :
    (MovedBoard (one_move_board n t) (n - 1, n - 1)).hamming = 0
      ∧ (MovedBoard (one_move_board n t) (n - 1, n - 1)).manhattan = 0
      ∧ (MovedBoard (one_move_board n t) (n - 1, n - 1)).hash = (goal_board n).hash := by
  have hv := valid_one_move n t hn hfit ht
  have hsz := one_move_size n t
  have hvm := valid_moved (one_move_board n t) (n - 1, n - 1) hv
    ⟨by rw [hsz]; omega, by rw [hsz]; omega⟩
  have hG := valid_goal_board n hn hfit
  have hs : (MovedBoard (one_move_board n t) (n - 1, n - 1)).size = (goal_board n).size := by
    rw [moved_size, hsz, goal_board_size]
  have hget : ∀ i j, i < (MovedBoard (one_move_board n t) (n - 1, n - 1)).size →
      j < (MovedBoard (one_move_board n t) (n - 1, n - 1)).size →
      (MovedBoard (one_move_board n t) (n - 1, n - 1)).get i j = (goal_board n).get i j := by
    intro i j hi hj
    rw [moved_size, hsz] at hi hj
    exact one_move_back_get n t hn ht hne i j hi hj
  refine ⟨?_, ?_, ?_⟩
  · rw [hvm.2.2.1]
    exact (count_grid_congr _ _ _ hs hget).trans hG.2.2.1.symm
  · rw [hvm.2.2.2.1]
    exact (count_grid_congr _ _ _ hs hget).trans hG.2.2.2.1.symm
  · rw [hvm.2.2.2.2]
    exact (calculate_hash_grid_congr _ _ hs hget).trans hG.2.2.2.2.symm

/-! ## The search on the board one move away from the goal -/

theorem move_relative_down (par : BoardProps) (hbx : par.blank_pos.1 + 1 < par.size)
    (hby : par.blank_pos.2 < par.size) (hn : par.size < 2147483648) :
    move_relative par (of_signed 1) (of_signed 0)
      = some (MovedBoard par (par.blank_pos.1 + 1, par.blank_pos.2)) := by
  have o1 : of_signed (1 : Int) = 1 := by decide
  have o0 : of_signed (0 : Int) = 0 := by decide
  rw [o1, o0]
  unfold move_relative
  simp only [Nat.add_zero]
  have e1 : (par.blank_pos.1 + 1) % U32 = par.blank_pos.1 + 1 :=
    Nat.mod_eq_of_lt (by unfold U32; omega)
  have e2 : par.blank_pos.2 % U32 = par.blank_pos.2 := Nat.mod_eq_of_lt (by unfold U32; omega)
  rw [e1, e2, to_signed_small (par.blank_pos.1 + 1) (by omega),
    to_signed_small par.blank_pos.2 (by omega), to_signed_small par.size hn]
  rw [if_pos ⟨by omega, by exact_mod_cast hbx, by omega, by exact_mod_cast hby⟩]
  rw [of_signed_natCast (par.blank_pos.1 + 1) (by unfold U32; omega),
    of_signed_natCast par.blank_pos.2 (by unfold U32; omega)]

theorem move_relative_right (par : BoardProps) (hbx : par.blank_pos.1 < par.size)
    (hby : par.blank_pos.2 + 1 < par.size) (hn : par.size < 2147483648) :
    move_relative par (of_signed 0) (of_signed 1)
      = some (MovedBoard par (par.blank_pos.1, par.blank_pos.2 + 1)) := by
  have o1 : of_signed (1 : Int) = 1 := by decide
  have o0 : of_signed (0 : Int) = 0 := by decide
  rw [o1, o0]
  unfold move_relative
  simp only [Nat.add_zero]
  have e1 : (par.blank_pos.2 + 1) % U32 = par.blank_pos.2 + 1 :=
    Nat.mod_eq_of_lt (by unfold U32; omega)
  have e2 : par.blank_pos.1 % U32 = par.blank_pos.1 := Nat.mod_eq_of_lt (by unfold U32; omega)
  rw [e1, e2, to_signed_small (par.blank_pos.2 + 1) (by omega),
    to_signed_small par.blank_pos.1 (by omega), to_signed_small par.size hn]
  rw [if_pos ⟨by omega, by exact_mod_cast hbx, by omega, by exact_mod_cast hby⟩]
  rw [of_signed_natCast (par.blank_pos.2 + 1) (by unfold U32; omega),
    of_signed_natCast par.blank_pos.1 (by unfold U32; omega)]

/-- An entry with the smallest key goes to the front of the frontier, or stays behind
an entry equal to it that is already the first. -/
theorem head_emplace_goal (ge : (Nat × Nat) × BoardProps) (big : Nat × Nat)
    (h1 : Solver.key_lt ge.1 big = true) (h2 : Solver.key_lt ge.1 ge.1 = false)
    (fr : List ((Nat × Nat) × BoardProps)) (hfr : ∀ e ∈ fr, e = ge ∨ e.1 = big) :
    (Solver.emplace ge.1 ge.2 fr).head? = some ge := by
  cases fr with
  | nil => rfl
  | cons e rest =>
    unfold Solver.emplace
    rcases hfr e (List.mem_cons_self _ _) with h | h
    · rw [h, h2]
      rfl
    · rw [h, h1]
      rfl

theorem head_emplace_big (ge : (Nat × Nat) × BoardProps) (big : Nat × Nat) (q : BoardProps)
    (h : Solver.key_lt big ge.1 = false)
    (fr : List ((Nat × Nat) × BoardProps)) (hfr : fr.head? = some ge) :
    (Solver.emplace big q fr).head? = some ge := by
  cases fr with
  | nil => cases hfr
  | cons e rest =>
    simp only [List.head?_cons, Option.some.injEq] at hfr
    unfold Solver.emplace
    rw [hfr, h]
    rfl

theorem moved_injective (p : BoardProps) (t t' : Nat × Nat)
    (h : MovedBoard p t = MovedBoard p t') : t = t' := by
  have := congrArg BoardProps.blank_pos h
  exact this

theorem same_board_cache (a b : BoardProps) (h : same_board a b) :
    a.manhattan = b.manhattan ∧ a.hamming = b.hamming ∧ a.hash = b.hash := by
  unfold BoardProps.manhattan BoardProps.hamming BoardProps.hash
  rw [h.2.1]
  exact ⟨rfl, rfl, rfl⟩

/-- A delta over the root delta of the search has the cache of the delta over the
board itself. -/
theorem same_board_over_root (board : BoardProps) (hv : valid board) (t' : Nat × Nat)
    (ht' : t'.1 < board.size ∧ t'.2 < board.size) :
    same_board (MovedBoard board t') (MovedBoard (MovedBoard board board.blank_pos) t') :=
  same_board_moved board (MovedBoard board board.blank_pos) t' (same_board_start board hv)
    ⟨hv.2.1.1, hv.2.1.2.1⟩ ht'

/-- One pass of the loop over `available_moves` at the root of the board one move away
from the goal keeps the state of the frontier described by `frontier_inv`, and the pass
for the move to the last cell puts the goal delta in. -/
theorem expand_one_move (n : Nat) (t : Nat × Nat) (hn : 1 ≤ n) (hfit : n * n < U32)
    (ht : t.1 < n ∧ t.2 < n) (hadj : adjacent (n - 1, n - 1) t)
    (k : Nat) (hk : k = 3 ∨ k = 39) (key0 : Nat × Nat) (hkey : key0.2 = 0) (seen : Prop)
    (fr : List ((Nat × Nat) × BoardProps)) (move : Int × Int)
    (hmove : move ∈ Solver.available_moves)
    (hinv : frontier_inv
      ((1, 1), MovedBoard (MovedBoard (one_move_board n t) t) (n - 1, n - 1))
      (1 + 2 * k, 1) seen fr) :
    frontier_inv
      ((1, 1), MovedBoard (MovedBoard (one_move_board n t) t) (n - 1, n - 1))
      (1 + 2 * k, 1)
      (seen ∨ move_relative (MovedBoard (one_move_board n t) t) (of_signed move.1)
          (of_signed move.2)
        = some (MovedBoard (MovedBoard (one_move_board n t) t) (n - 1, n - 1)))
      (Solver.expand k key0 (MovedBoard (one_move_board n t) t) [] fr move) := by
  have hv := valid_one_move n t hn hfit ht
  have hsz := one_move_size n t
  have hne : t ≠ (n - 1, n - 1) := (adjacent_ne _ _ hadj).symm
  have hlt := side_lt_of_fit n hfit
  have hbp : (one_move_board n t).blank_pos = t := rfl
  unfold Solver.expand
  cases hmr : move_relative (MovedBoard (one_move_board n t) t) (of_signed move.1)
      (of_signed move.2) with
  | none =>
    refine ⟨hinv.1, ?_⟩
    intro h
    rcases h with h | h
    · exact hinv.2 h
    · cases h
  | some q =>
    simp only [List.not_mem_nil, if_false]
    obtain ⟨t', hq, h1, h2, h3⟩ := move_relative_available (MovedBoard (one_move_board n t) t)
      (by rw [moved_blank_pos, moved_size, hsz]; exact ht.1)
      (by rw [moved_blank_pos, moved_size, hsz]; exact ht.2)
      (by rw [moved_size, hsz]; exact hlt) move hmove q hmr
    rw [moved_size, hsz] at h1 h2
    rw [moved_blank_pos] at h3
    have hsame := same_board_over_root (one_move_board n t) hv t' (by rw [hsz]; exact ⟨h1, h2⟩)
    rw [hbp] at hsame
    have hman := (same_board_cache _ _ hsame).1
    by_cases hb : t' = (n - 1, n - 1)
    · rw [hb] at hq hman
      rw [(one_move_back_cache n t hn hfit ht hne).2.1] at hman
      rw [hq, ← hman, hkey]
      have hkey1 : ((0 + 1 + 0 * k) % U32, (0 + 1) % U32) = ((1, 1) : Nat × Nat) := by
        rw [Nat.zero_mul]; decide
      rw [hkey1]
      have hlt1 : Solver.key_lt (1, 1) (1 + 2 * k, 1) = true := by
        rcases hk with rfl | rfl <;> decide
      refine ⟨?_, ?_⟩
      · intro e he
        rcases (mem_emplace _ _ _ _).1 he with h | h
        · exact Or.inl h
        · exact hinv.1 e h
      · intro _
        exact head_emplace_goal
          ((1, 1), MovedBoard (MovedBoard (one_move_board n t) t) (n - 1, n - 1))
          (1 + 2 * k, 1) hlt1 rfl fr hinv.1
    · rw [one_move_away_manhattan n t t' hn hfit ht hadj ⟨h1, h2⟩ h3 hb] at hman
      rw [hq, ← hman, hkey]
      have hkey2 : ((0 + 1 + 2 * k) % U32, (0 + 1) % U32) = ((1 + 2 * k, 1) : Nat × Nat) := by
        rcases hk with rfl | rfl <;> decide
      rw [hkey2]
      have hlt2 : Solver.key_lt (1 + 2 * k, 1) (1, 1) = false := by
        rcases hk with rfl | rfl <;> decide
      refine ⟨?_, ?_⟩
      · intro e he
        rcases (mem_emplace _ _ _ _).1 he with h | h
        · rw [h]; exact Or.inr rfl
        · exact hinv.1 e h
      · intro h
        rcases h with h | h
        · exact head_emplace_big
            ((1, 1), MovedBoard (MovedBoard (one_move_board n t) t) (n - 1, n - 1))
            (1 + 2 * k, 1) _ hlt2 fr (hinv.2 h)
        · exfalso
          exact hb (moved_injective _ _ _ (Option.some.inj h))

/-- One of the first two offsets of `available_moves` takes the blank of the root back
to the last cell. -/
theorem one_move_goal_move (n : Nat) (t : Nat × Nat) (hn : 1 ≤ n) (hfit : n * n < U32)
    (ht : t.1 < n ∧ t.2 < n) (hadj : adjacent (n - 1, n - 1) t) :
    move_relative (MovedBoard (one_move_board n t) t) (of_signed 1) (of_signed 0)
        = some (MovedBoard (MovedBoard (one_move_board n t) t) (n - 1, n - 1))
      ∨ move_relative (MovedBoard (one_move_board n t) t) (of_signed 0) (of_signed 1)
        = some (MovedBoard (MovedBoard (one_move_board n t) t) (n - 1, n - 1)) := by
  have hsz := one_move_size n t
  have hlt := side_lt_of_fit n hfit
  unfold adjacent at hadj
  simp only [] at hadj
  rcases hadj with ⟨h1, h2⟩ | ⟨h1, h2⟩
  · right
    have e : t.2 + 1 = n - 1 := by omega
    have h := move_relative_right (MovedBoard (one_move_board n t) t)
      (by rw [moved_blank_pos, moved_size, hsz]; exact ht.1)
      (by rw [moved_blank_pos, moved_size, hsz]; omega)
      (by rw [moved_size, hsz]; exact hlt)
    rw [moved_blank_pos, e, ← h1] at h
    exact h
  · left
    have e : t.1 + 1 = n - 1 := by omega
    have h := move_relative_down (MovedBoard (one_move_board n t) t)
      (by rw [moved_blank_pos, moved_size, hsz]; omega)
      (by rw [moved_blank_pos, moved_size, hsz]; exact ht.2)
      (by rw [moved_size, hsz]; exact hlt)
    rw [moved_blank_pos, e, ← h1] at h
    exact h

/-- On the board one move away from the goal, `a_star` returns after two passes of its
loop the delta that moves the blank of the root back to the last cell. -/
theorem a_star_one_move (n : Nat) (t : Nat × Nat) (hn : 1 ≤ n) (hfit : n * n < U32)
    (ht : t.1 < n ∧ t.2 < n) (hadj : adjacent (n - 1, n - 1) t) (fuel : Nat) (hfuel : 2 ≤ fuel) :
    Solver.a_star fuel (one_move_board n t)
      = some (some (MovedBoard (MovedBoard (one_move_board n t) t) (n - 1, n - 1))) := by
  have hv := valid_one_move n t hn hfit ht
  have hsz := one_move_size n t
  have hne : t ≠ (n - 1, n - 1) := (adjacent_ne _ _ hadj).symm
  have hlt := side_lt_of_fit n hfit
  have hbp : (one_move_board n t).blank_pos = t := rfl
  obtain ⟨f, rfl⟩ : ∃ f, fuel = f + 2 := ⟨fuel - 2, by omega⟩
  unfold Solver.a_star
  simp only []
  rw [move_relative_zero _ hv.2.1 (by rw [hsz]; exact hlt), hbp]
  simp only []
  generalize hkdef : (if (one_move_board n t).size > 4 then 39 else 3) = k
  have hk : k = 3 ∨ k = 39 := by
    rw [← hkdef]
    split
    · exact Or.inr rfl
    · exact Or.inl rfl
  have hroot := same_board_start (one_move_board n t) hv
  rw [hbp] at hroot
  have hrg : (MovedBoard (one_move_board n t) t).is_goal = false := by
    unfold BoardProps.is_goal
    rw [moved_size, hsz, ← (same_board_cache _ _ hroot).2.1]
    have := one_move_hamming_ne n t hn hfit ht hne
    simp only [Bool.or_eq_false_iff, decide_eq_false_iff_not]
    exact ⟨by omega, this⟩
  rw [Solver.a_star_loop, hrg]
  simp only [Bool.false_eq_true, if_false]
  have m1 : ((1 : Int), (0 : Int)) ∈ Solver.available_moves := by decide
  have m2 : ((0 : Int), (1 : Int)) ∈ Solver.available_moves := by decide
  have m3 : ((-1 : Int), (0 : Int)) ∈ Solver.available_moves := by decide
  have m4 : ((0 : Int), (-1 : Int)) ∈ Solver.available_moves := by decide
  have i0 : frontier_inv
      ((1, 1), MovedBoard (MovedBoard (one_move_board n t) t) (n - 1, n - 1))
      (1 + 2 * k, 1) False [] := ⟨by simp, False.elim⟩
  have i1 := expand_one_move n t hn hfit ht hadj k hk
    (((one_move_board n t).manhattan * k) % U32, 0) rfl _ _ _ m1 i0
  have i2 := expand_one_move n t hn hfit ht hadj k hk
    (((one_move_board n t).manhattan * k) % U32, 0) rfl _ _ _ m2 i1
  have i3 := expand_one_move n t hn hfit ht hadj k hk
    (((one_move_board n t).manhattan * k) % U32, 0) rfl _ _ _ m3 i2
  have i4 := expand_one_move n t hn hfit ht hadj k hk
    (((one_move_board n t).manhattan * k) % U32, 0) rfl _ _ _ m4 i3
  have hfold : Solver.available_moves.foldl
      (Solver.expand k (((one_move_board n t).manhattan * k) % U32, 0)
        (MovedBoard (one_move_board n t) t) []) []
      = Solver.expand k (((one_move_board n t).manhattan * k) % U32, 0)
          (MovedBoard (one_move_board n t) t) []
          (Solver.expand k (((one_move_board n t).manhattan * k) % U32, 0)
            (MovedBoard (one_move_board n t) t) []
            (Solver.expand k (((one_move_board n t).manhattan * k) % U32, 0)
              (MovedBoard (one_move_board n t) t) []
              (Solver.expand k (((one_move_board n t).manhattan * k) % U32, 0)
                (MovedBoard (one_move_board n t) t) [] [] (1, 0)) (0, 1)) (-1, 0)) (0, -1) := rfl
  have hhead := i4.2 (by
    rcases one_move_goal_move n t hn hfit ht hadj with h | h
    · exact Or.inl (Or.inl (Or.inl (Or.inr h)))
    · exact Or.inl (Or.inl (Or.inr h)))
  rw [← hfold] at hhead
  cases hfr : Solver.available_moves.foldl
      (Solver.expand k (((one_move_board n t).manhattan * k) % U32, 0)
        (MovedBoard (one_move_board n t) t) []) [] with
  | nil => rw [hfr] at hhead; cases hhead
  | cons e rest =>
    rw [hfr] at hhead
    simp only [List.head?_cons, Option.some.injEq] at hhead
    have hqg : (MovedBoard (MovedBoard (one_move_board n t) t) (n - 1, n - 1)).is_goal = true := by
      unfold BoardProps.is_goal
      have hsame := same_board_over_root (one_move_board n t) hv (n - 1, n - 1)
        (by rw [hsz]; omega)
      rw [hbp] at hsame
      rw [← (same_board_cache _ _ hsame).2.1, (one_move_back_cache n t hn hfit ht hne).1]
      simp
    rw [Solver.a_star_loop, hhead]
    simp only [hqg, if_true]

theorem board_eq_of_same_cells (a b : BoardProps) (hh : a.hash = b.hash)
    (hget : ∀ i j, i < a.size → j < b.size → a.get i j = b.get i j) : board_eq a b = true := by
  unfold board_eq
  rw [if_neg (by simpa using hh)]
  simp only [List.all_eq_true, List.mem_range, decide_eq_true_eq]
  intro i hi j hj
  exact hget i j hi hj

/-- C9. For every side `n >= 2` that fits and each of the two cells `t` next to the
blank of the goal board, `create_goal(n)` builds the goal board, the heavy constructor
builds a board from the goal grid with the blank moved to `t`, and on that board
`solve` returns, as soon as the search is allowed two passes, a solution with
`moves() == 1` whose replay has exactly two snapshots: the input, and a board that
`operator==` finds equal to the goal board. -/
theorem solve_one_move (n : Nat) (hn : 2 ≤ n) (hfit : n * n < U32) (t : Nat × Nat)
    (ht : t.1 < n ∧ t.2 < n) (hadj : adjacent (goal_board n).blank_pos t) :
    Board.create_goal n = Except.ok (goal_board n)
      ∧ ∃ board, Board.of_field (MovedBoard (goal_board n) t).grid = Except.ok board
          ∧ ∀ fuel, 2 ≤ fuel → ∃ s last, Solver.solve fuel board = some s
              ∧ s.moves = 1 ∧ s.snapshots = [board, last]
              ∧ board_eq last (goal_board n) = true := by
  have hn1 : 1 ≤ n := by omega
  have hadj' : adjacent (n - 1, n - 1) t := hadj
  have hne : t ≠ (n - 1, n - 1) := (adjacent_ne _ _ hadj').symm
  have hsz := one_move_size n t
  refine ⟨create_goal_spec n hfit, one_move_board n t, of_field_one_move n t hn1 hfit ht, ?_⟩
  intro fuel hfuel
  refine ⟨{ m_initial := one_move_board n t, m_moves := [t, (n - 1, n - 1)] },
    snapshot (MovedBoard (one_move_board n t) (n - 1, n - 1)), ?_, rfl, ?_, ?_⟩
  · unfold Solver.solve
    rw [one_move_solvable n t hn1 hfit ht hadj']
    have hg : (one_move_board n t).is_goal = false := by
      unfold BoardProps.is_goal
      have := one_move_hamming_ne n t hn1 hfit ht hne
      simp only [Bool.or_eq_false_iff, decide_eq_false_iff_not]
      exact ⟨by omega, this⟩
    rw [hg, a_star_one_move n t hn1 hfit ht hadj' fuel hfuel]
    rfl
  · rw [snapshots_cons]
    rfl
  · apply board_eq_of_same_cells
    · exact (one_move_back_cache n t hn1 hfit ht hne).2.2
    · intro i j hi hj
      have hs := (same_board_snapshot (MovedBoard (one_move_board n t) (n - 1, n - 1))).1
      rw [hs, moved_size, hsz] at hi
      rw [goal_board_size] at hj
      rw [(same_board_snapshot (MovedBoard (one_move_board n t) (n - 1, n - 1))).2.2 i j
        (by rw [hs, moved_size, hsz]; exact hi) (by rw [hs, moved_size, hsz]; exact hj)]
      exact one_move_back_get n t hn1 ht hne i j hi hj

/-! ## The Hamming value of a delta, and the statements at concrete boards -/

/-- C3. The Hamming value that `MovedBoard(p, t)` stores, the value of the parent
adjusted by the four `calculate_single_hamming` terms, is `calculate_hamming` of the
grid the delta stands for, and it is the plain sum of `calculate_single_hamming` over
all cells of that grid. Here the side fits (`n * n < 2 ^ 32`, as for every grid that
holds the labels `0 .. n * n - 1` below `2 ^ 32`), the cached value of `p` is the
recomputed one, the blank of `p` is recorded correctly and `t` is inside the grid. -/
theorem moved_hamming_eq_sum (p : BoardProps) (t : Nat × Nat)
    (hfit : p.size * p.size < U32)
    (hcache : p.hamming = Board.calculate_hamming p.grid) (hb : blank_ok p)
    (ht : t.1 < p.size ∧ t.2 < p.size) :
    (MovedBoard p t).hamming = Board.calculate_hamming (MovedBoard p t).grid
    ∧ (MovedBoard p t).hamming
        = ∑ i in Finset.range p.size, ∑ j in Finset.range p.size,
            calculate_single_hamming i j ((MovedBoard p t).get i j) p.size := by
  refine ⟨moved_hamming_eq_calculate_hamming p t hcache hb ht, ?_⟩
  apply eq_of_cast_eq U32 _ _ (moved_hamming_lt p t)
    (lt_of_le_of_lt (hamming_sum_le _ _) hfit)
  rw [moved_hamming_cast_eq p t hcache hb ht]
  unfold cell_sum
  push_cast
  rfl

/-- The statement C1 at the board of `[[1, 2, 3], [4, 5, 6], [7, 0, 8]]` and the move of
the blank to the centre; the heavy constructor succeeds on the grid of the delta and
stores the hash of the snapshot. -/
theorem moved_hash_eq_calculate_hash_witness :
    sample_board.hash = Board.calculate_hash sample_board.grid
      ∧ blank_ok sample_board
      ∧ (1 < sample_board.size ∧ 1 < sample_board.size)
      ∧ (Board.of_field (MovedBoard sample_board (1, 1)).grid).toOption.map BoardProps.hash
          = some (snapshot (MovedBoard sample_board (1, 1))).hash
      ∧ (MovedBoard sample_board (1, 1)).hash
          = Board.calculate_hash (MovedBoard sample_board (1, 1)).grid :=
  ⟨by decide, by decide, by decide, by decide,
    (moved_hash_eq_calculate_hash sample_board (1, 1) (by decide) (by decide) (by decide)).1⟩

/-- The statement C2 at the same board and move. -/
theorem moved_manhattan_eq_calculate_manhattan_witness :
    sample_board.manhattan = Board.calculate_manhattan sample_board.grid
      ∧ blank_ok sample_board
      ∧ (1 < sample_board.size ∧ 1 < sample_board.size)
      ∧ (MovedBoard sample_board (1, 1)).manhattan
          = Board.calculate_manhattan (MovedBoard sample_board (1, 1)).grid :=
  ⟨by decide, by decide, by decide,
    (moved_manhattan_eq_calculate_manhattan sample_board (1, 1) (by decide) (by decide)
      (by decide)).1⟩

/-- The statement C3 at the same board and move. -/
theorem moved_hamming_eq_sum_witness :
    sample_board.size * sample_board.size < U32
      ∧ sample_board.hamming = Board.calculate_hamming sample_board.grid
      ∧ blank_ok sample_board
      ∧ (1 < sample_board.size ∧ 1 < sample_board.size)
      ∧ (MovedBoard sample_board (1, 1)).hamming
          = Board.calculate_hamming (MovedBoard sample_board (1, 1)).grid :=
  ⟨by decide, by decide, by decide, by decide,
    (moved_hamming_eq_sum sample_board (1, 1) (by decide) (by decide) (by decide)
      (by decide)).1⟩

/-- The statement C4 at the same board and move: the delta answers `0` at the centre,
and its grid is a permutation. -/
theorem moved_get_exchanges_blank_witness :
    blank_ok sample_board
      ∧ (1 < sample_board.size ∧ 1 < sample_board.size)
      ∧ is_permutation sample_board.grid
      ∧ (MovedBoard sample_board (1, 1)).get 1 1 = 0
      ∧ is_permutation (MovedBoard sample_board (1, 1)).grid :=
  ⟨by decide, by decide, by decide,
    (moved_get_exchanges_blank sample_board (1, 1) (by decide) (by decide)).1,
    ((moved_get_exchanges_blank sample_board (1, 1) (by decide) (by decide)).2.2.2
      (by decide)).1⟩

/-- The statement C5 at the same board and the vertical move of the blank to the
centre. -/
theorem moved_keeps_solvability_witness :
    2 ≤ sample_board.size
      ∧ sample_board.size * sample_board.size < U32
      ∧ is_permutation sample_board.grid
      ∧ blank_ok sample_board
      ∧ (1 < sample_board.size ∧ 1 < sample_board.size)
      ∧ adjacent sample_board.blank_pos (1, 1)
      ∧ ∃ B B', Board.of_field sample_board.grid = Except.ok B
          ∧ Board.of_field (MovedBoard sample_board (1, 1)).grid = Except.ok B'
          ∧ B'.is_solvable = B.is_solvable
          ∧ (sample_board.is_solvable = B.is_solvable →
              (MovedBoard sample_board (1, 1)).is_solvable = B'.is_solvable) :=
  ⟨by decide, by decide, by decide, by decide, by decide, by decide,
    moved_keeps_solvability sample_board (1, 1) (by decide) (by decide) (by decide)
      (by decide) (by decide) (by decide)⟩

/-- The statement C6 at the same board, where `a_star` returns after two passes. -/
theorem replay_ends_at_goal_witness :
    is_permutation [[1, 2, 3], [4, 5, 6], [7, 0, 8]]
      ∧ Board.of_field [[1, 2, 3], [4, 5, 6], [7, 0, 8]] = Except.ok sample_board
      ∧ Solver.a_star 2 sample_board
          = some (some (MovedBoard (MovedBoard sample_board (2, 1)) (2, 2)))
      ∧ ∃ last, (Solution.of_result
            (MovedBoard (MovedBoard sample_board (2, 1)) (2, 2))).snapshots.getLast? = some last
          ∧ last.is_goal = true
          ∧ last.grid.flatten = (List.range (3 * 3)).map (fun i => (i + 1) % (3 * 3)) :=
  ⟨by decide, rfl, by decide,
    replay_ends_at_goal [[1, 2, 3], [4, 5, 6], [7, 0, 8]] sample_board (by decide) (by decide)
      rfl 2 (MovedBoard (MovedBoard sample_board (2, 1)) (2, 2)) (by decide)⟩

/-- The statement C7 at the same board. -/
theorem path_is_legal_witness :
    is_permutation [[1, 2, 3], [4, 5, 6], [7, 0, 8]]
      ∧ Board.of_field [[1, 2, 3], [4, 5, 6], [7, 0, 8]] = Except.ok sample_board
      ∧ Solver.a_star 2 sample_board
          = some (some (MovedBoard (MovedBoard sample_board (2, 1)) (2, 2)))
      ∧ (Solution.of_result (MovedBoard (MovedBoard sample_board (2, 1)) (2, 2))).m_moves
          = [(2, 1), (2, 2)]
      ∧ (Solution.of_result (MovedBoard (MovedBoard sample_board (2, 1)) (2, 2))).moves + 1
          = (Solution.of_result
              (MovedBoard (MovedBoard sample_board (2, 1)) (2, 2))).m_moves.length :=
  ⟨by decide, rfl, by decide, by decide,
    (path_is_legal [[1, 2, 3], [4, 5, 6], [7, 0, 8]] sample_board (by decide) (by decide)
      rfl 2 (MovedBoard (MovedBoard sample_board (2, 1)) (2, 2)) (by decide)).2.2.2.2⟩

/-- The statement C9 for side 3 and the blank moved one cell to the left. -/
theorem solve_one_move_witness :
    2 ≤ 3 ∧ 3 * 3 < U32 ∧ adjacent (goal_board 3).blank_pos (2, 1)
      ∧ ∃ board, Board.of_field (MovedBoard (goal_board 3) (2, 1)).grid = Except.ok board
          ∧ ∀ fuel, 2 ≤ fuel → ∃ s last, Solver.solve fuel board = some s
              ∧ s.moves = 1 ∧ s.snapshots = [board, last]
              ∧ board_eq last (goal_board 3) = true :=
  ⟨by decide, by decide, by decide,
    (solve_one_move 3 (by decide) (by decide) (2, 1) (by decide) (by decide)).2⟩

/-! ## The targets of move_relative -/

/-- One coordinate of the target of `move_relative` for an offset `1`, `0` or `-1`
handed over as `unsigned`: the test against the side succeeds exactly when the
coordinate plus the offset lies in `[0, n)`, and then the coordinate that the delta
gets is that sum. -/
theorem target_in_range (b n : Nat) (d : Int) (hb : b < 2147483648) (hn : n < 2147483648)
    (hd : d = 1 ∨ d = 0 ∨ d = -1) :
    ((0 ≤ to_signed ((b + of_signed d) % U32) ∧ to_signed ((b + of_signed d) % U32) < to_signed n)
        ↔ (0 ≤ (b : Int) + d ∧ (b : Int) + d < (n : Int)))
      ∧ ((0 ≤ (b : Int) + d ∧ (b : Int) + d < (n : Int)) →
          of_signed (to_signed ((b + of_signed d) % U32)) = ((b : Int) + d).toNat) := by
  have o1 : of_signed (1 : Int) = 1 := by decide
  have o0 : of_signed (0 : Int) = 0 := by decide
  have om : of_signed (-1 : Int) = 4294967295 := by decide
  rw [to_signed_small n hn]
  rcases hd with rfl | rfl | rfl
  · rw [o1]
    unfold to_signed of_signed U32
    have e : (b + 1) % 4294967296 = b + 1 := Nat.mod_eq_of_lt (by omega)
    simp only [e, Nat.mod_mod]
    constructor
    · constructor
      · intro h
        split at h <;> omega
      · intro h
        rw [if_pos (by omega)]
        omega
    · intro h
      rw [if_pos (by omega)]
      omega
  · rw [o0]
    unfold to_signed of_signed U32
    have e : (b + 0) % 4294967296 = b := Nat.mod_eq_of_lt (by omega)
    simp only [e, Nat.mod_mod]
    constructor
    · constructor
      · intro h
        split at h <;> omega
      · intro h
        rw [if_pos (by omega)]
        omega
    · intro h
      rw [if_pos (by omega)]
      omega
  · rw [om]
    unfold to_signed of_signed U32
    by_cases hb0 : b = 0
    · subst hb0
      simp
    · have e : (b + 4294967295) % 4294967296 = b - 1 := by omega
      have e2 : (b - 1) % 4294967296 = b - 1 := Nat.mod_eq_of_lt (by omega)
      simp only [e, e2]
      constructor
      · constructor
        · intro h
          split at h <;> omega
        · intro h
          rw [if_pos (by omega)]
          omega
      · intro h
        rw [if_pos (by omega)]
        omega

theorem sum_map_range (f : Nat → Nat) (n : Nat) :
    ((List.range n).map f).sum = ∑ i in Finset.range n, f i := by
  induction n with
  | zero => simp
  | succ k ih =>
    rw [List.range_succ, List.map_append, List.sum_append, ih, Finset.sum_range_succ]
    simp

theorem misplaced_tiles_eq_sum (g : Grid) :
    misplaced_tiles g
      = cell_sum (fun i j =>
          if cell g i j ≠ 0 ∧ goal_position (cell g i j) g.length ≠ (i, j) then 1 else 0)
          g.length := by
  unfold misplaced_tiles cell_sum
  rw [sum_map_range]
  refine Finset.sum_congr rfl (fun i _ => ?_)
  rw [sum_map_range]

/-- A label of a permutation grid is below `n * n`. -/
theorem cell_lt (g : Grid) (hperm : is_permutation g) (i j : Nat) (hi : i < g.length)
    (hj : j < g.length) : cell g i j < g.length * g.length := by
  have hmem : cell g i j ∈ row_major (cell g) g.length := by
    have hlen : i * g.length + j < (row_major (cell g) g.length).length := by
      rw [length_row_major]; exact index_lt _ i j hi hj
    rw [← getElem_row_major (cell g) g.length i j hi hj hlen]
    exact List.getElem_mem _
  rw [← flatten_square g hperm.1] at hmem
  exact List.mem_range.1 (hperm.2.mem_iff.1 hmem)

/-- The term of `calculate_single_hamming` for one cell: a tile out of its goal
position counts, and so does the blank unless it is in the last cell. -/
theorem single_hamming_split (n i j label : Nat) (hi : i < n) (hj : j < n)
    (hfit : n * n < U32) (hlabel : label < n * n) :
    calculate_single_hamming i j label n
      = (if label ≠ 0 ∧ goal_position label n ≠ (i, j) then 1 else 0)
        + (if label = 0 ∧ (i, j) ≠ (n - 1, n - 1) then 1 else 0) := by
  unfold calculate_single_hamming goal_position
  have h1 : i * n + j + 1 < U32 := by
    have := index_lt n i j hi hj
    omega
  rw [Nat.mod_eq_of_lt h1, Nat.mod_eq_of_lt hfit]
  by_cases hlast : (i, j) = (n - 1, n - 1)
  · have e1 : i = n - 1 := congrArg Prod.fst hlast
    have e2 : j = n - 1 := congrArg Prod.snd hlast
    have e : i * n + j + 1 = n * n := by
      rw [e1, e2]
      obtain ⟨k, hk⟩ : ∃ k, n = k + 1 := ⟨n - 1, by omega⟩
      rw [hk]
      simp only [Nat.add_sub_cancel]
      ring
    rw [e, Nat.mod_self]
    by_cases h0 : label = 0
    · simp [h0, hlast]
    · have hg : ((label - 1) / n, (label - 1) % n) ≠ (i, j) := by
        intro h
        have := (index_eq_iff n (label - 1) i j hj).1 h
        omega
      simp [h0, hg]
  · rw [goal_label n i j hi hj hlast]
    by_cases h0 : label = 0
    · simp [h0, hlast]
    · by_cases hl : label = i * n + j + 1
      · have hd := index_div_mod n i j hj
        subst hl
        simp [hd.1, hd.2]
      · have hg : ((label - 1) / n, (label - 1) % n) ≠ (i, j) := by
          intro h
          have := (index_eq_iff n (label - 1) i j hj).1 h
          omega
        simp [h0, hl, hg]

theorem cell_sum_eq_sum_product {R : Type} [AddCommMonoid R] (F : Nat → Nat → R) (n : Nat) :
    cell_sum F n = ∑ x in Finset.range n ×ˢ Finset.range n, F x.1 x.2 := by
  unfold cell_sum
  rw [Finset.sum_product]

/-- The blank of a permutation grid adds one to the Hamming sum unless it is in the
last cell. -/
theorem blank_term_sum (g : Grid) (hperm : is_permutation g) (bp : Nat × Nat)
    (hbx : bp.1 < g.length) (hby : bp.2 < g.length) (hb0 : cell g bp.1 bp.2 = 0) :
    cell_sum (fun i j =>
        if cell g i j = 0 ∧ (i, j) ≠ (g.length - 1, g.length - 1) then 1 else 0) g.length
      = if bp = (g.length - 1, g.length - 1) then 0 else 1 := by
  rw [cell_sum_eq_sum_product, Finset.sum_eq_single bp]
  · simp only [hb0, true_and]
    by_cases h : bp = (g.length - 1, g.length - 1)
    · rw [if_pos h, if_neg (by simpa using h)]
    · rw [if_neg h, if_pos (by simpa using h)]
  · intro c hc hne
    have hcm := Finset.mem_product.1 hc
    have hc0 : cell g c.1 c.2 ≠ 0 := by
      intro h0
      exact hne (cell_inj g hperm c.1 c.2 bp.1 bp.2 (Finset.mem_range.1 hcm.1)
        (Finset.mem_range.1 hcm.2) hbx hby (h0.trans hb0.symm))
    rw [if_neg (fun h => hc0 h.1)]
  · intro hn
    exact absurd (Finset.mem_product.2 ⟨Finset.mem_range.2 hbx, Finset.mem_range.2 hby⟩) hn

/-- C12 (as the code behaves). For a board built from a permutation grid whose side
fits, `hamming()` is the number of non-blank tiles that are not at their goal position
plus one when the blank is not in the last cell: `calculate_single_hamming` compares
every label, the blank included, with the goal label of its cell. -/
theorem hamming_counts_blank (g : Grid) (b : BoardProps) (hperm : is_permutation g)
    (hn : 1 ≤ g.length) (hfit : g.length * g.length < U32)
    (hbuilt : Board.of_field g = Except.ok b) :
    b.hamming
      = misplaced_tiles g + (if b.blank_pos = (g.length - 1, g.length - 1) then 0 else 1) := by
  have hv := valid_of_field g b hperm hn hbuilt
  obtain ⟨c, rfl⟩ := of_field_shape g b hbuilt
  have hbk : blank_ok (BoardProps.board g c) := hv.2.1
  have hham : (BoardProps.board g c).hamming = Board.calculate_hamming g := hv.2.2.1
  rw [hham, calculate_hamming_eq_sum g hfit, misplaced_tiles_eq_sum,
    ← blank_term_sum g hperm (BoardProps.board g c).blank_pos hbk.1 hbk.2.1 hbk.2.2]
  unfold cell_sum
  rw [← Finset.sum_add_distrib]
  refine Finset.sum_congr rfl (fun i hi => ?_)
  rw [← Finset.sum_add_distrib]
  refine Finset.sum_congr rfl (fun j hj => ?_)
  exact single_hamming_split g.length i j _ (Finset.mem_range.1 hi) (Finset.mem_range.1 hj) hfit
    (cell_lt g hperm i j (Finset.mem_range.1 hi) (Finset.mem_range.1 hj))

/-- C12 fails as stated: the board of `[[1, 2, 3], [4, 5, 6], [7, 0, 8]]` has one tile
out of its goal position (the `8`), and its `hamming()` is `2`. -/
theorem hamming_not_misplaced_tiles :
    is_permutation [[1, 2, 3], [4, 5, 6], [7, 0, 8]]
      ∧ Board.of_field [[1, 2, 3], [4, 5, 6], [7, 0, 8]] = Except.ok sample_board
      ∧ misplaced_tiles [[1, 2, 3], [4, 5, 6], [7, 0, 8]] = 1
      ∧ sample_board.hamming = 2
      ∧ sample_board.hamming ≠ misplaced_tiles [[1, 2, 3], [4, 5, 6], [7, 0, 8]] :=
  ⟨by decide, rfl, by decide, by decide, by decide⟩

/-- The amended statement C12 at the board of `[[1, 2, 3], [4, 5, 6], [7, 0, 8]]`. -/
theorem hamming_counts_blank_witness :
    is_permutation [[1, 2, 3], [4, 5, 6], [7, 0, 8]]
      ∧ 1 ≤ ([[1, 2, 3], [4, 5, 6], [7, 0, 8]] : Grid).length
      ∧ Board.of_field [[1, 2, 3], [4, 5, 6], [7, 0, 8]] = Except.ok sample_board
      ∧ sample_board.hamming
          = misplaced_tiles [[1, 2, 3], [4, 5, 6], [7, 0, 8]]
            + (if sample_board.blank_pos = (3 - 1, 3 - 1) then 0 else 1) :=
  ⟨by decide, by decide, rfl,
    hamming_counts_blank [[1, 2, 3], [4, 5, 6], [7, 0, 8]] sample_board (by decide) (by decide)
      (by decide) rfl⟩

/-! ## Equality of boards and the blank found by calc_blank_pos -/

/-- C13 fails on the code: the empty board and the board of `[[0]]` are both built by the
recomputing constructor from permutation grids, their sides differ, and `operator==`
answers `true` for them in both orders, because both hashes are `0` and one of the two
loop bounds is `0`. -/
theorem board_eq_ignores_side :
    is_permutation [] ∧ is_permutation [[0]]
      ∧ Board.of_field [] = Except.ok empty_board
      ∧ Board.of_field [[0]] = Except.ok single_cell_board
      ∧ empty_board.size ≠ single_cell_board.size
      ∧ board_eq empty_board single_cell_board = true
      ∧ board_eq single_cell_board empty_board = true :=
  ⟨by decide, by decide, rfl, rfl, by decide, by decide, by decide⟩

/-- On two boards of the same side whose cached hashes are the recomputed ones,
`operator==` answers `true` exactly when the boards hold the same label in every
cell. -/
theorem board_eq_same_side (a b : BoardProps) (hs : a.size = b.size)
    (ha : a.hash = Board.calculate_hash a.grid) (hb : b.hash = Board.calculate_hash b.grid) :
    board_eq a b = true ↔ ∀ i j, i < a.size → j < a.size → a.get i j = b.get i j := by
  constructor
  · intro h i j hi hj
    unfold board_eq at h
    split at h
    · cases h
    · simp only [List.all_eq_true, List.mem_range, decide_eq_true_eq] at h
      exact h i hi j (by rw [← hs]; exact hj)
  · intro h
    apply board_eq_of_same_cells
    · rw [ha, hb]
      exact calculate_hash_grid_congr a b hs h
    · intro i j hi hj
      exact h i j hi (by rw [hs]; exact hj)

theorem product_range (n : Nat) :
    ∀ m, List.product (List.range m) (List.range n)
      = (List.range (m * n)).map (fun k => (k / n, k % n)) := by
  intro m
  induction m with
  | zero => simp [List.product]
  | succ m ih =>
    unfold List.product at ih ⊢
    rw [List.range_succ, List.flatMap_append, ih, Nat.succ_mul, List.range_add, List.map_append]
    congr 1
    simp only [List.flatMap_cons, List.flatMap_nil, List.append_nil, List.map_map]
    apply List.map_congr_left
    intro j hj
    have hj2 : j < n := List.mem_range.1 hj
    have hd := index_div_mod n m j hj2
    simp only [Function.comp]
    rw [hd.1, hd.2]

/-- The blank that `calc_blank_pos` finds: a cell with `0` such that no cell before it
in row-major order holds `0`. -/
theorem calc_blank_pos_first (g : Grid) (hn : 1 ≤ g.length) (p : Nat × Nat) :
    Board.calc_blank_pos g = Except.ok p
      ↔ (p.1 < g.length ∧ p.2 < g.length ∧ cell g p.1 p.2 = 0
          ∧ ∀ i j, i < g.length → j < g.length →
              i * g.length + j < p.1 * g.length + p.2 → cell g i j ≠ 0) := by
  unfold Board.calc_blank_pos
  simp only []
  rw [if_neg (by omega), product_range]
  rw [List.find?_map]
  have hpos : 0 < g.length := by omega
  cases hfind : (List.range (g.length * g.length)).find?
      ((fun (p : Nat × Nat) => decide (cell g p.1 p.2 = 0)) ∘ fun k => (k / g.length, k % g.length))
    with
  | none =>
    simp only [Option.map_none']
    constructor
    · intro h; cases h
    · intro h
      exfalso
      have hnone := List.find?_range_eq_none.1 hfind (p.1 * g.length + p.2)
        (index_lt _ _ _ h.1 h.2.1)
      have hd := index_div_mod g.length p.1 p.2 h.2.1
      simp [Function.comp, hd.1, hd.2, h.2.2.1] at hnone
  | some k =>
    simp only [Option.map_some']
    have hk := List.find?_range_eq_some.1 hfind
    simp only [Function.comp, decide_eq_true_eq, List.mem_range, Bool.not_eq_true',
      decide_eq_false_iff_not] at hk
    obtain ⟨hk0, hkN, hkfirst⟩ := hk
    have hki : k / g.length < g.length := (Nat.div_lt_iff_lt_mul hpos).2 hkN
    have hkj : k % g.length < g.length := Nat.mod_lt _ hpos
    constructor
    · intro h
      simp only [Except.ok.injEq] at h
      rw [← h]
      refine ⟨hki, hkj, hk0, ?_⟩
      intro i j hi hj hlt
      simp only [Nat.div_add_mod'] at hlt
      have := hkfirst (i * g.length + j) hlt
      have hd := index_div_mod g.length i j hj
      rw [hd.1, hd.2] at this
      exact this
    · intro h
      obtain ⟨h1, h2, h3, h4⟩ := h
      have hidx : k = p.1 * g.length + p.2 := by
        rcases Nat.lt_trichotomy k (p.1 * g.length + p.2) with hlt | heq | hgt
        · exfalso
          have := h4 (k / g.length) (k % g.length) hki hkj (by rw [Nat.div_add_mod']; exact hlt)
          exact this hk0
        · exact heq
        · exfalso
          have := hkfirst (p.1 * g.length + p.2) hgt
          have hd := index_div_mod g.length p.1 p.2 h2
          rw [hd.1, hd.2] at this
          exact this h3
      have hd := index_div_mod g.length p.1 p.2 h2
      rw [hidx, hd.1, hd.2]

theorem calc_blank_pos_error (g : Grid) (hn : 1 ≤ g.length) (e : BoardError) :
    Board.calc_blank_pos g = Except.error e
      ↔ (e = BoardError.logic_error ∧ ∀ i j, i < g.length → j < g.length → cell g i j ≠ 0) := by
  unfold Board.calc_blank_pos
  simp only []
  rw [if_neg (by omega)]
  cases hfind : (List.product (List.range g.length) (List.range g.length)).find?
      (fun p => decide (cell g p.1 p.2 = 0)) with
  | none =>
    simp only [Except.error.injEq]
    have hnone := List.find?_eq_none.1 hfind
    constructor
    · intro h
      refine ⟨h.symm, ?_⟩
      intro i j hi hj
      have := hnone (i, j) (List.pair_mem_product.2 ⟨List.mem_range.2 hi, List.mem_range.2 hj⟩)
      simpa using this
    · intro h
      exact h.1.symm
  | some q =>
    simp only []
    constructor
    · intro h; cases h
    · intro h
      exfalso
      have hq := List.find?_some hfind
      have hmem := List.pair_mem_product.1 (List.mem_of_find?_eq_some hfind)
      exact h.2 q.1 q.2 (List.mem_range.1 hmem.1) (List.mem_range.1 hmem.2) (by simpa using hq)

/-- A permutation grid of side at least 1 holds the label `0` in one of its cells. -/
theorem exists_blank (g : Grid) (hperm : is_permutation g) (hn : 1 ≤ g.length) :
    ∃ x y, x < g.length ∧ y < g.length ∧ cell g x y = 0 := by
  have hpos : 0 < g.length := by omega
  have h0 : 0 ∈ g.flatten :=
    hperm.2.mem_iff.2 (List.mem_range.2 (Nat.mul_pos hpos hpos))
  rw [flatten_square g hperm.1] at h0
  unfold row_major at h0
  obtain ⟨k, hk, hcell⟩ := List.mem_map.1 h0
  exact ⟨k / g.length, k % g.length,
    (Nat.div_lt_iff_lt_mul hpos).2 (List.mem_range.1 hk), Nat.mod_lt _ hpos, hcell⟩

/-- C14. Building a `Board` from a non-empty square grid through the recomputing
constructor fails with `std::logic_error` exactly when no cell of the grid holds `0`.
When a cell holds `0`, `calc_blank_pos` returns the first such cell in row-major
order, the construction either leaves the defined behaviour (in
`count_inversions_parity`) or builds a board, and every board built has this cell as
its `blank_pos()`. On a permutation grid whose squared side fits the unsigned type
the constructor does build a board, and its `blank_pos()` is the row-major first cell
that holds `0`. -/
theorem of_field_logic_error_iff (g : Grid) (hn : 1 ≤ g.length) (_ : is_square g) :
    (Board.of_field g = Except.error BoardError.logic_error
        ↔ ∀ i j, i < g.length → j < g.length → cell g i j ≠ 0)
      ∧ (∀ x y, x < g.length → y < g.length → cell g x y = 0 →
          ∃ p : Nat × Nat, Board.calc_blank_pos g = Except.ok p
            ∧ p.1 < g.length ∧ p.2 < g.length ∧ cell g p.1 p.2 = 0
            ∧ (∀ i j, i < g.length → j < g.length →
                i * g.length + j < p.1 * g.length + p.2 → cell g i j ≠ 0)
            ∧ (Board.of_field g = Except.error BoardError.undefined
                ∨ ∃ b, Board.of_field g = Except.ok b ∧ b.blank_pos = p)
            ∧ ∀ b, Board.of_field g = Except.ok b → b.blank_pos = p)
      ∧ (is_permutation g → g.length * g.length < U32 →
          ∃ b, Board.of_field g = Except.ok b
            ∧ b.size = g.length
            ∧ b.blank_pos.1 < g.length ∧ b.blank_pos.2 < g.length
            ∧ cell g b.blank_pos.1 b.blank_pos.2 = 0
            ∧ b.get b.blank_pos.1 b.blank_pos.2 = 0
            ∧ ∀ i j, i < g.length → j < g.length →
                i * g.length + j < b.blank_pos.1 * g.length + b.blank_pos.2 →
                cell g i j ≠ 0) := by
  have first : ∀ x y, x < g.length → y < g.length → cell g x y = 0 →
      ∃ p : Nat × Nat, Board.calc_blank_pos g = Except.ok p
        ∧ p.1 < g.length ∧ p.2 < g.length ∧ cell g p.1 p.2 = 0
        ∧ (∀ i j, i < g.length → j < g.length →
            i * g.length + j < p.1 * g.length + p.2 → cell g i j ≠ 0) := by
    intro x y hx hy h0
    cases hbp : Board.calc_blank_pos g with
    | error e =>
      exfalso
      exact ((calc_blank_pos_error g hn e).1 hbp).2 x y hx hy h0
    | ok p =>
      have hp := (calc_blank_pos_first g hn p).1 hbp
      exact ⟨p, rfl, hp.1, hp.2.1, hp.2.2.1, hp.2.2.2⟩
  refine ⟨?_, ?_, ?_⟩
  · constructor
    · intro h
      unfold Board.of_field at h
      cases hbp : Board.calc_blank_pos g with
      | error e =>
        rw [hbp] at h
        exact ((calc_blank_pos_error g hn e).1 hbp).2
      | ok bp =>
        rw [hbp] at h
        simp only [] at h
        split at h
        · cases h
        · cases h
    · intro h
      have hbp := (calc_blank_pos_error g hn BoardError.logic_error).2 ⟨rfl, h⟩
      unfold Board.of_field
      rw [hbp]
  · intro x y hx hy h0
    obtain ⟨p, hbp, h1, h2, h3, h4⟩ := first x y hx hy h0
    refine ⟨p, hbp, h1, h2, h3, h4, ?_, ?_⟩
    · unfold Board.of_field
      rw [hbp]
      simp only []
      cases Board.calculate_solvability g p (Board.calculate_hamming g) with
      | none => exact Or.inl rfl
      | some s => exact Or.inr ⟨_, rfl, rfl⟩
    · intro b hb
      obtain ⟨bp, s, hb1, _, rfl⟩ := of_field_ok g b hb
      rw [hbp] at hb1
      simp only [Except.ok.injEq] at hb1
      rw [hb1]
      rfl
  · intro hperm hfit
    obtain ⟨x, y, hx, hy, h0⟩ := exists_blank g hperm hn
    obtain ⟨p, _, h1, h2, h3, h4⟩ := first x y hx hy h0
    exact ⟨_, of_field_spec g hperm hn hfit p h1 h2 h3, rfl, h1, h2, h3, h3, h4⟩

/-- The statement C14 at the grid `[[3, 0], [1, 2]]`, from which the constructor
builds a board with the blank at `(0, 1)`; from the grid `[[3, 1], [1, 2]]`, which
holds no `0`, it throws the error. -/
theorem of_field_logic_error_iff_witness :
    1 ≤ ([[3, 0], [1, 2]] : Grid).length ∧ is_square [[3, 0], [1, 2]]
      ∧ is_permutation [[3, 0], [1, 2]]
      ∧ Board.calc_blank_pos [[3, 0], [1, 2]] = Except.ok (0, 1)
      ∧ Board.of_field [[3, 1], [1, 2]] = Except.error BoardError.logic_error
      ∧ (∃ b, Board.of_field [[3, 0], [1, 2]] = Except.ok b ∧ b.blank_pos = (0, 1))
      ∧ (∃ b, Board.of_field [[3, 0], [1, 2]] = Except.ok b
          ∧ b.size = ([[3, 0], [1, 2]] : Grid).length
          ∧ b.blank_pos.1 < ([[3, 0], [1, 2]] : Grid).length
          ∧ b.blank_pos.2 < ([[3, 0], [1, 2]] : Grid).length
          ∧ cell [[3, 0], [1, 2]] b.blank_pos.1 b.blank_pos.2 = 0
          ∧ b.get b.blank_pos.1 b.blank_pos.2 = 0
          ∧ ∀ i j, i < ([[3, 0], [1, 2]] : Grid).length → j < ([[3, 0], [1, 2]] : Grid).length →
              i * ([[3, 0], [1, 2]] : Grid).length + j
                < b.blank_pos.1 * ([[3, 0], [1, 2]] : Grid).length + b.blank_pos.2 →
              cell [[3, 0], [1, 2]] i j ≠ 0) :=
  ⟨by decide, by decide, by decide, rfl, rfl, ⟨_, rfl, rfl⟩,
    (of_field_logic_error_iff [[3, 0], [1, 2]] (by decide) (by decide)).2.2
      (by decide) (by decide)⟩

/-! ## The goal board built by create_goal, and the parity of the inversions -/

/-- C16. For every side `n ≥ 1` whose square fits the unsigned type, `create_goal(n)`
builds a board of side `n` whose row-major cell `i` holds `(i + 1) mod n * n`, that
is, whose cell `(x, y)` holds `(x * n + y + 1) mod n * n`; the board has `is_goal()`
true, `hamming() == 0`, `manhattan() == 0` and `is_solvable()` true. -/
theorem create_goal_is_goal (n : Nat) (hn : 1 ≤ n) (hfit : n * n < U32) :
    ∃ b, Board.create_goal n = Except.ok b
      ∧ b.size = n
      ∧ b.grid.flatten = (List.range (n * n)).map (fun i => (i + 1) % (n * n))
      ∧ (∀ x y, x < n → y < n → b.get x y = (x * n + y + 1) % (n * n))
      ∧ b.is_goal = true ∧ b.hamming = 0 ∧ b.manhattan = 0 ∧ b.is_solvable = true := by
  have _ := hn
  refine ⟨goal_board n, create_goal_spec n hfit, goal_board_size n, ?_, ?_, ?_, rfl, rfl, rfl⟩
  · exact flatten_goal_grid n
  · intro x y hx hy
    exact goal_board_get n x y hx hy
  · simp [BoardProps.is_goal, goal_board, BoardProps.hamming, BoardProps.base]

/-- The statement C16 at side 3: the board built is the one of the grid
`[[1, 2, 3], [4, 5, 6], [7, 8, 0]]`. -/
theorem create_goal_is_goal_witness :
    goal_grid 3 = [[1, 2, 3], [4, 5, 6], [7, 8, 0]]
      ∧ Board.create_goal 3 = Except.ok (goal_board 3)
      ∧ ∃ b, Board.create_goal 3 = Except.ok b
        ∧ b.size = 3
        ∧ b.grid.flatten = (List.range (3 * 3)).map (fun i => (i + 1) % (3 * 3))
        ∧ (∀ x y, x < 3 → y < 3 → b.get x y = (x * 3 + y + 1) % (3 * 3))
        ∧ b.is_goal = true ∧ b.hamming = 0 ∧ b.manhattan = 0 ∧ b.is_solvable = true :=
  ⟨by decide, rfl, create_goal_is_goal 3 (by decide) (by decide)⟩

/-- C19. For every side `n ≥ 1` (with `n * n` inside the unsigned type) and every grid
that is a permutation of `0 .. n * n - 1`, `count_inversions_parity` returns: its
cycle sort stops within the bound of its loops and reads no entry outside the
sequence (the model answers `none` otherwise), and the value returned is the number of
inversions of the non-blank row-major sequence modulo 2. -/
theorem count_inversions_parity_is_inversions (g : Grid) (n : Nat) (hside : g.length = n)
    (hn : 1 ≤ n) (hfit : n * n < U32) (hperm : is_permutation g) :
    ∃ r, Board.count_inversions_parity g = some r
      ∧ r = inversions (tiles g) % 2
      ∧ tiles g = (row_major (cell g) n).filter (fun j => decide (j ≠ 0)) := by
  subst hside
  refine ⟨_, count_inversions_parity_spec g hperm hn hfit, rfl, ?_⟩
  unfold tiles
  rw [flatten_square g hperm.1]

/-- The statement C19 at the grid `[[3, 1], [2, 0]]`, whose non-blank sequence
`3, 1, 2` has two inversions. -/
theorem count_inversions_parity_is_inversions_witness :
    Board.count_inversions_parity [[3, 1], [2, 0]] = some 0
      ∧ inversions (tiles [[3, 1], [2, 0]]) = 2
      ∧ Board.count_inversions_parity [[1, 3], [2, 0]] = some 1
      ∧ ∃ r, Board.count_inversions_parity [[3, 1], [2, 0]] = some r
        ∧ r = inversions (tiles [[3, 1], [2, 0]]) % 2
        ∧ tiles [[3, 1], [2, 0]]
            = (row_major (cell [[3, 1], [2, 0]]) 2).filter (fun j => decide (j ≠ 0)) :=
  ⟨by decide, by decide, by decide,
    count_inversions_parity_is_inversions [[3, 1], [2, 0]] 2 rfl (by decide) (by decide)
      (by decide)⟩

/-! ## The hash without collisions on small boards -/

/-- Two square grids of the same side with the same cells are the same grid. -/
theorem grid_ext (g g' : Grid) (hs : is_square g) (hs' : is_square g')
    (hlen : g.length = g'.length)
    (hcell : ∀ i j, i < g.length → j < g.length → cell g i j = cell g' i j) : g = g' := by
  apply List.ext_getElem hlen
  intro i hi hi'
  have hr : (g[i]).length = g.length := hs _ (List.getElem_mem _)
  have hr' : (g'[i]).length = g'.length := hs' _ (List.getElem_mem _)
  apply List.ext_getElem (by rw [hr, hr', hlen])
  intro j hj hj'
  have h := hcell i j hi (by rw [← hr]; exact hj)
  simp only [cell, List.getD_eq_getElem?_getD, List.getElem?_eq_getElem hi,
    List.getElem?_eq_getElem hi', Option.getD_some, List.getElem?_eq_getElem hj,
    List.getElem?_eq_getElem hj'] at h
  exact h

/-- On a grid of side at most 3 with labels below 31 the 64-bit arithmetic of
`calculate_hash` does not wrap: the hash is the number whose digits in base 31 are
the cells in row-major order. -/
theorem calculate_hash_small (g : Grid) (hn : g.length ≤ 3)
    (hb : ∀ i j, i < g.length → j < g.length → cell g i j < 31) :
    Board.calculate_hash g
      = ∑ i in Finset.range g.length, ∑ j in Finset.range g.length,
          cell g i j * 31 ^ (i * g.length + j) := by
  apply eq_of_cast_eq U64 _ _ (calculate_hash_lt g)
  · generalize hlen : g.length = n at hn hb
    unfold U64
    interval_cases n
    · simp
    · have h00 := hb 0 0 (by omega) (by omega)
      simp [Finset.sum_range_succ]
      omega
    · have h00 := hb 0 0 (by omega) (by omega)
      have h01 := hb 0 1 (by omega) (by omega)
      have h10 := hb 1 0 (by omega) (by omega)
      have h11 := hb 1 1 (by omega) (by omega)
      simp [Finset.sum_range_succ]
      omega
    · have h00 := hb 0 0 (by omega) (by omega)
      have h01 := hb 0 1 (by omega) (by omega)
      have h02 := hb 0 2 (by omega) (by omega)
      have h10 := hb 1 0 (by omega) (by omega)
      have h11 := hb 1 1 (by omega) (by omega)
      have h12 := hb 1 2 (by omega) (by omega)
      have h20 := hb 2 0 (by omega) (by omega)
      have h21 := hb 2 1 (by omega) (by omega)
      have h22 := hb 2 2 (by omega) (by omega)
      simp [Finset.sum_range_succ]
      omega
  · rw [cast_calculate_hash]
    unfold cell_sum HASH_P
    push_cast
    rfl

/-- The hash tells apart the grids of side at most 3 with labels below 31: equal
hashes give equal cells. -/
theorem calculate_hash_inj_cells (g g' : Grid) (hlen : g.length = g'.length)
    (hn : g.length ≤ 3)
    (hb : ∀ i j, i < g.length → j < g.length → cell g i j < 31)
    (hb' : ∀ i j, i < g.length → j < g.length → cell g' i j < 31)
    (h : Board.calculate_hash g = Board.calculate_hash g') :
    ∀ i j, i < g.length → j < g.length → cell g i j = cell g' i j := by
  rw [calculate_hash_small g hn hb,
    calculate_hash_small g' (by rw [← hlen]; exact hn) (by rw [← hlen]; exact hb'), ← hlen] at h
  generalize g.length = n at hn hb hb' h
  intro i j hi hj
  interval_cases n
  · omega
  · simp [Finset.sum_range_succ] at h
    interval_cases i
    interval_cases j
    exact h
  · have a00 := hb 0 0 (by omega) (by omega)
    have a01 := hb 0 1 (by omega) (by omega)
    have a10 := hb 1 0 (by omega) (by omega)
    have a11 := hb 1 1 (by omega) (by omega)
    have b00 := hb' 0 0 (by omega) (by omega)
    have b01 := hb' 0 1 (by omega) (by omega)
    have b10 := hb' 1 0 (by omega) (by omega)
    have b11 := hb' 1 1 (by omega) (by omega)
    simp [Finset.sum_range_succ] at h
    have e00 : cell g 0 0 = cell g' 0 0 := by omega
    have e01 : cell g 0 1 = cell g' 0 1 := by omega
    have e10 : cell g 1 0 = cell g' 1 0 := by omega
    have e11 : cell g 1 1 = cell g' 1 1 := by omega
    interval_cases i <;> interval_cases j <;> assumption
  · have a00 := hb 0 0 (by omega) (by omega)
    have a01 := hb 0 1 (by omega) (by omega)
    have a02 := hb 0 2 (by omega) (by omega)
    have a10 := hb 1 0 (by omega) (by omega)
    have a11 := hb 1 1 (by omega) (by omega)
    have a12 := hb 1 2 (by omega) (by omega)
    have a20 := hb 2 0 (by omega) (by omega)
    have a21 := hb 2 1 (by omega) (by omega)
    have a22 := hb 2 2 (by omega) (by omega)
    have b00 := hb' 0 0 (by omega) (by omega)
    have b01 := hb' 0 1 (by omega) (by omega)
    have b02 := hb' 0 2 (by omega) (by omega)
    have b10 := hb' 1 0 (by omega) (by omega)
    have b11 := hb' 1 1 (by omega) (by omega)
    have b12 := hb' 1 2 (by omega) (by omega)
    have b20 := hb' 2 0 (by omega) (by omega)
    have b21 := hb' 2 1 (by omega) (by omega)
    have b22 := hb' 2 2 (by omega) (by omega)
    simp [Finset.sum_range_succ] at h
    have e00 : cell g 0 0 = cell g' 0 0 := by omega
    have e01 : cell g 0 1 = cell g' 0 1 := by omega
    have e02 : cell g 0 2 = cell g' 0 2 := by omega
    have e10 : cell g 1 0 = cell g' 1 0 := by omega
    have e11 : cell g 1 1 = cell g' 1 1 := by omega
    have e12 : cell g 1 2 = cell g' 1 2 := by omega
    have e20 : cell g 2 0 = cell g' 2 0 := by omega
    have e21 : cell g 2 1 = cell g' 2 1 := by omega
    have e22 : cell g 2 2 = cell g' 2 2 := by omega
    interval_cases i <;> interval_cases j <;> assumption

/-- The labels of a permutation grid of side at most 3 are below 31. -/
theorem cell_lt_base (g : Grid) (hperm : is_permutation g) (hn : g.length ≤ 3)
    (i j : Nat) (hi : i < g.length) (hj : j < g.length) : cell g i j < 31 := by
  have h := cell_lt g hperm i j hi hj
  have : g.length * g.length ≤ 3 * 3 := Nat.mul_le_mul hn hn
  omega

/-- The hash tells apart the boards of side at most 3 that the search builds. -/
theorem hash_inj_valid (a b : BoardProps) (ha : valid a) (hb : valid b)
    (hs : a.size = b.size) (hn : a.size ≤ 3) (h : a.hash = b.hash) :
    ∀ i j, i < a.size → j < a.size → a.get i j = b.get i j := by
  intro i j hi hj
  have hla : a.grid.length = a.size := length_grid a
  have hlb : b.grid.length = b.size := length_grid b
  have hh : Board.calculate_hash a.grid = Board.calculate_hash b.grid := by
    rw [← ha.2.2.2.2, ← hb.2.2.2.2]; exact h
  have := calculate_hash_inj_cells a.grid b.grid (by rw [hla, hlb, hs]) (by rw [hla]; exact hn)
    (cell_lt_base a.grid ha.1 (by rw [hla]; exact hn))
    (fun i j hi hj => cell_lt_base b.grid hb.1 (by rw [hlb, ← hs]; exact hn) i j
      (by rw [hlb, ← hs, ← hla]; exact hi) (by rw [hlb, ← hs, ← hla]; exact hj))
    hh i j (by rw [hla]; exact hi) (by rw [hla]; exact hj)
  rw [cell_grid a i j hi hj, cell_grid b i j (by rw [← hs]; exact hi) (by rw [← hs]; exact hj)] at this
  exact this

/-- C20. The hash is collision-free on small boards: for every side `n ≤ 3`, two
grids of side `n` that are permutations of `0 .. n * n - 1` and have the same
`calculate_hash` are the same grid; hence two boards of such a side whose cached hash
is the recomputed one, as in the visited set of `a_star`, have equal hashes only when
they hold the same label in every cell. -/
theorem calculate_hash_injective (n : Nat) (hn : n ≤ 3) (g g' : Grid)
    (hside : g.length = n) (hside' : g'.length = n)
    (hperm : is_permutation g) (hperm' : is_permutation g')
    (h : Board.calculate_hash g = Board.calculate_hash g') :
    g = g'
      ∧ ∀ a b : BoardProps, valid a → valid b → a.grid = g → b.grid = g' →
          a.hash = b.hash ∧ a.size = b.size
            ∧ ∀ i j, i < n → j < n → a.get i j = b.get i j := by
  have hcells := calculate_hash_inj_cells g g' (by rw [hside, hside']) (by rw [hside]; exact hn)
    (cell_lt_base g hperm (by rw [hside]; exact hn))
    (fun i j hi hj => cell_lt_base g' hperm' (by rw [hside']; exact hn) i j
      (by rw [hside', ← hside]; exact hi) (by rw [hside', ← hside]; exact hj)) h
  have hgg : g = g' := grid_ext g g' hperm.1 hperm'.1 (by rw [hside, hside']) hcells
  refine ⟨hgg, ?_⟩
  intro a b ha hb hag hbg
  have hgrid : a.grid = b.grid := by rw [hag, hbg, hgg]
  have hsize : a.size = b.size := by rw [← length_grid a, ← length_grid b, hgrid]
  have hsa : a.size = n := by rw [← length_grid a, hag, hside]
  refine ⟨by rw [ha.2.2.2.2, hb.2.2.2.2, hgrid], hsize, ?_⟩
  intro i j hi hj
  rw [← cell_grid a i j (by rw [hsa]; exact hi) (by rw [hsa]; exact hj),
    ← cell_grid b i j (by rw [← hsize, hsa]; exact hi) (by rw [← hsize, hsa]; exact hj), hgrid]

/-- The statement C20 at two grids of side 2: the goal arrangement twice, with its
hash; another arrangement has another hash. -/
theorem calculate_hash_injective_witness :
    Board.calculate_hash [[1, 2], [3, 0]] = 2946
      ∧ Board.calculate_hash [[2, 1], [3, 0]] = 2916
      ∧ (([[1, 2], [3, 0]] : Grid) = [[1, 2], [3, 0]]
        ∧ ∀ a b : BoardProps, valid a → valid b → a.grid = [[1, 2], [3, 0]] →
            b.grid = [[1, 2], [3, 0]] →
            a.hash = b.hash ∧ a.size = b.size
              ∧ ∀ i j, i < 2 → j < 2 → a.get i j = b.get i j) :=
  ⟨by decide, by decide,
    calculate_hash_injective 2 (by decide) [[1, 2], [3, 0]] [[1, 2], [3, 0]] rfl rfl
      (by decide) (by decide) rfl⟩

/-! ## The rendering of to_string -/

theorem foldl_append_eq {α β : Type} (f : α → List β) (l : List α) (init : List β) :
    l.foldl (fun r x => r ++ f x) init = init ++ (l.map f).flatten := by
  induction l generalizing init with
  | nil => simp
  | cons a l ih => simp [ih]

theorem count_num_len_loop_spec :
    ∀ fuel num counter, num < fuel → 1 ≤ num →
      counter + (Nat.digits 10 num).length ≤ U32 →
      count_num_len_loop fuel num counter = some (counter + (Nat.digits 10 num).length - 1) := by
  intro fuel
  induction fuel with
  | zero => intro num counter h; omega
  | succ fuel ih =>
    intro num counter hfuel hnum hc
    unfold count_num_len_loop
    by_cases h9 : num > 9
    · rw [if_pos h9]
      have hd : Nat.digits 10 num = num % 10 :: Nat.digits 10 (num / 10) :=
        Nat.digits_def' (by decide) (by omega)
      rw [hd, List.length_cons] at hc ⊢
      have hlen : 1 ≤ (Nat.digits 10 (num / 10)).length := by
        have : Nat.digits 10 (num / 10) ≠ [] := by
          intro h0
          have := Nat.digits_eq_nil_iff_eq_zero.1 h0
          omega
        exact List.length_pos.2 this
      have hmod : (counter + 1) % U32 = counter + 1 := Nat.mod_eq_of_lt (by omega)
      rw [hmod, ih (num / 10) (counter + 1) (by omega) (by omega) (by omega)]
      congr 1
      omega
    · rw [if_neg h9]
      have hd : Nat.digits 10 num = [num] := Nat.digits_of_lt 10 num (by omega) (by omega)
      rw [hd]
      simp

/-- The width that `count_num_len` returns: the number of decimal digits. -/
theorem count_num_len_spec (num : Nat) (h1 : 1 ≤ num) (h2 : num < U32) :
    BoardProps.count_num_len num = some (Nat.digits 10 num).length := by
  unfold BoardProps.count_num_len
  have hlen : (Nat.digits 10 num).length ≤ 10 := by
    by_contra hcon
    have hle := Nat.base_pow_length_digits_le 10 num (by decide) (by omega)
    have hpow : 10 ^ 11 ≤ 10 ^ (Nat.digits 10 num).length :=
      Nat.pow_le_pow_right (by decide) (by omega)
    unfold U32 at h2
    norm_num at hpow
    omega
  rw [count_num_len_loop_spec (num + 1) num 1 (by omega) h1 (by unfold U32; omega)]
  congr 1
  omega

/-- The loops of `to_string` write the rows one after the other, padding on the
left. -/
theorem to_string_loops (b : BoardProps) (w : Nat) :
    (List.range b.size).foldl
        (fun result i =>
          (List.range b.size).foldl
            (fun result j =>
              let cur_num := Nat.toDigits 10 (b.get i j)
              let cur_num_len := cur_num.length
              result ++ List.replicate (w - cur_num_len) ' ' ++ cur_num ++ ['|'])
            (result ++ ['|'])
          ++ ['\n'])
        []
      = rendering left_padded w b := by
  have inner : ∀ (i : Nat) (r : List Char),
      (List.range b.size).foldl
            (fun result j =>
              let cur_num := Nat.toDigits 10 (b.get i j)
              let cur_num_len := cur_num.length
              result ++ List.replicate (w - cur_num_len) ' ' ++ cur_num ++ ['|'])
            r
        = r ++ ((List.range b.size).map fun j =>
            left_padded w (Nat.toDigits 10 (b.get i j)) ++ ['|']).flatten := by
    intro i r
    rw [← foldl_append_eq]
    congr 1
    funext result j
    simp [left_padded]
  simp only [inner]
  have outer := foldl_append_eq (fun i =>
    '|' :: (((List.range b.size).map fun j =>
      left_padded w (Nat.toDigits 10 (b.get i j)) ++ ['|']).flatten ++ ['\n']))
    (List.range b.size) []
  rw [List.nil_append] at outer
  unfold rendering
  rw [← outer]
  congr 1
  funext result i
  simp

/-- C17 fails on the code as it is worded: in the rendering of the goal board of side
4 the labels of one digit have their space on the left (`| 1|`), so the text is not
the one with the labels padded on the right (`|1 |`). -/
theorem to_string_not_right_padded :
    Board.create_goal 4 = Except.ok wide_board
      ∧ wide_board.to_string
          = some "| 1| 2| 3| 4|\n| 5| 6| 7| 8|\n| 9|10|11|12|\n|13|14|15| 0|\n".toList
      ∧ (Nat.digits 10 (4 * 4)).length = 2
      ∧ rendering right_padded 2 wide_board
          = "|1 |2 |3 |4 |\n|5 |6 |7 |8 |\n|9 |10|11|12|\n|13|14|15|0 |\n".toList
      ∧ wide_board.to_string
          ≠ some (rendering right_padded (Nat.digits 10 (4 * 4)).length wide_board) := by
  have hw : (Nat.digits 10 (4 * 4)).length = 2 := by norm_num
  refine ⟨create_goal_spec 4 (by decide), by decide, hw, by decide, ?_⟩
  rw [hw]
  decide

/-- C17, amended. For every board of side `n ≥ 1` (with `n * n` inside the unsigned
type) `to_string()` returns the concatenation over the rows of `|` followed, for each
cell, by the decimal label padded with spaces on its left to the width `w`, the
number of decimal digits of `n * n`, and then `|`, each row ending in a newline; for
a board of side 0 it returns the marker `<empty>`. -/
theorem to_string_left_padded (b : BoardProps) (hn : 1 ≤ b.size)
    (hfit : b.size * b.size < U32) :
    b.to_string
        = some (rendering left_padded (Nat.digits 10 (b.size * b.size)).length b)
      ∧ ∀ e : BoardProps, e.size = 0 → e.to_string = some "<empty>".toList := by
  constructor
  · unfold BoardProps.to_string
    have hm : mul64 b.size b.size % U32 = b.size * b.size := by
      unfold mul64
      rw [Nat.mod_eq_of_lt (lt_trans hfit (by decide)), Nat.mod_eq_of_lt hfit]
    rw [hm, count_num_len_spec _ (Nat.mul_le_mul hn hn) hfit]
    simp only [Option.map_some']
    rw [to_string_loops]
    have hne : (rendering left_padded (Nat.digits 10 (b.size * b.size)).length b).isEmpty
        = false := by
      unfold rendering
      obtain ⟨k, hk⟩ : ∃ k, b.size = k + 1 := ⟨b.size - 1, by omega⟩
      rw [hk, List.range_succ_eq_map]
      simp
    rw [hne]
    simp
  · intro e he
    unfold BoardProps.to_string
    rw [he]
    rfl

/-- The statement C17, amended, at the goal board of side 4 and at the empty board. -/
theorem to_string_left_padded_witness :
    1 ≤ wide_board.size ∧ wide_board.size * wide_board.size < U32
      ∧ rendering left_padded 2 wide_board
          = "| 1| 2| 3| 4|\n| 5| 6| 7| 8|\n| 9|10|11|12|\n|13|14|15| 0|\n".toList
      ∧ empty_board.to_string = some "<empty>".toList
      ∧ (wide_board.to_string
          = some (rendering left_padded
              (Nat.digits 10 (wide_board.size * wide_board.size)).length wide_board)
        ∧ ∀ e : BoardProps, e.size = 0 → e.to_string = some "<empty>".toList) :=
  ⟨by decide, by decide, by decide, by decide,
    to_string_left_padded wide_board (by decide) (by decide)⟩

/-! ## Solvability against brute-force reachability on the boards of side 2 -/

theorem reach_within_sound : ∀ k g h, reach_within k g h = true → Reachable g h := by
  intro k
  induction k with
  | zero =>
    intro g h hr
    simp only [reach_within, decide_eq_true_eq] at hr
    rw [hr]
    exact Relation.ReflTransGen.refl
  | succ k ih =>
    intro g h hr
    simp only [reach_within, Bool.or_eq_true, decide_eq_true_eq, List.any_eq_true] at hr
    rcases hr with hr | ⟨g', hg', hr⟩
    · rw [hr]
      exact Relation.ReflTransGen.refl
    · exact Relation.ReflTransGen.head hg' (ih g' h hr)

theorem solvable_flag_some (g : Grid) (f : Bool) (h : solvable_flag g = some f) :
    ∃ b, Board.of_field g = Except.ok b ∧ b.is_solvable = f := by
  unfold solvable_flag at h
  cases hb : Board.of_field g with
  | error e => rw [hb] at h; cases h
  | ok b =>
    rw [hb] at h
    simp only [Option.some.injEq] at h
    exact ⟨b, rfl, h⟩

/-- Every permutation grid of side 2 is one of the 24 arrangements. -/
theorem mem_arrangements_two (g : Grid) (hside : g.length = 2) (hperm : is_permutation g) :
    g ∈ arrangements_two := by
  obtain ⟨hsq, hp⟩ := hperm
  match g, hside with
  | [r0, r1], _ =>
    have h0 : r0.length = 2 := hsq r0 (by simp)
    have h1 : r1.length = 2 := hsq r1 (by simp)
    match r0, h0, r1, h1 with
    | [a, b], _, [c, d], _ =>
      simp only [List.flatten_cons, List.flatten_nil, List.append_nil, List.cons_append,
        List.nil_append, List.length_cons, List.length_nil] at hp
      have hnd : [a, b, c, d].Nodup := hp.nodup_iff.2 (List.nodup_range _)
      have ha : a < 4 := List.mem_range.1 (hp.mem_iff.1 (by simp))
      have hb : b < 4 := List.mem_range.1 (hp.mem_iff.1 (by simp))
      have hc : c < 4 := List.mem_range.1 (hp.mem_iff.1 (by simp))
      have hd : d < 4 := List.mem_range.1 (hp.mem_iff.1 (by simp))
      have key : ∀ a < 4, ∀ b < 4, ∀ c < 4, ∀ d < 4,
          (!decide ([a, b, c, d].Nodup)
            || decide (([[a, b], [c, d]] : Grid) ∈ arrangements_two)) = true := by decide
      have hk := key a ha b hb c hc d hd
      simp only [Bool.or_eq_true, Bool.not_eq_true', decide_eq_false_iff_not,
        decide_eq_true_eq] at hk
      exact hk.resolve_left (fun h => h hnd)

/-- On each of the 24 arrangements the flag that the constructor computes is the
answer of the brute-force search within six moves. -/
theorem solvable_flag_arrangements :
    ∀ g ∈ arrangements_two, solvable_flag g = some (reach_within 6 g [[1, 2], [3, 0]]) := by
  set_option maxRecDepth 100000 in decide

/-- A legal blank move leads from an arrangement to an arrangement with the same
flag. -/
theorem solvable_flag_blank_moves :
    ∀ g ∈ arrangements_two, ∀ h ∈ blank_moves g,
      h ∈ arrangements_two ∧ solvable_flag h = solvable_flag g := by
  set_option maxRecDepth 100000 in decide

theorem solvable_flag_reachable (g h : Grid) (hr : Reachable g h) (hg : g ∈ arrangements_two) :
    h ∈ arrangements_two ∧ solvable_flag h = solvable_flag g := by
  induction hr with
  | refl => exact ⟨hg, rfl⟩
  | tail _ hstep ih =>
    have := solvable_flag_blank_moves _ ih.1 _ hstep
    exact ⟨this.1, this.2.trans ih.2⟩

/-- C15. For every one of the 24 arrangements of `0 .. 3` on a grid of side 2 the
constructor builds a board, and its `is_solvable()` is true if and only if the goal
arrangement `[[1, 2], [3, 0]]` can be reached from the grid by a finite sequence of
legal blank moves. -/
theorem solvable_iff_reachable_two (g : Grid) (hside : g.length = 2)
    (hperm : is_permutation g) :
    ∃ b, Board.of_field g = Except.ok b
      ∧ (b.is_solvable = true ↔ Reachable g [[1, 2], [3, 0]]) := by
  have hmem := mem_arrangements_two g hside hperm
  have hflag := solvable_flag_arrangements g hmem
  obtain ⟨b, hb, hs⟩ := solvable_flag_some g _ hflag
  refine ⟨b, hb, ?_⟩
  constructor
  · intro h
    rw [h] at hs
    exact reach_within_sound 6 g _ hs.symm
  · intro hr
    have h2 := (solvable_flag_reachable g _ hr hmem).2
    have hgoal : solvable_flag [[1, 2], [3, 0]] = some true := by decide
    rw [hgoal] at h2
    unfold solvable_flag at h2
    rw [hb] at h2
    simp only [Option.some.injEq] at h2
    exact h2.symm

/-- The statement C15 at the arrangement `[[1, 2], [0, 3]]`, one move away from the
goal; the arrangement `[[2, 1], [3, 0]]` has the flag `false`. -/
theorem solvable_iff_reachable_two_witness :
    ([[1, 2], [0, 3]] : Grid).length = 2 ∧ is_permutation [[1, 2], [0, 3]]
      ∧ solvable_flag [[1, 2], [0, 3]] = some true
      ∧ solvable_flag [[2, 1], [3, 0]] = some false
      ∧ ∃ b, Board.of_field [[1, 2], [0, 3]] = Except.ok b
        ∧ (b.is_solvable = true ↔ Reachable [[1, 2], [0, 3]] [[1, 2], [3, 0]]) :=
  ⟨rfl, by decide, by decide, by decide,
    solvable_iff_reachable_two [[1, 2], [0, 3]] rfl (by decide)⟩

/-! ## The frontier of a_star never runs empty on a reachable goal -/

theorem expand_keeps (k : Nat) (key : Nat × Nat) (node : BoardProps) (used : List Nat)
    (frontier : List ((Nat × Nat) × BoardProps)) (move : Int × Int)
    (e : (Nat × Nat) × BoardProps) (he : e ∈ frontier) :
    e ∈ Solver.expand k key node used frontier move := by
  unfold Solver.expand
  cases move_relative node (of_signed move.1) (of_signed move.2) with
  | none => exact he
  | some q =>
    simp only []
    split
    · exact he
    · exact (mem_emplace _ _ _ _).2 (Or.inr he)

theorem foldl_expand_keeps (k : Nat) (key : Nat × Nat) (node : BoardProps) (used : List Nat)
    (e : (Nat × Nat) × BoardProps) :
    ∀ (moves : List (Int × Int)) (frontier : List ((Nat × Nat) × BoardProps)),
      e ∈ frontier → e ∈ moves.foldl (Solver.expand k key node used) frontier := by
  intro moves
  induction moves with
  | nil => intro frontier he; exact he
  | cons m rest ih =>
    intro frontier he
    rw [List.foldl_cons]
    exact ih _ (expand_keeps k key node used frontier m e he)

theorem expand_adds (k : Nat) (key : Nat × Nat) (node : BoardProps) (used : List Nat)
    (frontier : List ((Nat × Nat) × BoardProps)) (move : Int × Int) (q : BoardProps)
    (hq : move_relative node (of_signed move.1) (of_signed move.2) = some q)
    (hnew : q.hash ∉ used) :
    ∃ e ∈ Solver.expand k key node used frontier move, e.2 = q := by
  unfold Solver.expand
  rw [hq]
  simp only []
  rw [if_neg hnew]
  exact ⟨_, (mem_emplace _ _ _ _).2 (Or.inl rfl), rfl⟩

theorem foldl_expand_adds (k : Nat) (key : Nat × Nat) (node : BoardProps) (used : List Nat)
    (move : Int × Int) (q : BoardProps)
    (hq : move_relative node (of_signed move.1) (of_signed move.2) = some q)
    (hnew : q.hash ∉ used) :
    ∀ (moves : List (Int × Int)) (frontier : List ((Nat × Nat) × BoardProps)),
      move ∈ moves → ∃ e ∈ moves.foldl (Solver.expand k key node used) frontier, e.2 = q := by
  intro moves
  induction moves with
  | nil => intro frontier h; cases h
  | cons m rest ih =>
    intro frontier h
    rw [List.foldl_cons]
    rcases List.mem_cons.1 h with h1 | h1
    · subst h1
      obtain ⟨e, he, heq⟩ := expand_adds k key node used frontier move q hq hnew
      exact ⟨e, foldl_expand_keeps k key node used e rest _ he, heq⟩
    · exact ih _ h1

theorem countP_emplace (P : (Nat × Nat) × BoardProps → Bool) (key : Nat × Nat)
    (node : BoardProps) (l : List ((Nat × Nat) × BoardProps)) :
    (Solver.emplace key node l).countP P = l.countP P + (if P (key, node) then 1 else 0) := by
  induction l with
  | nil => simp [Solver.emplace, List.countP_cons]
  | cons e rest ih =>
    unfold Solver.emplace
    split
    · rw [List.countP_cons]
    · rw [List.countP_cons, ih, List.countP_cons]
      omega

theorem stale_expand (k : Nat) (key : Nat × Nat) (node : BoardProps) (used : List Nat)
    (frontier : List ((Nat × Nat) × BoardProps)) (move : Int × Int) :
    stale used (Solver.expand k key node used frontier move) = stale used frontier := by
  unfold Solver.expand
  cases move_relative node (of_signed move.1) (of_signed move.2) with
  | none => rfl
  | some q =>
    simp only []
    split
    · rfl
    · rename_i hnew
      unfold stale
      rw [countP_emplace]
      simp [hnew]

theorem stale_foldl_expand (k : Nat) (key : Nat × Nat) (node : BoardProps) (used : List Nat) :
    ∀ (moves : List (Int × Int)) (frontier : List ((Nat × Nat) × BoardProps)),
      stale used (moves.foldl (Solver.expand k key node used) frontier) = stale used frontier := by
  intro moves
  induction moves with
  | nil => intro frontier; rfl
  | cons m rest ih =>
    intro frontier
    rw [List.foldl_cons, ih, stale_expand]

theorem stale_cons_of_mem (used : List Nat) (h : Nat) (hmem : h ∈ used)
    (frontier : List ((Nat × Nat) × BoardProps)) :
    stale (h :: used) frontier = stale used frontier := by
  unfold stale
  apply List.countP_congr
  intro e _
  simp only [List.mem_cons, decide_eq_true_eq]
  constructor
  · rintro (h1 | h1)
    · rw [h1]; exact hmem
    · exact h1
  · intro h1; exact Or.inr h1

/-- With more passes allowed the loop of `a_star` returns what it returned. -/
theorem a_star_loop_mono (k : Nat) (r : Option BoardProps) :
    ∀ (fuel : Nat) (frontier : List ((Nat × Nat) × BoardProps)) (used : List Nat),
      Solver.a_star_loop k fuel frontier used = some r →
      ∀ d, Solver.a_star_loop k (fuel + d) frontier used = some r := by
  intro fuel
  induction fuel with
  | zero => intro frontier used h; simp [Solver.a_star_loop] at h
  | succ f ih =>
    intro frontier used h d
    have e : f + 1 + d = (f + d) + 1 := by omega
    rw [e]
    cases frontier with
    | nil =>
      unfold Solver.a_star_loop at h ⊢
      exact h
    | cons cur rest =>
      unfold Solver.a_star_loop at h ⊢
      split
      · rename_i hg
        rw [if_pos hg] at h
        exact h
      · rename_i hg
        rw [if_neg hg] at h
        exact ih _ _ h d

/-- For the offsets `1`, `0`, `-1` whose target lies inside the grid `move_relative`
returns the delta with the blank at the target. -/
theorem move_relative_some (par : BoardProps) (hbx : par.blank_pos.1 < 2147483648)
    (hby : par.blank_pos.2 < 2147483648) (hn : par.size < 2147483648) (dx dy : Int)
    (hdx : dx = 1 ∨ dx = 0 ∨ dx = -1) (hdy : dy = 1 ∨ dy = 0 ∨ dy = -1)
    (hx : 0 ≤ (par.blank_pos.1 : Int) + dx ∧ (par.blank_pos.1 : Int) + dx < (par.size : Int))
    (hy : 0 ≤ (par.blank_pos.2 : Int) + dy ∧ (par.blank_pos.2 : Int) + dy < (par.size : Int)) :
    move_relative par (of_signed dx) (of_signed dy)
      = some (MovedBoard par
          (((par.blank_pos.1 : Int) + dx).toNat, ((par.blank_pos.2 : Int) + dy).toNat)) := by
  have tx := target_in_range par.blank_pos.1 par.size dx hbx hn hdx
  have ty := target_in_range par.blank_pos.2 par.size dy hby hn hdy
  unfold move_relative
  simp only []
  have c1 := tx.1.2 hx
  have c2 := ty.1.2 hy
  rw [if_pos ⟨c1.1, c1.2, c2.1, c2.2⟩, tx.2 hx, ty.2 hy]

/-- Every neighbouring cell of the blank inside the grid is the target of one of the
four offsets of `available_moves`. -/
theorem move_relative_adjacent (par : BoardProps) (hbx : par.blank_pos.1 < par.size)
    (hby : par.blank_pos.2 < par.size) (hn : par.size < 2147483648)
    (t : Nat × Nat) (ht1 : t.1 < par.size) (ht2 : t.2 < par.size)
    (hadj : adjacent par.blank_pos t) :
    ∃ move ∈ Solver.available_moves,
      move_relative par (of_signed move.1) (of_signed move.2) = some (MovedBoard par t) := by
  have key : ∀ dx dy : Int, (dx = 1 ∨ dx = 0 ∨ dx = -1) → (dy = 1 ∨ dy = 0 ∨ dy = -1) →
      (t.1 : Int) = (par.blank_pos.1 : Int) + dx → (t.2 : Int) = (par.blank_pos.2 : Int) + dy →
      move_relative par (of_signed dx) (of_signed dy) = some (MovedBoard par t) := by
    intro dx dy hdx hdy e1 e2
    rw [move_relative_some par (by omega) (by omega) hn dx dy hdx hdy (by omega) (by omega)]
    congr 2
    apply Prod.ext
    · show ((par.blank_pos.1 : Int) + dx).toNat = t.1
      omega
    · show ((par.blank_pos.2 : Int) + dy).toNat = t.2
      omega
  unfold adjacent at hadj
  rcases hadj with ⟨h1, h2 | h2⟩ | ⟨h1, h2 | h2⟩
  · exact ⟨(0, 1), by simp [Solver.available_moves],
      key 0 1 (by omega) (by omega) (by omega) (by omega)⟩
  · exact ⟨(0, -1), by simp [Solver.available_moves],
      key 0 (-1) (by omega) (by omega) (by omega) (by omega)⟩
  · exact ⟨(1, 0), by simp [Solver.available_moves],
      key 1 0 (by omega) (by omega) (by omega) (by omega)⟩
  · exact ⟨(-1, 0), by simp [Solver.available_moves],
      key (-1) 0 (by omega) (by omega) (by omega) (by omega)⟩

/-- Two valid boards of the same side at most 3 with the same hash have their blank
in the same cell. -/
theorem same_hash_blank (a b : BoardProps) (ha : valid a) (hb : valid b)
    (hs : a.size = b.size) (hn : a.size ≤ 3) (h : a.hash = b.hash) :
    a.blank_pos = b.blank_pos := by
  have hcells := hash_inj_valid a b ha hb hs hn h
  have h0 : b.get a.blank_pos.1 a.blank_pos.2 = b.get b.blank_pos.1 b.blank_pos.2 := by
    rw [← hcells _ _ ha.2.1.1 ha.2.1.2.1, ha.2.1.2.2, hb.2.1.2.2]
  exact get_inj b hb.1 _ _ _ _ (by rw [← hs]; exact ha.2.1.1) (by rw [← hs]; exact ha.2.1.2.1)
    hb.2.1.1 hb.2.1.2.1 h0

/-- Two valid boards of the same side at most 3 with the same hash give deltas with
the same hash. -/
theorem same_hash_moved (a b : BoardProps) (ha : valid a) (hb : valid b)
    (hs : a.size = b.size) (hn : a.size ≤ 3) (h : a.hash = b.hash)
    (t : Nat × Nat) (ht1 : t.1 < a.size) (ht2 : t.2 < a.size) :
    (MovedBoard a t).hash = (MovedBoard b t).hash := by
  apply eq_of_cast_eq U64 _ _ (moved_hash_lt a t) (moved_hash_lt b t)
  rw [cast_moved_hash, cast_moved_hash, h, hash_inj_valid a b ha hb hs hn h _ _ ht1 ht2,
    same_hash_blank a b ha hb hs hn h, hs]

/-- Two valid boards of the same side at most 3 with the same hash are both the goal
or both not. -/
theorem same_hash_is_goal (a b : BoardProps) (ha : valid a) (hb : valid b)
    (hs : a.size = b.size) (hn : a.size ≤ 3) (h : a.hash = b.hash) :
    a.is_goal = b.is_goal := by
  have hcells := hash_inj_valid a b ha hb hs hn h
  have hham : a.hamming = b.hamming := by
    rw [ha.2.2.1, hb.2.2.1]
    exact count_grid_congr _ a b hs hcells
  unfold BoardProps.is_goal
  rw [hs, hham]

theorem reach_hash_lt (root node : BoardProps) (h : Reach root node) : node.hash < U64 := by
  cases h with
  | start => exact moved_hash_lt _ _
  | step p t _ _ _ _ => exact moved_hash_lt _ _

/-- With an empty frontier every delta over the root has its hash in
`used_states`. -/
theorem search_inv_closed (root : BoardProps) (used : List Nat)
    (hinv : search_inv root [] used) (p : BoardProps) (hp : Reach root p) : p.hash ∈ used := by
  obtain ⟨_, _, h3, h4⟩ := hinv
  induction hp with
  | start =>
    rcases h4 with h | ⟨e, he, _⟩
    · exact h
    · cases he
  | step q t hq h1 h2 hadj ih =>
    rcases h3 q hq ih t h1 h2 hadj with h | ⟨e, he, _⟩
    · exact h
    · cases he

/-- While a goal delta can be built over a root of side at most 3, the frontier is
not empty. -/
theorem search_inv_nonempty (root : BoardProps) (hv : valid root) (hn : root.size ≤ 3)
    (frontier : List ((Nat × Nat) × BoardProps)) (used : List Nat)
    (hinv : search_inv root frontier used)
    (g : BoardProps) (hg : Reach root g) (hgoal : g.is_goal = true) : frontier ≠ [] := by
  intro hempty
  subst hempty
  have hmem := search_inv_closed root used hinv g hg
  obtain ⟨p, hp, hhash, hnot⟩ := hinv.2.1 _ hmem
  have hsp := reach_size root p hp
  have hsg := reach_size root g hg
  have := same_hash_is_goal p g (reach_valid root p hv hp) (reach_valid root g hv hg)
    (by rw [hsp, hsg]) (by rw [hsp]; exact hn) hhash
  rw [hgoal, hnot] at this
  cases this

/-- One pass of the loop of `a_star` that does not return keeps the state described
by `search_inv`. -/
theorem search_inv_step (root : BoardProps) (hv : valid root) (hn : root.size ≤ 3)
    (k : Nat) (cur : (Nat × Nat) × BoardProps) (rest : List ((Nat × Nat) × BoardProps))
    (used : List Nat) (hinv : search_inv root (cur :: rest) used)
    (hgoal : cur.2.is_goal = false) :
    search_inv root
      (Solver.available_moves.foldl (Solver.expand k cur.1 cur.2 used) rest)
      (cur.2.hash :: used) := by
  obtain ⟨h1, h2, h3, h4⟩ := hinv
  have hlt : root.size < 2147483648 := by omega
  have hcur : Reach root cur.2 := h1 cur (List.mem_cons_self _ _)
  have hvc := reach_valid root cur.2 hv hcur
  have hsc := reach_size root cur.2 hcur
  have old : ∀ x : Nat,
      (x ∈ used ∨ ∃ e ∈ cur :: rest, e.2.hash = x) →
      (x ∈ cur.2.hash :: used
        ∨ ∃ e ∈ Solver.available_moves.foldl (Solver.expand k cur.1 cur.2 used) rest,
            e.2.hash = x) := by
    intro x hx
    rcases hx with hx | ⟨e, he, hx⟩
    · exact Or.inl (List.mem_cons_of_mem _ hx)
    · rcases List.mem_cons.1 he with he | he
      · left
        rw [← hx, he]
        exact List.mem_cons_self _ _
      · exact Or.inr ⟨e, foldl_expand_keeps k cur.1 cur.2 used e _ rest he, hx⟩
  refine ⟨?_, ?_, ?_, ?_⟩
  · exact foldl_expand_reach root hv hlt k cur.1 cur.2 used hcur _ (fun m hm => hm) rest
      (fun e he => h1 e (List.mem_cons_of_mem _ he))
  · intro h hh
    rcases List.mem_cons.1 hh with hh | hh
    · exact ⟨cur.2, hcur, hh.symm, hgoal⟩
    · exact h2 h hh
  · intro p hp hpu t ht1 ht2 hadj
    by_cases hold : p.hash ∈ used
    · exact old _ (h3 p hp hold t ht1 ht2 hadj)
    · have hpc : p.hash = cur.2.hash := by
        rcases List.mem_cons.1 hpu with h | h
        · exact h
        · exact absurd h hold
      have hvp := reach_valid root p hv hp
      have hsp := reach_size root p hp
      have hbl := same_hash_blank p cur.2 hvp hvc (by rw [hsp, hsc]) (by rw [hsp]; exact hn) hpc
      have hmv := same_hash_moved p cur.2 hvp hvc (by rw [hsp, hsc]) (by rw [hsp]; exact hn) hpc
        t (by rw [hsp]; exact ht1) (by rw [hsp]; exact ht2)
      rw [hmv]
      obtain ⟨move, hmove, hq⟩ := move_relative_adjacent cur.2 hvc.2.1.1 hvc.2.1.2.1
        (by rw [hsc]; exact hlt) t (by rw [hsc]; exact ht1) (by rw [hsc]; exact ht2)
        (by rw [← hbl]; exact hadj)
      by_cases hnew : (MovedBoard cur.2 t).hash ∈ used
      · exact Or.inl (List.mem_cons_of_mem _ hnew)
      · obtain ⟨e, he, heq⟩ := foldl_expand_adds k cur.1 cur.2 used move _ hq hnew
          Solver.available_moves rest hmove
        exact Or.inr ⟨e, he, by rw [heq]⟩
  · exact old _ h4

/-- The loop of `a_star` over a root of side at most 3 ends with a goal delta, when
one can be built: each pass either puts a new hash into `used_states`, of which
there are at most `2 ^ 64`, or removes from the frontier an entry whose hash is
already there. -/
theorem a_star_loop_finds (root : BoardProps) (hv : valid root) (hn : root.size ≤ 3)
    (k : Nat) (g : BoardProps) (hg : Reach root g) (hgoal : g.is_goal = true) :
    ∀ (u s : Nat) (frontier : List ((Nat × Nat) × BoardProps)) (used : List Nat),
      search_inv root frontier used → U64 - used.toFinset.card = u →
      stale used frontier = s →
      ∃ fuel node, Solver.a_star_loop k fuel frontier used = some (some node)
        ∧ node.is_goal = true := by
  intro u
  induction u using Nat.strong_induction_on with
  | _ u ihu =>
    intro s
    induction s using Nat.strong_induction_on with
    | _ s ihs =>
      intro frontier used hinv hu hs
      cases frontier with
      | nil => exact absurd rfl (search_inv_nonempty root hv hn [] used hinv g hg hgoal)
      | cons cur rest =>
        by_cases hgo : cur.2.is_goal = true
        · refine ⟨1, cur.2, ?_, hgo⟩
          unfold Solver.a_star_loop
          rw [if_pos hgo]
        · have hgf : cur.2.is_goal = false := by simpa using hgo
          have hinv2 := search_inv_step root hv hn k cur rest used hinv hgf
          by_cases hmem : cur.2.hash ∈ used
          · have hcount : stale used (cur :: rest) = stale used rest + 1 := by
              unfold stale
              rw [List.countP_cons]
              simp [hmem]
            have hs2 : stale (cur.2.hash :: used)
                (Solver.available_moves.foldl (Solver.expand k cur.1 cur.2 used) rest)
                  = s - 1 := by
              rw [stale_cons_of_mem used _ hmem, stale_foldl_expand]
              omega
            have hu2 : U64 - (cur.2.hash :: used).toFinset.card = u := by
              rw [List.toFinset_cons, Finset.insert_eq_of_mem (List.mem_toFinset.2 hmem)]
              exact hu
            obtain ⟨fuel, node, hres, hng⟩ := ihs (s - 1) (by omega) _ _ hinv2 hu2 hs2
            refine ⟨fuel + 1, node, ?_, hng⟩
            unfold Solver.a_star_loop
            rw [if_neg hgo]
            exact hres
          · have hcard : (cur.2.hash :: used).toFinset.card = used.toFinset.card + 1 := by
              rw [List.toFinset_cons,
                Finset.card_insert_of_not_mem (fun h => hmem (List.mem_toFinset.1 h))]
            have hle : (cur.2.hash :: used).toFinset.card ≤ U64 := by
              have hsub : (cur.2.hash :: used).toFinset ⊆ Finset.range U64 := by
                intro x hx
                obtain ⟨p, hp, hpx, _⟩ := hinv2.2.1 x (List.mem_toFinset.1 hx)
                rw [← hpx]
                exact Finset.mem_range.2 (reach_hash_lt root p hp)
              have := Finset.card_le_card hsub
              rwa [Finset.card_range] at this
            obtain ⟨fuel, node, hres, hng⟩ :=
              ihu (U64 - (cur.2.hash :: used).toFinset.card) (by omega) _ _ _ hinv2 rfl rfl
            refine ⟨fuel + 1, node, ?_, hng⟩
            unfold Solver.a_star_loop
            rw [if_neg hgo]
            exact hres

/-- The grid of the root delta is the grid of the board. -/
theorem start_grid (root : BoardProps) (hv : valid root) :
    (MovedBoard root root.blank_pos).grid = root.grid := by
  have hvm := valid_moved root root.blank_pos hv ⟨hv.2.1.1, hv.2.1.2.1⟩
  apply grid_ext _ _ hvm.1.1 hv.1.1
  · rw [length_grid, length_grid, moved_size]
  · intro i j hi hj
    rw [length_grid, moved_size] at hi hj
    rw [cell_grid _ i j (by rw [moved_size]; exact hi) (by rw [moved_size]; exact hj),
      cell_grid root i j hi hj]
    exact ((same_board_start root hv).2.2 i j hi hj).symm

/-- A legal blank move on the grid of a valid board gives the grid of a delta. -/
theorem legal_move_moved (p : BoardProps) (hv : valid p) (h : Grid)
    (hmove : legal_move p.grid h) :
    ∃ t : Nat × Nat, t.1 < p.size ∧ t.2 < p.size ∧ adjacent p.blank_pos t
      ∧ (MovedBoard p t).grid = h := by
  unfold legal_move blank_moves at hmove
  simp only [List.mem_flatMap, List.mem_filter, List.mem_map, decide_eq_true_eq] at hmove
  obtain ⟨bp, ⟨hbp, hzero⟩, t, ⟨ht, hadj⟩, rfl⟩ := hmove
  rw [length_grid] at hbp ht
  have hbp2 := List.pair_mem_product.1 hbp
  have ht2 := List.pair_mem_product.1 ht
  have hb1 : bp.1 < p.size := List.mem_range.1 hbp2.1
  have hb2 : bp.2 < p.size := List.mem_range.1 hbp2.2
  have h1 : t.1 < p.size := List.mem_range.1 ht2.1
  have h2 : t.2 < p.size := List.mem_range.1 ht2.2
  rw [cell_grid p _ _ hb1 hb2] at hzero
  have hbpe : bp = p.blank_pos :=
    get_inj p hv.1 _ _ _ _ hb1 hb2 hv.2.1.1 hv.2.1.2.1 (hzero.trans hv.2.1.2.2.symm)
  subst hbpe
  refine ⟨t, h1, h2, hadj, ?_⟩
  rw [moved_grid]
  unfold internal_data exchange
  rw [moved_size, length_grid]
  apply List.map_congr_left
  intro i hi
  apply List.map_congr_left
  intro j hj
  rw [moved_get, cell_grid p _ _ hb1 hb2, cell_grid p _ _ h1 h2,
    cell_grid p i j (List.mem_range.1 hi) (List.mem_range.1 hj), hzero]

/-- An arrangement reachable from the grid of a valid board by legal blank moves is
the grid of a delta that the search can build over the board. -/
theorem reach_of_reachable (root : BoardProps) (hv : valid root) (h : Grid)
    (hr : Reachable root.grid h) : ∃ p, Reach root p ∧ p.grid = h := by
  induction hr with
  | refl => exact ⟨_, Reach.start, start_grid root hv⟩
  | tail _ hstep ih =>
    obtain ⟨p, hp, hpg⟩ := ih
    rw [← hpg] at hstep
    obtain ⟨t, h1, h2, hadj, hgrid⟩ := legal_move_moved p (reach_valid root p hv hp) _ hstep
    have hs := reach_size root p hp
    exact ⟨_, Reach.step p t hp (by rw [← hs]; exact h1) (by rw [← hs]; exact h2) hadj, hgrid⟩

/-- C18. For every valid board of side `n ≤ 3` from which the goal arrangement can
be reached by legal blank moves, the loop of `a_star` ends: from some bound on the
number of passes on it returns a node, the node is not the empty pointer and its
`is_goal()` is true, and under no bound does it return the empty pointer of an
exhausted frontier; so `solve` passes its `assert(result)` and returns. -/
theorem a_star_finds_goal (board : BoardProps) (hv : valid board) (hn : board.size ≤ 3)
    (hreach : Reachable board.grid (goal_grid board.size)) :
    ∃ fuel node,
      (∀ fuel2, fuel ≤ fuel2 → Solver.a_star fuel2 board = some (some node))
        ∧ node.is_goal = true
        ∧ (∀ fuel2, Solver.a_star fuel2 board ≠ some none)
        ∧ (∀ fuel2, fuel ≤ fuel2 → ∃ solution, Solver.solve fuel2 board = some solution) := by
  obtain ⟨g, hg, hgrid⟩ := reach_of_reachable board hv _ hreach
  have hfit : board.size * board.size < U32 := by
    have : board.size * board.size ≤ 3 * 3 := Nat.mul_le_mul hn hn
    unfold U32
    omega
  have hgoal : g.is_goal = true := by
    have hvg := reach_valid board g hv hg
    unfold BoardProps.is_goal
    rw [hvg.2.2.1, hgrid, calculate_hamming_goal_grid _ hfit]
    simp
  have hroot := move_relative_zero board hv.2.1 (by omega)
  have hinv : search_inv board
      [(((board.manhattan * (if board.size > 4 then 39 else 3)) % U32, 0),
        MovedBoard board board.blank_pos)] [] := by
    refine ⟨?_, ?_, ?_, ?_⟩
    · intro e he
      rw [List.mem_singleton.1 he]
      exact Reach.start
    · intro h hh
      cases hh
    · intro p _ hp
      cases hp
    · exact Or.inr ⟨_, List.mem_singleton.2 rfl, rfl⟩
  obtain ⟨fuel, node, hres, hng⟩ := a_star_loop_finds board hv hn
    (if board.size > 4 then 39 else 3) g hg hgoal _ _ _ _ hinv rfl rfl
  have hstar : ∀ fuel2, fuel ≤ fuel2 → Solver.a_star fuel2 board = some (some node) := by
    intro fuel2 hle
    unfold Solver.a_star
    simp only []
    rw [hroot]
    simp only []
    have := a_star_loop_mono _ _ fuel _ _ hres (fuel2 - fuel)
    rwa [Nat.add_sub_cancel' hle] at this
  refine ⟨fuel, node, hstar, hng, ?_, ?_⟩
  · intro fuel2 hnone
    have h1 := hstar (fuel + fuel2) (by omega)
    unfold Solver.a_star at hnone h1
    simp only [] at hnone h1
    rw [hroot] at hnone h1
    simp only [] at hnone h1
    have h2 := a_star_loop_mono _ _ fuel2 _ _ hnone fuel
    rw [Nat.add_comm] at h2
    rw [h2] at h1
    cases h1
  · intro fuel2 hle
    unfold Solver.solve
    split
    · exact ⟨_, rfl⟩
    · split
      · exact ⟨_, rfl⟩
      · rw [hstar fuel2 hle]
        exact ⟨_, rfl⟩

/-- The statement C18 at the board of `[[1, 2, 3], [4, 5, 6], [7, 0, 8]]`, one move
away from the goal. -/
theorem a_star_finds_goal_witness :
    valid sample_board ∧ sample_board.size ≤ 3
      ∧ Reachable sample_board.grid (goal_grid sample_board.size)
      ∧ ∃ fuel node,
          (∀ fuel2, fuel ≤ fuel2 → Solver.a_star fuel2 sample_board = some (some node))
            ∧ node.is_goal = true
            ∧ (∀ fuel2, Solver.a_star fuel2 sample_board ≠ some none)
            ∧ (∀ fuel2, fuel ≤ fuel2 →
                ∃ solution, Solver.solve fuel2 sample_board = some solution) :=
  ⟨valid_of_field [[1, 2, 3], [4, 5, 6], [7, 0, 8]] sample_board (by decide) (by decide) rfl, by decide,
    reach_within_sound 1 _ _ (by decide),
    a_star_finds_goal sample_board (valid_of_field [[1, 2, 3], [4, 5, 6], [7, 0, 8]] sample_board (by decide) (by decide) rfl) (by decide)
      (reach_within_sound 1 _ _ (by decide))⟩

/-! ## Each legal move changes the Manhattan value by one -/

/-- The value of `calculate_single_manhattan` for a tile: the distance in rows plus
the distance in columns between the cell and the goal cell of the tile. -/
theorem single_manhattan_value (x y label n : Nat) (hl : 1 ≤ label) (hlabel : label < n * n)
    (hx : x < n) (hy : y < n) (hn : n < 2147483648) :
    calculate_single_manhattan x y label n
      = ((label - 1) / n - x) + (x - (label - 1) / n)
        + (((label - 1) % n - y) + (y - (label - 1) % n)) := by
  have hpos : 0 < n := by omega
  have hgx : (label - 1) / n < n := (Nat.div_lt_iff_lt_mul hpos).2 (by omega)
  have hgy : (label - 1) % n < n := Nat.mod_lt _ hpos
  unfold calculate_single_manhattan
  rw [if_neg (by omega)]
  simp only []
  rw [to_signed_small _ (by omega), to_signed_small x (by omega),
    to_signed_small _ (by omega), to_signed_small y (by omega)]
  generalize (label - 1) / n = gx at hgx ⊢
  generalize (label - 1) % n = gy at hgy ⊢
  have e : |(gx : Int) - (x : Int)| + |(gy : Int) - (y : Int)|
      = (((gx - x) + (x - gx) + ((gy - y) + (y - gy)) : Nat) : Int) := by
    have a1 : |(gx : Int) - (x : Int)| = (((gx - x) + (x - gx) : Nat) : Int) := by
      rcases le_total gx x with h | h
      · rw [abs_of_nonpos (by omega)]; omega
      · rw [abs_of_nonneg (by omega)]; omega
    have a2 : |(gy : Int) - (y : Int)| = (((gy - y) + (y - gy) : Nat) : Int) := by
      rcases le_total gy y with h | h
      · rw [abs_of_nonpos (by omega)]; omega
      · rw [abs_of_nonneg (by omega)]; omega
    rw [a1, a2]
    push_cast
    rfl
  rw [e, of_signed_natCast _ (by unfold U32; omega)]

/-- Between two neighbouring cells the distance of a tile to its goal cell differs by
exactly one. -/
theorem single_manhattan_step (a t : Nat × Nat) (label n : Nat) (hl : 1 ≤ label)
    (hlabel : label < n * n) (ha : a.1 < n ∧ a.2 < n) (ht : t.1 < n ∧ t.2 < n)
    (hn : n < 2147483648) (hadj : adjacent a t) :
    calculate_single_manhattan a.1 a.2 label n = calculate_single_manhattan t.1 t.2 label n + 1
      ∨ calculate_single_manhattan a.1 a.2 label n + 1
          = calculate_single_manhattan t.1 t.2 label n := by
  rw [single_manhattan_value a.1 a.2 label n hl hlabel ha.1 ha.2 hn,
    single_manhattan_value t.1 t.2 label n hl hlabel ht.1 ht.2 hn]
  unfold adjacent at hadj
  generalize (label - 1) / n = gx
  generalize (label - 1) % n = gy
  omega

/-- No term of the Manhattan value exceeds twice the side less two. -/
theorem single_manhattan_le (x y label n : Nat) (hlabel : label < n * n)
    (hx : x < n) (hy : y < n) (hn : n < 2147483648) :
    calculate_single_manhattan x y label n ≤ 2 * n - 2 := by
  by_cases h0 : label = 0
  · rw [h0]
    simp [calculate_single_manhattan]
  · have hpos : 0 < n := by omega
    have hgx : (label - 1) / n < n := (Nat.div_lt_iff_lt_mul hpos).2 (by omega)
    have hgy : (label - 1) % n < n := Nat.mod_lt _ hpos
    rw [single_manhattan_value x y label n (by omega) hlabel hx hy hn]
    generalize (label - 1) / n = gx at hgx ⊢
    generalize (label - 1) % n = gy at hgy ⊢
    omega

/-- When twice the cube of the side fits, `calculate_manhattan` of a permutation grid
is the plain sum of the distances of the tiles. -/
theorem calculate_manhattan_eq_sum (p : BoardProps) (hperm : is_permutation p.grid)
    (hfit : 2 * p.size * p.size * p.size < U32) :
    Board.calculate_manhattan p.grid
        = ∑ i in Finset.range p.size, ∑ j in Finset.range p.size,
            calculate_single_manhattan i j (p.get i j) p.size
      ∧ (∑ i in Finset.range p.size, ∑ j in Finset.range p.size,
            calculate_single_manhattan i j (p.get i j) p.size) + 2 * p.size * p.size
          ≤ 2 * p.size * p.size * p.size := by
  have hlt : p.size < 2147483648 := by
    by_contra h
    have h1 : 2147483648 ≤ p.size := by omega
    have h2 : 2 * 2147483648 * 1 * 1 ≤ 2 * p.size * p.size * p.size :=
      Nat.mul_le_mul (Nat.mul_le_mul (Nat.mul_le_mul (le_refl 2) h1) (by omega)) (by omega)
    unfold U32 at hfit
    omega
  have hterm : ∀ i j, i < p.size → j < p.size →
      calculate_single_manhattan i j (p.get i j) p.size ≤ 2 * p.size - 2 := by
    intro i j hi hj
    have hc := cell_lt p.grid hperm i j (by rw [length_grid]; exact hi)
      (by rw [length_grid]; exact hj)
    rw [length_grid, cell_grid p i j hi hj] at hc
    exact single_manhattan_le i j _ _ hc hi hj hlt
  have hsum : (∑ i in Finset.range p.size, ∑ j in Finset.range p.size,
      calculate_single_manhattan i j (p.get i j) p.size) ≤ p.size * (p.size * (2 * p.size - 2)) := by
    calc (∑ i in Finset.range p.size, ∑ j in Finset.range p.size,
          calculate_single_manhattan i j (p.get i j) p.size)
        ≤ ∑ _i in Finset.range p.size, p.size * (2 * p.size - 2) := by
          apply Finset.sum_le_sum
          intro i hi
          calc (∑ j in Finset.range p.size, calculate_single_manhattan i j (p.get i j) p.size)
              ≤ ∑ _j in Finset.range p.size, (2 * p.size - 2) :=
                Finset.sum_le_sum (fun j hj =>
                  hterm i j (Finset.mem_range.1 hi) (Finset.mem_range.1 hj))
            _ = p.size * (2 * p.size - 2) := by simp
      _ = p.size * (p.size * (2 * p.size - 2)) := by simp
  have hbound : p.size * (p.size * (2 * p.size - 2)) + 2 * p.size * p.size
      = 2 * p.size * p.size * p.size := by
    rcases Nat.eq_zero_or_pos p.size with h0 | h0
    · rw [h0]
    · obtain ⟨k, hk⟩ : ∃ k, p.size = k + 1 := ⟨p.size - 1, by omega⟩
      rw [hk]
      have : 2 * (k + 1) - 2 = 2 * k := by omega
      rw [this]
      ring
  constructor
  · unfold Board.calculate_manhattan
    rw [count_eq_sum, length_grid]
    have hcongr : (∑ i in Finset.range p.size, ∑ j in Finset.range p.size,
        calculate_single_manhattan i j (cell p.grid i j) p.size)
        = ∑ i in Finset.range p.size, ∑ j in Finset.range p.size,
          calculate_single_manhattan i j (p.get i j) p.size := by
      refine Finset.sum_congr rfl (fun i hi => Finset.sum_congr rfl (fun j hj => ?_))
      rw [cell_grid p i j (Finset.mem_range.1 hi) (Finset.mem_range.1 hj)]
    rw [hcongr]
    apply Nat.mod_eq_of_lt
    omega
  · omega

/-- C21. For every board `p` of side `n ≥ 2` (with `n * n` inside the unsigned type)
that holds a permutation of `0 .. n * n - 1`, and every delta `d` that
`move_relative(p, dx, dy)` returns for one of the four unit offsets, `d.manhattan()`
is `p.manhattan() + 1` or `p.manhattan() - 1` as `unsigned` values; when twice the
cube of the side fits the unsigned type and the cached value of `p` is the recomputed
one, no wraparound occurs and the two values differ by exactly one. -/
theorem move_changes_manhattan (p : BoardProps) (hperm : is_permutation p.grid)
    (hb : blank_ok p) (hn : 2 ≤ p.size) (hfit : p.size * p.size < U32)
    (move : Int × Int) (hmove : move ∈ [((1 : Int), (0 : Int)), (0, 1), (-1, 0), (0, -1)])
    (d : BoardProps)
    (hd : move_relative p (of_signed move.1) (of_signed move.2) = some d) :
    (d.manhattan = add32 p.manhattan 1 ∨ d.manhattan = sub32 p.manhattan 1)
      ∧ (p.manhattan = Board.calculate_manhattan p.grid →
          2 * p.size * p.size * p.size < U32 →
          d.manhattan = p.manhattan + 1 ∨ d.manhattan + 1 = p.manhattan) := by
  have hlt := side_lt_of_fit p.size hfit
  obtain ⟨t, rfl, ht1, ht2, hadj⟩ := move_relative_available p hb.1 hb.2.1 hlt move hmove _ hd
  have hne : t ≠ p.blank_pos := (adjacent_ne _ _ hadj).symm
  have hlabel0 : p.get t.1 t.2 ≠ 0 := by
    intro h0
    exact hne (get_inj p hperm _ _ _ _ ht1 ht2 hb.1 hb.2.1 (h0.trans hb.2.2.symm))
  have hlabel : p.get t.1 t.2 < p.size * p.size := by
    have hc := cell_lt p.grid hperm t.1 t.2 (by rw [length_grid]; exact ht1)
      (by rw [length_grid]; exact ht2)
    rw [length_grid, cell_grid p _ _ ht1 ht2] at hc
    exact hc
  have hstep := single_manhattan_step p.blank_pos t (p.get t.1 t.2) p.size (by omega) hlabel
    ⟨hb.1, hb.2.1⟩ ⟨ht1, ht2⟩ hlt hadj
  have hcast := cast_moved_manhattan p t
  have hmod : (MovedBoard p t).manhattan = add32 p.manhattan 1
      ∨ (MovedBoard p t).manhattan = sub32 p.manhattan 1 := by
    rcases hstep with h | h
    · left
      apply eq_of_cast_eq U32 _ _ (moved_manhattan_lt p t) (add32_lt _ _)
      rw [hcast, cast_add32, h]
      push_cast
      ring
    · right
      apply eq_of_cast_eq U32 _ _ (moved_manhattan_lt p t)
        (show sub32 p.manhattan 1 < U32 from Nat.mod_lt _ U32_pos)
      rw [hcast, cast_sub32, ← h]
      push_cast
      ring
  refine ⟨hmod, ?_⟩
  intro hcache hcube
  obtain ⟨hsum, hbound⟩ := calculate_manhattan_eq_sum p hperm hcube
  have hsq : 4 ≤ p.size * p.size := Nat.mul_le_mul hn hn
  have hterm : calculate_single_manhattan t.1 t.2 (p.get t.1 t.2) p.size ≤ p.manhattan := by
    rw [hcache, hsum]
    calc calculate_single_manhattan t.1 t.2 (p.get t.1 t.2) p.size
        ≤ ∑ j in Finset.range p.size, calculate_single_manhattan t.1 j (p.get t.1 j) p.size :=
          Finset.single_le_sum
            (f := fun j => calculate_single_manhattan t.1 j (p.get t.1 j) p.size)
            (fun _ _ => Nat.zero_le _) (Finset.mem_range.2 ht2)
      _ ≤ _ :=
          Finset.single_le_sum
            (f := fun i => ∑ j in Finset.range p.size,
              calculate_single_manhattan i j (p.get i j) p.size)
            (fun _ _ => Nat.zero_le _) (Finset.mem_range.2 ht1)
  have hsmall : p.manhattan + 8 ≤ 2 * p.size * p.size * p.size := by
    rw [hcache, hsum]
    have e8 : 8 ≤ 2 * p.size * p.size := by
      have e : 2 * p.size * p.size = 2 * (p.size * p.size) := by ring
      rw [e]
      omega
    omega
  rw [moved_manhattan_def]
  unfold add32 sub32
  rcases hstep with h | h
  · left
    rw [h]
    generalize calculate_single_manhattan t.1 t.2 (p.get t.1 t.2) p.size = s at hterm ⊢
    generalize p.manhattan = m at hterm hsmall ⊢
    generalize 2 * p.size * p.size * p.size = c at hcube hsmall
    unfold U32 at *
    omega
  · right
    rw [← h]
    generalize calculate_single_manhattan p.blank_pos.1 p.blank_pos.2 (p.get t.1 t.2) p.size
      = s at h hterm ⊢
    generalize p.manhattan = m at hterm hsmall ⊢
    generalize 2 * p.size * p.size * p.size = c at hcube hsmall
    rw [← h] at hterm
    unfold U32 at *
    omega

/-- The statement C21 at the board of `[[1, 2, 3], [4, 5, 6], [7, 0, 8]]`: the move of
the blank to the right brings the Manhattan value from 1 to 0, the move to the left
from 1 to 2. -/
theorem move_changes_manhattan_witness :
    sample_board.manhattan = 1
      ∧ (MovedBoard sample_board (2, 2)).manhattan = 0
      ∧ (MovedBoard sample_board (2, 0)).manhattan = 2
      ∧ ((MovedBoard sample_board (2, 2)).manhattan = add32 sample_board.manhattan 1
          ∨ (MovedBoard sample_board (2, 2)).manhattan = sub32 sample_board.manhattan 1)
      ∧ (sample_board.manhattan = Board.calculate_manhattan sample_board.grid →
          2 * sample_board.size * sample_board.size * sample_board.size < U32 →
          (MovedBoard sample_board (2, 2)).manhattan = sample_board.manhattan + 1
            ∨ (MovedBoard sample_board (2, 2)).manhattan + 1 = sample_board.manhattan) :=
  ⟨by decide, by decide, by decide,
    move_changes_manhattan sample_board (by decide) (by decide) (by decide) (by decide)
      (0, 1) (by decide) (MovedBoard sample_board (2, 2)) (by decide)⟩

end Puzzle
